import Mathlib

/-!
# GoTimelines: periods, period values and timelines

A shallow embedding of the Go package `core` (files `period.go`,
`period_value.go`, `timeline.go`) together with theorems about it.

Modelling conventions.

* An instant (`time.Time`) is a `Time`: an integer number of ticks on one time axis, and a
  number standing for the rest of the value (its `Location`, its monotonic clock reading).
  `Before`, `After` and `Equal` compare the ticks; `==`, and so the keys of a map, compare the
  whole value.  The zero `time.Time{}` is the tick `0` in the representation `0`, and a
  numeral `n` is the tick `n` in the representation `0`, as `time.Date(..., time.UTC)` builds
  it.
* Go ranges over a map in an unspecified order; the keys of the map of `SplitAllPeriods` are
  taken in the order of their first insertion.  The sort that follows orders them by instant,
  so that this order shows only between keys of the same instant, which exist only when an
  instant comes in two representations.
* A Go function returning `(x, error)` returns a pair whose second component is
  `none` for a `nil` error; a function returning `(*Period, error)` returns an
  `Except`.
* The zero value of the type parameter `T` is `default`.
* `sort.Slice` is the stable insertion sort, the algorithm Go runs on slices
  of at most twelve elements; Go leaves the order of items with equal starts
  unspecified on longer slices.  When the start instants are pairwise distinct
  every correct sort returns the same list.
* A `nil` slice and an empty slice are both the empty list.  A method that rewrites the
  items of its receiver returns the timeline it leaves; `Aggregate` returns a new timeline, and
  what its `append` and sort do to the backing array of its receiver is
  `Timeline.itemsAfterAggregate`.
* A channel filled by a goroutine and then closed is the list of the periods
  sent on it, in order.  The loop of `Split` need not end, so `Split` takes a
  bound on the number of iterations and returns `none` when the bound is met.
* `AddDate(0, 0, 1)` on a UTC instant adds one day of a fixed number of ticks and keeps the
  representation.
* The fluent calls on a `TimeLineBuilder` are a fold of the calls over the
  builder.
-/

namespace Timelines

/-- Go `time.Time`: the instant `tick` on the time axis, and in `zone` what else the value
holds (its `Location`, its monotonic clock reading).  Two values are the same map key, and
`==` in Go, when both fields agree; `Before`, `After` and `Equal` look at the instant only. -/
structure Time where
  tick : Int
  zone : Nat
  deriving DecidableEq, Repr

/-- A numeral is the instant of that many ticks in the representation `0` (UTC, no monotonic
clock reading), as built by `time.Date(..., time.UTC)`. -/
instance (n : Nat) : OfNat Time n := ⟨{ tick := n, zone := 0 }⟩

/-- Go `Time.Before`. -/
def Time.Before (t u : Time) : Bool := decide (t.tick < u.tick)

/-- Go `Time.After`. -/
def Time.After (t u : Time) : Bool := decide (t.tick > u.tick)

/-- Go `Time.Equal`. -/
def Time.Equal (t u : Time) : Bool := decide (t.tick = u.tick)

/-- Go `Time.Add`: the instant moves by `d` ticks and the representation is kept. -/
def Time.Add (t : Time) (d : Int) : Time := { tick := t.tick + d, zone := t.zone }

/-- A period of time `[Start, End)`. -/
structure Period where
  Start : Time
  End : Time
  deriving DecidableEq, Repr

/-- The message of the error returned by `NewPeriod`. -/
def errInvalidPeriod : String := "end date must be after start date"

/-- The message of the error returned by `Period.Clamp`. -/
def errOutside : String := "limit is outside"

/-- The message of the error returned by `Timeline.ResolveConflicts`. -/
def errUnsorted : String := "timeline should have sorted periods"

/-- Go `NewPeriod`: fails unless `end` is after `start`. -/
def NewPeriod (start stop : Time) : Except String Period :=
  if !(stop.After start) then .error errInvalidPeriod
  else .ok { Start := start, End := stop }

/-- Go `Empty`: the period whose two instants are the zero `time.Time{}`. -/
def Empty : Period := { Start := { tick := 0, zone := 0 }, End := { tick := 0, zone := 0 } }

/-- Go `Period.Equal`. -/
def Period.Equal (p other : Period) : Bool :=
  p.Start.Equal other.Start && p.End.Equal other.End

/-- Go `Period.Contains`. -/
def Period.Contains (p : Period) (t : Time) : Bool :=
  (t.After p.Start || t.Equal p.Start) && (t.Before p.End || t.Equal p.End)

/-- Go `Period.ContainsPeriod`. -/
def Period.ContainsPeriod (p other : Period) : Bool :=
  (p.Start.Before other.Start || p.Start.Equal other.Start) &&
    (p.End.After other.End || p.End.Equal other.End)

/-- Go `Period.Intersects`. -/
def Period.Intersects (p other : Period) : Bool :=
  p.Start.Before other.End && p.End.After other.Start

/-- Go `Period.Before`. -/
def Period.Before (p other : Period) : Bool :=
  p.End.Before other.Start || p.End.Equal other.Start

/-- Go `Period.After`. -/
def Period.After (p other : Period) : Bool :=
  p.Start.After other.End || p.Start.Equal other.End

/-- Go `minTime`. -/
def minTime (t1 t2 : Time) : Time := if t1.Before t2 then t1 else t2

/-- Go `maxTime`. -/
def maxTime (t1 t2 : Time) : Time := if t1.After t2 then t1 else t2

/-- Go `Period.IsEmpty`. -/
def Period.IsEmpty (p : Period) : Bool := !(p.Start.Before p.End)

/-- Go `Period.Clamp`: the returned period is `Empty` whenever an error is returned. -/
def Period.Clamp (p limit : Period) : Period × Option String :=
  if p.Intersects limit then
    match NewPeriod (maxTime limit.Start p.Start) (minTime limit.End p.End) with
    | .error e => (Empty, some e)
    | .ok period => (period, none)
  else (Empty, some errOutside)

/-- Go `Period.IsContiguous`. -/
def Period.IsContiguous (p other : Period) : Bool :=
  p.End.Equal other.Start || p.Start.Equal other.End

/-- Go `PeriodValue[T]`: a value attached to a period. -/
structure PeriodValue (T : Type) where
  Period : Timelines.Period
  Value : T
  deriving DecidableEq, Repr

/-- Go `NewPeriodValue`. -/
def NewPeriodValue {T : Type} (period : Period) (value : T) : PeriodValue T :=
  { Period := period, Value := value }

/-- Go `PeriodValue.IsEmpty`. -/
def PeriodValue.IsEmpty {T : Type} (p : PeriodValue T) : Bool := p.Period.IsEmpty

/-- Go `PeriodValue.Clamp`: on error the zero `PeriodValue` is returned with the error. -/
def PeriodValue.Clamp {T : Type} [Inhabited T] (p : PeriodValue T) (limit : Timelines.Period) :
    PeriodValue T × Option String :=
  match p.Period.Clamp limit with
  | (_, some e) => ({ Period := Empty, Value := default }, some e)
  | (clamp, none) => ({ Period := clamp, Value := p.Value }, none)

/-- The keys of the map built by `SplitAllPeriods`: every start and end `time.Time`, each value
once.  Two values of the same instant that differ in representation are two keys. -/
def timeKeys {T : Type} (periodValues : List (PeriodValue T)) : List Time :=
  (periodValues.flatMap (fun pv => [pv.Period.Start, pv.Period.End])).dedup

/-- The slice `allTimes` of `SplitAllPeriods` after `sort.Slice`: the keys in ascending order of
their instants. -/
def allTimes {T : Type} (periodValues : List (PeriodValue T)) : List Time :=
  (timeKeys periodValues).insertionSort (fun a b => a.tick ≤ b.tick)

/-- The last loop of `SplitAllPeriods`: one period between each two neighbouring keys. -/
def consecutivePeriods : List Time → List Period
  | [] => []
  | a :: rest =>
    match rest with
    | [] => []
    | b :: _ => { Start := a, End := b } :: consecutivePeriods rest

/-- Go `SplitAllPeriods`. -/
def SplitAllPeriods {T : Type} (periodValues : List (PeriodValue T)) : List Period :=
  consecutivePeriods (allTimes periodValues)

/-- Go `ClampPeriods`: the items whose clamp succeeds with a non-empty period. -/
def ClampPeriods {T : Type} [Inhabited T] (periodValues : List (PeriodValue T)) (limit : Period) :
    List (PeriodValue T) :=
  periodValues.filterMap (fun pv =>
    match pv.Clamp limit with
    | (clamp, none) => if !clamp.Period.IsEmpty then some clamp else none
    | (_, some _) => none)

/-- Go `Timeline[T]`. -/
structure Timeline (T : Type) where
  Items : List (PeriodValue T)
  deriving DecidableEq, Repr

/-- Go `NewTimeline`. -/
def NewTimeline {T : Type} : Timeline T := { Items := [] }

/-- Go `Timeline.SortTimelineByPeriodStart`. -/
def Timeline.SortTimelineByPeriodStart {T : Type} (t : Timeline T) : Timeline T :=
  { Items := t.Items.insertionSort (fun a b => a.Period.Start.tick ≤ b.Period.Start.tick) }

/-- The inner loop of `computeValuesOnSamePeriods`: the fold of `f` over the buffered items
whose period intersects `period`, from the zero value. -/
def foldOnPeriod {T : Type} [Inhabited T] (f : Period → T → T → T)
    (buffer : List (PeriodValue T)) (period : Period) : T :=
  buffer.foldl
    (fun currentValue candidate =>
      if candidate.Period.Intersects period then f period candidate.Value currentValue
      else currentValue)
    default

/-- Go `computeValuesOnSamePeriods`. -/
def computeValuesOnSamePeriods {T : Type} [Inhabited T] (buffer : List (PeriodValue T))
    (f : Period → T → T → T) : List (PeriodValue T) :=
  (SplitAllPeriods buffer).map (fun period => NewPeriodValue period (foldOnPeriod f buffer period))

/-- The loop of `ResolveConflicts` from its second iteration on: `rest` are the items still to
visit, `items`, `buffer` and `currentPeriod` the local variables of the Go function. -/
def resolveLoop {T : Type} [Inhabited T] (f : Period → T → T → T) :
    List (PeriodValue T) → List (PeriodValue T) → List (PeriodValue T) → Period →
      Timeline T × Option String
  | [], items, buffer, _ => ({ Items := items ++ computeValuesOnSamePeriods buffer f }, none)
  | next :: rest, items, buffer, currentPeriod =>
    if next.Period.Before currentPeriod then ({ Items := [] }, some errUnsorted)
    else if next.Period.After currentPeriod then
      resolveLoop f rest (items ++ computeValuesOnSamePeriods buffer f)
        (ClampPeriods buffer next.Period ++ [next]) next.Period
    else
      match NewPeriod currentPeriod.Start (maxTime next.Period.Start currentPeriod.End) with
      | .error e => ({ Items := [] }, some e)
      | .ok period => resolveLoop f rest items (buffer ++ [next]) period

/-- Go `Timeline.ResolveConflicts`. -/
def Timeline.ResolveConflicts {T : Type} [Inhabited T] (t : Timeline T)
    (f : Period → T → T → T) : Timeline T × Option String :=
  match t.Items with
  | [] => ({ Items := computeValuesOnSamePeriods [] f }, none)
  | first :: rest => resolveLoop f rest [] [first] first.Period

/-- Go `Timeline.Aggregate`: the values returned.  What the call does to the items of its
receiver is `Timeline.itemsAfterAggregate`. -/
def Timeline.Aggregate {T : Type} [Inhabited T] (t other : Timeline T)
    (f : Period → T → T → T) : Timeline T × Option String :=
  if t.Items.length = 0 then (other, none)
  else if other.Items.length = 0 then (t, none)
  else
    match (Timeline.SortTimelineByPeriodStart
        { Items := t.Items ++ other.Items }).ResolveConflicts f with
    | (_, some e) => ({ Items := [] }, some e)
    | (result, none) => (result, none)

/-- The items of the receiver `t` of `Timeline.Aggregate` once the call has returned, `spare`
being the capacity of the slice `t.Items` beyond its length.  When the items of `other` fit in
that capacity `append(t.Items, other.Items...)` writes them in the backing array of `t.Items`,
and the sort of the concatenation then rearranges that array, of which `t.Items` is the first
`len(t.Items)` elements; otherwise `append` takes a new array and `t.Items` is left as it is.
The items of `other` are only read. -/
def Timeline.itemsAfterAggregate {T : Type} (t other : Timeline T) (spare : Nat) :
    List (PeriodValue T) :=
  if t.Items.length = 0 then t.Items
  else if other.Items.length = 0 then t.Items
  else if other.Items.length ≤ spare then
    (Timeline.SortTimelineByPeriodStart { Items := t.Items ++ other.Items }).Items.take
      t.Items.length
  else t.Items

/-- The loop of `FindIntersects`: `items` are the items gathered so far; the scan stops at the
first item that starts after the end of `period`. -/
def findIntersectsLoop {T : Type} (period : Period) :
    List (PeriodValue T) → List (PeriodValue T) → List (PeriodValue T)
  | [], items => items
  | current :: rest, items =>
    if current.Period.Start.After period.End then items
    else if current.Period.Intersects period then
      findIntersectsLoop period rest (items ++ [current])
    else findIntersectsLoop period rest items

/-- Go `Timeline.FindIntersects`. -/
def Timeline.FindIntersects {T : Type} (t : Timeline T) (period : Period) :
    List (PeriodValue T) :=
  findIntersectsLoop period t.Items []

/-- The loop of `Optimize` from its second iteration on: `previous` and `items` are the local
variables of the Go function, the final test on `previous` included. -/
def optimizeLoop {T : Type} (equalityComparer : T → T → Bool) :
    List (PeriodValue T) → PeriodValue T → List (PeriodValue T) → List (PeriodValue T)
  | [], previous, items => if !previous.IsEmpty then items ++ [previous] else items
  | current :: rest, previous, items =>
    if current.Period.IsContiguous previous.Period &&
        equalityComparer previous.Value current.Value then
      optimizeLoop equalityComparer rest
        { Value := previous.Value,
          Period := { Start := previous.Period.Start, End := current.Period.End } } items
    else optimizeLoop equalityComparer rest current (items ++ [previous])

/-- Go `Timeline.Optimize`: on a timeline without items `previous` keeps its zero value. -/
def Timeline.Optimize {T : Type} [Inhabited T] (t : Timeline T)
    (equalityComparer : T → T → Bool) : Timeline T :=
  match t.Items with
  | [] => { Items := optimizeLoop equalityComparer [] { Period := Empty, Value := default } [] }
  | first :: rest => { Items := optimizeLoop equalityComparer rest first [] }

/-- Go `Timeline.Add`: the new item is appended and the items are sorted again. -/
def Timeline.Add {T : Type} (t : Timeline T) (newPeriod : Period) (newValue : T) : Timeline T :=
  Timeline.SortTimelineByPeriodStart
    { Items := t.Items ++ [{ Period := newPeriod, Value := newValue }] }

/-- Go `Period.SplitFromPeriod`: the periods sent on the channel, in the order they are sent. -/
def Period.SplitFromPeriod (p period : Period) : List Period :=
  if !p.Intersects period then []
  else
    (if p.Start.Before period.Start then [{ Start := p.Start, End := period.Start }] else []) ++
      [{ Start := maxTime p.Start period.Start, End := minTime p.End period.End }] ++
      (if p.End.After period.End then [{ Start := period.End, End := p.End }] else [])

/-- The loop of `Period.Split` run for at most `fuel` iterations from `current`: the periods
sent on the channel, or `none` when the loop has not ended after `fuel` iterations. -/
def splitLoop (f : Time → Time) (stop : Time) : Nat → Time → Option (List Period)
  | 0, current => if current.Before stop then none else some []
  | fuel + 1, current =>
    if current.Before stop then
      match splitLoop f stop fuel (f current) with
      | none => none
      | some rest => some ({ Start := current, End := f current } :: rest)
    else some []

/-- Go `Period.Split`, with a bound on the number of iterations of its loop. -/
def Period.Split (p : Period) (f : Time → Time) (fuel : Nat) : Option (List Period) :=
  splitLoop f p.End fuel p.Start

/-- Go `current.AddDate(0, 0, 1)` for an instant in UTC, where every day has the same number
`ticksPerDay` of ticks; the result is in UTC too. -/
def addDay (ticksPerDay : Int) (current : Time) : Time := current.Add ticksPerDay

/-- Go `Period.SplitByDays` for instants in UTC. -/
def Period.SplitByDays (p : Period) (ticksPerDay : Int) (fuel : Nat) : Option (List Period) :=
  p.Split (addDay ticksPerDay) fuel

/-- Go `TimeLineBuilder[T]`: the items added so far and the first error met. -/
structure TimeLineBuilder (T : Type) where
  items : List (PeriodValue T)
  err : Option String

/-- Go `NewTimeLineBuilder`. -/
def NewTimeLineBuilder {T : Type} : TimeLineBuilder T := { items := [], err := none }

/-- Go `TimeLineBuilder.AddPeriod`. -/
def TimeLineBuilder.AddPeriod {T : Type} (b : TimeLineBuilder T) (start stop : Time)
    (value : T) : TimeLineBuilder T :=
  match b.err with
  | some _ => b
  | none =>
    match NewPeriod start stop with
    | .error e => { b with err := some e }
    | .ok p => { b with items := b.items ++ [NewPeriodValue p value] }

/-- Go `TimeLineBuilder.AddPeriodValue`. -/
def TimeLineBuilder.AddPeriodValue {T : Type} (b : TimeLineBuilder T) (pv : PeriodValue T) :
    TimeLineBuilder T :=
  match b.err with
  | some _ => b
  | none =>
    if !(pv.Period.Start.Before pv.Period.End) then { b with err := some errInvalidPeriod }
    else { b with items := b.items ++ [pv] }

/-- Go `TimeLineBuilder.Build`. -/
def TimeLineBuilder.Build {T : Type} (b : TimeLineBuilder T) : Timeline T × Option String :=
  match b.err with
  | some e => ({ Items := [] }, some e)
  | none => (Timeline.SortTimelineByPeriodStart { Items := b.items }, none)

/-- The instant of `t` ticks is covered by the period `p`: `p.Start ≤ t < p.End`. -/
@[reducible] def Covers (p : Period) (t : Int) : Prop := p.Start.tick ≤ t ∧ t < p.End.tick

/-- The items are sorted by the start of their periods. -/
@[reducible] def SortedByStart {T : Type} (l : List (PeriodValue T)) : Prop :=
  l.Pairwise (fun a b => a.Period.Start.tick ≤ b.Period.Start.tick)

/-- Every item has a non-empty period, `Start < End`. -/
@[reducible] def NonEmptyPeriods {T : Type} (l : List (PeriodValue T)) : Prop :=
  ∀ x ∈ l, x.Period.Start.tick < x.Period.End.tick

/-- No two items have intersecting periods. -/
@[reducible] def NonIntersecting {T : Type} (l : List (PeriodValue T)) : Prop :=
  l.Pairwise (fun a b => a.Period.Intersects b.Period = false)

/-- Each item ends at or before the start of the item that follows it. -/
@[reducible] def Canonical {T : Type} (l : List (PeriodValue T)) : Prop :=
  l.Chain' (fun a b => a.Period.End.tick ≤ b.Period.Start.tick)

/-- Any two items either do not intersect or the earlier one contains the later one. -/
@[reducible] def Nested {T : Type} (l : List (PeriodValue T)) : Prop :=
  l.Pairwise (fun a b =>
    a.Period.Intersects b.Period = false ∨ a.Period.ContainsPeriod b.Period = true)

/-- The value `t` is the start or the end of the period of some item of `l`. -/
def IsBoundary {T : Type} (l : List (PeriodValue T)) (t : Time) : Prop :=
  ∃ x ∈ l, t = x.Period.Start ∨ t = x.Period.End

/-- The starts and ends of the items of `l` that are `Equal` are the same value: each instant
comes in one representation only. -/
def OneValuePerInstant {T : Type} (l : List (PeriodValue T)) : Prop :=
  ∀ a b, IsBoundary l a → IsBoundary l b → a.tick = b.tick → a = b

/-- The current period of `ResolveConflicts` once the items `visited` have been visited without
an error, from the current period `current`: it is replaced by the period of each visited item
that is `After` it. -/
def currentPeriodAfter {T : Type} (current : Period) : List (PeriodValue T) → Period
  | [] => current
  | next :: visited =>
    currentPeriodAfter (if next.Period.After current then next.Period else current) visited

/-- One item per period of `SplitAllPeriods l` that intersects some item of `l`, in order, with
the fold of `f` over the items of `l` intersecting it, in the order of `l`, as its value. -/
def resolvedBySlices {T : Type} [Inhabited T] (f : Period → T → T → T)
    (l : List (PeriodValue T)) : List (PeriodValue T) :=
  ((SplitAllPeriods l).filter (fun q => l.any (fun x => x.Period.Intersects q))).map
    (fun q => NewPeriodValue q (foldOnPeriod f l q))

/-- The reduction used by the tests: integer addition. -/
def addValues (_ : Period) (a b : Int) : Int := a + b

/-- Timeline `[0,10)=1, [5,20)=2, [12,15)=4`: sorted by start, with one chain of overlaps. -/
def chainTimeline : Timeline Int :=
  { Items := [⟨⟨0, 10⟩, 1⟩, ⟨⟨5, 20⟩, 2⟩, ⟨⟨12, 15⟩, 4⟩] }

/-- Timeline `[10,20)=1, [30,40)=2, [0,5)=3`: the last item lies before the first one. -/
def regressingTimeline : Timeline Int :=
  { Items := [⟨⟨10, 20⟩, 1⟩, ⟨⟨30, 40⟩, 2⟩, ⟨⟨0, 5⟩, 3⟩] }

/-- Timeline `[5,10)=1, [3,8)=2`: the second item starts before the first and overlaps it. -/
def overlappingUnsortedTimeline : Timeline Int :=
  { Items := [⟨⟨5, 10⟩, 1⟩, ⟨⟨3, 8⟩, 2⟩] }

/-- Timeline `[0,10)=1, [12,15)=4`, a piecewise-constant function. -/
def stepsA : Timeline Int :=
  { Items := [⟨⟨0, 10⟩, 1⟩, ⟨⟨12, 15⟩, 4⟩] }

/-- Timeline `[5,20)=2`, a piecewise-constant function. -/
def stepsB : Timeline Int :=
  { Items := [⟨⟨5, 20⟩, 2⟩] }

/-- Timeline `[0,31)=100, [31,60)=200, [60,91)=300`: January, February and March 2024 in
days since 1 January 2024, as in the tests. -/
def monthsTimeline : Timeline Int :=
  { Items := [⟨⟨0, 31⟩, 100⟩, ⟨⟨31, 60⟩, 200⟩, ⟨⟨60, 91⟩, 300⟩] }

/-- Timeline `[0,31)=100, [14,15)=80, [31,60)=200, [60,91)=300`: the three months and the day
15 January 2024, sorted by start, as in the tests. -/
def monthsWithDayTimeline : Timeline Int :=
  { Items := [⟨⟨0, 31⟩, 100⟩, ⟨⟨14, 15⟩, 80⟩, ⟨⟨31, 60⟩, 200⟩, ⟨⟨60, 91⟩, 300⟩] }

/-- A reduction that is commutative in its two values but whose folds depend on the order:
the absolute difference. -/
def absDiff (_ : Period) (a b : Int) : Int := if a ≤ b then b - a else a - b

/-- Timeline `[0,10)=1`. -/
def tieA : Timeline Int := { Items := [⟨⟨0, 10⟩, 1⟩] }

/-- Timeline `[0,10)=-1`, starting at the same instant as `tieA`. -/
def tieB : Timeline Int := { Items := [⟨⟨0, 10⟩, -1⟩] }

/-- The later of two values, the second one when they are `Equal`. -/
def laterOf (t u : Time) : Time := if u.tick < t.tick then t else u

/-- The earlier of two values, the second one when they are `Equal`. -/
def earlierOf (t u : Time) : Time := if t.tick < u.tick then t else u

/-- The items of `l` whose period intersects `limit`, in the order of `l`, each with its period
cut to `[max Start limit.Start, min End limit.End)` and its value kept; of two `Equal` values
the one of the item is taken. -/
def clampedItems {T : Type} (l : List (PeriodValue T)) (limit : Period) : List (PeriodValue T) :=
  (l.filter (fun x => x.Period.Intersects limit)).map
    (fun x =>
      { Period :=
          { Start := laterOf limit.Start x.Period.Start, End := earlierOf limit.End x.Period.End },
        Value := x.Value })

/-- The pairs `(b1,b2), (b2,b3), ...` of each instant of a list with the next one. -/
def pairsOfInstants (bs : List Int) : List (Int × Int) :=
  List.zipWith (fun a b => (a, b)) bs bs.tail

/-- The reduction of the tests of `Optimize`: equality of integers. -/
def sameValue (a b : Int) : Bool := decide (a = b)

/-- The twelve months of 2024 in days since 1 January 2024, with the values
100, 200, 300, 300, 300, 300, 400, 100, 800, 800, 900, 900, as in the tests. -/
def yearTimeline : Timeline Int :=
  { Items := [⟨⟨0, 31⟩, 100⟩, ⟨⟨31, 60⟩, 200⟩, ⟨⟨60, 91⟩, 300⟩, ⟨⟨91, 121⟩, 300⟩,
      ⟨⟨121, 152⟩, 300⟩, ⟨⟨152, 182⟩, 300⟩, ⟨⟨182, 213⟩, 400⟩, ⟨⟨213, 244⟩, 100⟩,
      ⟨⟨244, 274⟩, 800⟩, ⟨⟨274, 305⟩, 800⟩, ⟨⟨305, 335⟩, 900⟩, ⟨⟨335, 366⟩, 900⟩] }

/-- The months of 2024 without June and July, as in the tests: the gap is never bridged. -/
def yearWithGapTimeline : Timeline Int :=
  { Items := [⟨⟨0, 31⟩, 100⟩, ⟨⟨31, 60⟩, 200⟩, ⟨⟨60, 91⟩, 300⟩, ⟨⟨91, 121⟩, 300⟩,
      ⟨⟨121, 152⟩, 300⟩, ⟨⟨213, 244⟩, 100⟩,
      ⟨⟨244, 274⟩, 800⟩, ⟨⟨274, 305⟩, 800⟩, ⟨⟨305, 335⟩, 900⟩, ⟨⟨335, 366⟩, 900⟩] }

/-- Items `[0,10)=1, [20,30)=2`: two periods with a gap between them. -/
def gapItems : List (PeriodValue Int) := [⟨⟨0, 10⟩, 1⟩, ⟨⟨20, 30⟩, 2⟩]

/-- January, February and March 2024 with 10-17 January and 12-15 January, in days since
1 January 2024, as in the tests. -/
def testItems : List (PeriodValue Int) :=
  [⟨⟨0, 31⟩, 100⟩, ⟨⟨31, 60⟩, 200⟩, ⟨⟨60, 91⟩, 300⟩, ⟨⟨9, 16⟩, 80⟩, ⟨⟨11, 14⟩, 50⟩]

/-- The three-way partition of `p` around `q`: `[p.Start, q.Start)` when `p` starts before `q`,
then `[max p.Start q.Start, min p.End q.End)`, then `[q.End, p.End)` when `p` ends after `q`;
of two `Equal` values the one of `q` is taken. -/
def threeWaySplit (p q : Period) : List Period :=
  (if p.Start.tick < q.Start.tick then [{ Start := p.Start, End := q.Start }] else []) ++
    [{ Start := laterOf p.Start q.Start, End := earlierOf p.End q.End }] ++
    (if q.End.tick < p.End.tick then [{ Start := q.End, End := p.End }] else [])

/-- One call made on a builder: `AddPeriod start stop value` or `AddPeriodValue pv`. -/
inductive BuilderCall (T : Type) where
  | addPeriod (start stop : Time) (value : T)
  | addPeriodValue (pv : PeriodValue T)

/-- The builder after one call. -/
def BuilderCall.apply {T : Type} (b : TimeLineBuilder T) : BuilderCall T → TimeLineBuilder T
  | .addPeriod start stop value => b.AddPeriod start stop value
  | .addPeriodValue pv => b.AddPeriodValue pv

/-- The builder after a sequence of calls made on a new builder. -/
def runCalls {T : Type} (calls : List (BuilderCall T)) : TimeLineBuilder T :=
  calls.foldl BuilderCall.apply NewTimeLineBuilder

/-- The (period, value) pair that a call adds. -/
def BuilderCall.item {T : Type} : BuilderCall T → PeriodValue T
  | .addPeriod start stop value => { Period := { Start := start, End := stop }, Value := value }
  | .addPeriodValue pv => pv

/-- Every item starts strictly before the latest end among the items before it, `latestEnd`
being the latest end met so far. -/
def connectedFrom {T : Type} : Int → List (PeriodValue T) → Bool
  | _, [] => true
  | latestEnd, x :: rest =>
    decide (x.Period.Start.tick < latestEnd) &&
      connectedFrom (max latestEnd x.Period.End.tick) rest

/-- The items form one cluster: every item after the first starts strictly before the latest
end among the items that precede it. -/
def ConnectedCluster {T : Type} : List (PeriodValue T) → Bool
  | [] => true
  | first :: rest => connectedFrom first.Period.End.tick rest

/-- The step of three ticks, which does not divide the length of `[0,10)`. -/
def stepThree (current : Time) : Time := current.Add 3

/-- The instant of `n` ticks in a second representation, as built in another `Location`. -/
def inOtherZone (n : Int) : Time := { tick := n, zone := 1 }

/-- Timeline `[0,31)=100, [0,10)=5`, sorted by start, the second item contained in the first,
the start of the second item given in another representation than the start of the first. -/
def twoZonesTimeline : Timeline Int :=
  { Items := [⟨⟨0, 31⟩, 100⟩, ⟨⟨inOtherZone 0, 10⟩, 5⟩] }

/-- Items `[0,10)=1, [0,10)=2`, the same period given in two representations. -/
def twoZonesItems : List (PeriodValue Int) :=
  [⟨⟨0, 10⟩, 1⟩, ⟨⟨inOtherZone 0, inOtherZone 10⟩, 2⟩]

/-- Timeline `[0,10)=1, [20,30)=2, [5,8)=3`: the last item starts before the item preceding it
and lies before the current period `[20,30)` when it is visited. -/
def backwardTimeline : Timeline Int :=
  { Items := [⟨⟨0, 10⟩, 1⟩, ⟨⟨20, 30⟩, 2⟩, ⟨⟨5, 8⟩, 3⟩] }

/-- Timeline `[10,5)=1, [3,20)=2`: the first period ends before it starts. -/
def invertedTimeline : Timeline Int :=
  { Items := [⟨⟨10, 5⟩, 1⟩, ⟨⟨3, 20⟩, 2⟩] }

/-- Timeline `[0,20)=2`, starting at the same instant as the first item of `stepsA` and
ending later. -/
def longTie : Timeline Int := { Items := [⟨⟨0, 20⟩, 2⟩] }

/-- Timeline `[0,10)=5, [5,20)=2`: its first item has the period of the first item of `stepsA`. -/
def sameStartB : Timeline Int := { Items := [⟨⟨0, 10⟩, 5⟩, ⟨⟨5, 20⟩, 2⟩] }


/-! ## Elementary facts about periods -/

theorem time_before_iff (t u : Time) : t.Before u = true ↔ t.tick < u.tick := by
  unfold Time.Before
  simp only [decide_eq_true_eq]

theorem time_after_iff (t u : Time) : t.After u = true ↔ u.tick < t.tick := by
  unfold Time.After
  simp only [decide_eq_true_eq, gt_iff_lt]

theorem time_equal_iff (t u : Time) : t.Equal u = true ↔ t.tick = u.tick := by
  unfold Time.Equal
  simp only [decide_eq_true_eq]

theorem before_iff (p q : Period) : p.Before q = true ↔ p.End.tick ≤ q.Start.tick := by
  unfold Period.Before
  simp only [Bool.or_eq_true, time_before_iff, time_equal_iff]
  omega

theorem after_iff (p q : Period) : p.After q = true ↔ q.End.tick ≤ p.Start.tick := by
  unfold Period.After
  simp only [Bool.or_eq_true, time_after_iff, time_equal_iff]
  omega

theorem intersects_iff (p q : Period) :
    p.Intersects q = true ↔ p.Start.tick < q.End.tick ∧ q.Start.tick < p.End.tick := by
  unfold Period.Intersects
  simp only [Bool.and_eq_true, time_before_iff, time_after_iff]

theorem containsPeriod_iff (p q : Period) :
    p.ContainsPeriod q = true ↔ p.Start.tick ≤ q.Start.tick ∧ q.End.tick ≤ p.End.tick := by
  unfold Period.ContainsPeriod
  simp only [Bool.and_eq_true, Bool.or_eq_true, time_before_iff, time_after_iff, time_equal_iff]
  omega

theorem isEmpty_iff (p : Period) : p.IsEmpty = true ↔ p.End.tick ≤ p.Start.tick := by
  unfold Period.IsEmpty
  rw [Bool.not_eq_true', ← Bool.not_eq_true, time_before_iff]
  omega

theorem newPeriod_ok {a b : Time} (h : a.tick < b.tick) :
    NewPeriod a b = .ok { Start := a, End := b } := by
  have hA : b.After a = true := (time_after_iff _ _).2 h
  unfold NewPeriod
  simp [hA]

theorem newPeriod_error {a b : Time} (h : b.tick ≤ a.tick) :
    NewPeriod a b = .error errInvalidPeriod := by
  have hA : b.After a = false := by
    rw [← Bool.not_eq_true, time_after_iff]; omega
  unfold NewPeriod
  simp [hA]

theorem maxTime_of_le {a b : Time} (h : a.tick ≤ b.tick) : maxTime a b = b := by
  have hA : a.After b = false := by
    rw [← Bool.not_eq_true, time_after_iff]; omega
  unfold maxTime
  simp [hA]

theorem maxTime_of_lt {a b : Time} (h : b.tick < a.tick) : maxTime a b = a := by
  have hA : a.After b = true := (time_after_iff _ _).2 h
  unfold maxTime
  simp [hA]

theorem minTime_of_lt {a b : Time} (h : a.tick < b.tick) : minTime a b = a := by
  have hA : a.Before b = true := (time_before_iff _ _).2 h
  unfold minTime
  simp [hA]

theorem minTime_of_le {a b : Time} (h : b.tick ≤ a.tick) : minTime a b = b := by
  have hA : a.Before b = false := by
    rw [← Bool.not_eq_true, time_before_iff]; omega
  unfold minTime
  simp [hA]

theorem maxTime_eq_laterOf (a b : Time) : maxTime a b = laterOf a b := by
  unfold laterOf
  split
  · rename_i h; exact maxTime_of_lt h
  · rename_i h; exact maxTime_of_le (by omega)

theorem minTime_eq_earlierOf (a b : Time) : minTime a b = earlierOf a b := by
  unfold earlierOf
  split
  · rename_i h; exact minTime_of_lt h
  · rename_i h; exact minTime_of_le (by omega)

theorem laterOf_tick (a b : Time) : (laterOf a b).tick = max a.tick b.tick := by
  unfold laterOf
  split
  · rename_i h; rw [max_eq_left (by omega)]
  · rename_i h; rw [max_eq_right (by omega)]

theorem earlierOf_tick (a b : Time) : (earlierOf a b).tick = min a.tick b.tick := by
  unfold earlierOf
  split
  · rename_i h; rw [min_eq_left (by omega)]
  · rename_i h; rw [min_eq_right (by omega)]

theorem maxTime_tick (a b : Time) : (maxTime a b).tick = max a.tick b.tick := by
  rw [maxTime_eq_laterOf, laterOf_tick]

theorem minTime_tick (a b : Time) : (minTime a b).tick = min a.tick b.tick := by
  rw [minTime_eq_earlierOf, earlierOf_tick]

/-! ## The loop of `ResolveConflicts` -/

section Loop

variable {T : Type} [Inhabited T]

theorem resolveLoop_nil (f : Period → T → T → T) (items buffer : List (PeriodValue T))
    (cur : Period) :
    resolveLoop f [] items buffer cur =
      ({ Items := items ++ computeValuesOnSamePeriods buffer f }, none) := by
  simp [resolveLoop]

theorem resolveLoop_before (f : Period → T → T → T) (next : PeriodValue T)
    (rest items buffer : List (PeriodValue T)) (cur : Period)
    (h : next.Period.End.tick ≤ cur.Start.tick) :
    resolveLoop f (next :: rest) items buffer cur = ({ Items := [] }, some errUnsorted) := by
  have hb : next.Period.Before cur = true := (before_iff _ _).2 h
  simp [resolveLoop, hb]

theorem resolveLoop_after (f : Period → T → T → T) (next : PeriodValue T)
    (rest items buffer : List (PeriodValue T)) (cur : Period)
    (h1 : cur.Start.tick < next.Period.End.tick) (h2 : cur.End.tick ≤ next.Period.Start.tick) :
    resolveLoop f (next :: rest) items buffer cur =
      resolveLoop f rest (items ++ computeValuesOnSamePeriods buffer f)
        (ClampPeriods buffer next.Period ++ [next]) next.Period := by
  have hb : next.Period.Before cur = false := by
    rw [← Bool.not_eq_true, before_iff]; omega
  have ha : next.Period.After cur = true := (after_iff _ _).2 h2
  rw [resolveLoop]
  simp [hb, ha]

theorem resolveLoop_join (f : Period → T → T → T) (next : PeriodValue T)
    (rest items buffer : List (PeriodValue T)) (cur : Period)
    (h1 : cur.Start.tick < next.Period.End.tick) (h2 : next.Period.Start.tick < cur.End.tick)
    (h3 : cur.Start.tick < cur.End.tick) :
    resolveLoop f (next :: rest) items buffer cur =
      resolveLoop f rest items (buffer ++ [next]) cur := by
  have hb : next.Period.Before cur = false := by
    rw [← Bool.not_eq_true, before_iff]; omega
  have ha : next.Period.After cur = false := by
    rw [← Bool.not_eq_true, after_iff]; omega
  have hm : maxTime next.Period.Start cur.End = cur.End := maxTime_of_le (by omega)
  rw [resolveLoop]
  simp [hb, ha, hm, newPeriod_ok h3]

/-- Whenever the loop ends with an error it returns a timeline without items. -/
theorem resolveLoop_error_items (f : Period → T → T → T) :
    ∀ (rest items buffer : List (PeriodValue T)) (cur : Period),
      (resolveLoop f rest items buffer cur).2 ≠ none →
        (resolveLoop f rest items buffer cur).1.Items = [] := by
  intro rest
  induction rest with
  | nil => intro items buffer cur h; simp [resolveLoop] at h
  | cons next rest ih =>
    intro items buffer cur h
    rw [resolveLoop] at h ⊢
    split
    · rfl
    · rename_i hb
      rw [if_neg hb] at h
      split
      · rename_i ha
        rw [if_pos ha] at h
        exact ih _ _ _ h
      · rename_i ha
        rw [if_neg ha] at h
        split
        · rfl
        · rename_i period hp
          rw [hp] at h
          exact ih _ _ _ h

end Loop

/-! ## `ResolveConflicts`: failures -/

section Failures

variable {T : Type} [Inhabited T]

theorem newPeriod_ok_start {a b : Time} {p : Period} (h : NewPeriod a b = .ok p) :
    p.Start = a ∧ p.End = b ∧ a.tick < b.tick := by
  unfold NewPeriod at h
  split at h
  · cases h
  · rename_i hlt
    cases h
    refine ⟨rfl, rfl, ?_⟩
    rw [Bool.not_eq_true, Bool.not_eq_false'] at hlt
    exact (time_after_iff _ _).1 hlt

/-- The loop fails exactly when some item, when it is visited, is `Before` the current period,
or is not `After` it while the current period is empty. -/
theorem resolveLoop_error_iff (f : Period → T → T → T) :
    ∀ (rest items buffer : List (PeriodValue T)) (cur : Period),
      (resolveLoop f rest items buffer cur).2 ≠ none ↔
        ∃ pre x post, rest = pre ++ x :: post ∧
          (x.Period.Before (currentPeriodAfter cur pre) = true ∨
            (x.Period.After (currentPeriodAfter cur pre) = false ∧
              (currentPeriodAfter cur pre).IsEmpty = true)) := by
  intro rest
  induction rest with
  | nil =>
    intro items buffer cur
    rw [resolveLoop_nil]
    constructor
    · intro h
      exact absurd rfl h
    · rintro ⟨pre, x, post, h, _⟩
      cases pre <;> cases h
  | cons next rest ih =>
    intro items buffer cur
    have hstep : ∀ (cur2 : Period),
        (if next.Period.After cur = true then next.Period else cur) = cur2 →
        next.Period.Before cur = false →
        (next.Period.After cur = false → cur.IsEmpty = false) →
        ((∃ pre x post, rest = pre ++ x :: post ∧
            (x.Period.Before (currentPeriodAfter cur2 pre) = true ∨
              (x.Period.After (currentPeriodAfter cur2 pre) = false ∧
                (currentPeriodAfter cur2 pre).IsEmpty = true))) ↔
          ∃ pre x post, next :: rest = pre ++ x :: post ∧
            (x.Period.Before (currentPeriodAfter cur pre) = true ∨
              (x.Period.After (currentPeriodAfter cur pre) = false ∧
                (currentPeriodAfter cur pre).IsEmpty = true))) := by
      intro cur2 hcur2 hb he
      constructor
      · rintro ⟨pre, x, post, h, hbad⟩
        refine ⟨next :: pre, x, post, by rw [h]; rfl, ?_⟩
        rw [currentPeriodAfter, hcur2]
        exact hbad
      · rintro ⟨pre, x, post, h, hbad⟩
        cases pre with
        | nil =>
          rw [List.nil_append, List.cons.injEq] at h
          rw [← h.1] at hbad
          rw [currentPeriodAfter, hb] at hbad
          rcases hbad with h1 | ⟨h1, h2⟩
          · cases h1
          · rw [he h1] at h2
            cases h2
        | cons p pre =>
          rw [List.cons_append, List.cons.injEq] at h
          rw [currentPeriodAfter, ← h.1, hcur2] at hbad
          exact ⟨pre, x, post, h.2, hbad⟩
    by_cases hb : next.Period.Before cur = true
    · rw [resolveLoop, if_pos hb]
      constructor
      · intro _
        exact ⟨[], next, rest, rfl, Or.inl hb⟩
      · intro _ h
        cases h
    · have hb2 : next.Period.Before cur = false := by simpa using hb
      have hb3 : cur.Start.tick < next.Period.End.tick := by
        rw [before_iff] at hb
        omega
      by_cases ha : next.Period.After cur = true
      · rw [resolveLoop_after f next rest items buffer cur hb3 ((after_iff _ _).1 ha), ih]
        exact hstep next.Period (by rw [if_pos ha]) hb2 (fun h => by rw [ha] at h; cases h)
      · have ha2 : next.Period.After cur = false := by simpa using ha
        have ha3 : next.Period.Start.tick < cur.End.tick := by
          rw [after_iff] at ha
          omega
        by_cases he : cur.IsEmpty = true
        · have hm : maxTime next.Period.Start cur.End = cur.End := maxTime_of_le (by omega)
          rw [resolveLoop, if_neg hb, if_neg ha, hm, newPeriod_error ((isEmpty_iff _).1 he)]
          constructor
          · intro _
            exact ⟨[], next, rest, rfl, Or.inr ⟨ha2, he⟩⟩
          · intro _ h
            cases h
        · have he2 : cur.IsEmpty = false := by simpa using he
          have he3 : cur.Start.tick < cur.End.tick := by
            rw [isEmpty_iff] at he
            omega
          rw [resolveLoop_join f next rest items buffer cur hb3 ha3 he3, ih]
          exact hstep cur (by rw [if_neg ha]) hb2 (fun _ => he2)

/-- With non-empty periods, an item that ends at or before an instant `s` that the current
period does not start before makes the loop fail with the unsorted-timeline error. -/
theorem resolveLoop_unsorted (f : Period → T → T → T) (s : Int) :
    ∀ (rest items buffer : List (PeriodValue T)) (cur : Period),
      cur.Start.tick < cur.End.tick → s ≤ cur.Start.tick → NonEmptyPeriods rest →
        (∃ x ∈ rest, x.Period.End.tick ≤ s) →
          resolveLoop f rest items buffer cur = ({ Items := [] }, some errUnsorted) := by
  intro rest
  induction rest with
  | nil => intro items buffer cur _ _ _ hx; simp at hx
  | cons next rest ih =>
    intro items buffer cur hcur hs hne hx
    have hnext : next.Period.Start.tick < next.Period.End.tick := hne next (List.mem_cons_self _ _)
    have hne2 : NonEmptyPeriods rest := fun z hz => hne z (List.mem_cons_of_mem _ hz)
    by_cases hb : next.Period.End.tick ≤ cur.Start.tick
    · exact resolveLoop_before f next rest items buffer cur hb
    · have hx2 : ∃ x ∈ rest, x.Period.End.tick ≤ s := by
        obtain ⟨x, hxm, hxe⟩ := hx
        rcases List.mem_cons.1 hxm with h | h
        · subst h; omega
        · exact ⟨x, h, hxe⟩
      by_cases ha : cur.End.tick ≤ next.Period.Start.tick
      · rw [resolveLoop_after f next rest items buffer cur (by omega) ha]
        exact ih _ _ _ hnext (by omega) hne2 hx2
      · rw [resolveLoop_join f next rest items buffer cur (by omega) (by omega) hcur]
        exact ih _ _ _ hcur hs hne2 hx2

end Failures

/-! ## Timelines without conflicts -/

theorem splitAllPeriods_singleton {T : Type} (pv : PeriodValue T)
    (h : pv.Period.Start.tick < pv.Period.End.tick) :
    SplitAllPeriods [pv] = [pv.Period] := by
  have hne : pv.Period.Start ≠ pv.Period.End := by
    intro heq
    rw [heq] at h
    omega
  have hk : timeKeys [pv] = [pv.Period.Start, pv.Period.End] := by
    unfold timeKeys
    simp [List.dedup_cons_of_not_mem, hne]
  unfold SplitAllPeriods allTimes
  rw [hk]
  simp [List.insertionSort, List.orderedInsert, le_of_lt h, consecutivePeriods]

/-- Sorted by start, non-empty and pairwise non-intersecting items follow one another. -/
theorem canonical_of_disjoint {T : Type} (l : List (PeriodValue T)) (hs : SortedByStart l)
    (hne : NonEmptyPeriods l) (hd : NonIntersecting l) : Canonical l := by
  have hp : l.Pairwise (fun a b => a.Period.End.tick ≤ b.Period.Start.tick) := by
    refine List.Pairwise.imp_of_mem ?_ (hs.and hd)
    intro a b ha hb hab
    have h1 := hne a ha
    have h2 := hne b hb
    have h3 : ¬ (a.Period.Intersects b.Period = true) := by simp [hab.2]
    rw [intersects_iff] at h3
    have h4 := hab.1
    omega
  exact List.Pairwise.chain' hp

section Disjoint

variable {T : Type} [Inhabited T]

theorem computeValues_singleton (f : Period → T → T → T) (pv : PeriodValue T)
    (h : pv.Period.Start.tick < pv.Period.End.tick) (hf : ∀ p x, f p x default = x) :
    computeValuesOnSamePeriods [pv] f = [pv] := by
  have hi : pv.Period.Intersects pv.Period = true := (intersects_iff _ _).2 ⟨h, h⟩
  unfold computeValuesOnSamePeriods
  rw [splitAllPeriods_singleton pv h]
  simp [foldOnPeriod, NewPeriodValue, hi, hf]

theorem clamp_error_of_not_intersects (p q : Period) (h : p.Intersects q = false) :
    (p.Clamp q).2 = some errOutside := by
  unfold Period.Clamp
  simp [h]

/-- Clamping drops every item when none of them intersects the limit. -/
theorem clampPeriods_eq_nil (buffer : List (PeriodValue T)) (limit : Period)
    (h : ∀ b ∈ buffer, b.Period.Intersects limit = false) : ClampPeriods buffer limit = [] := by
  unfold ClampPeriods
  rw [List.filterMap_eq_nil_iff]
  intro b hb
  have hc := clamp_error_of_not_intersects b.Period limit (h b hb)
  unfold PeriodValue.Clamp
  rcases hcl : b.Period.Clamp limit with ⟨c, e⟩
  rw [hcl] at hc
  simp only at hc
  subst hc
  rfl

theorem not_intersects_of_le {p q : Period} (h : p.End.tick ≤ q.Start.tick) :
    p.Intersects q = false := by
  rw [← Bool.not_eq_true, intersects_iff]
  omega

/-- On items that follow one another without overlap the loop emits each item unchanged. -/
theorem resolveLoop_disjoint (f : Period → T → T → T) (hf : ∀ p x, f p x default = x) :
    ∀ (rest items : List (PeriodValue T)) (pv : PeriodValue T),
      pv.Period.Start.tick < pv.Period.End.tick → NonEmptyPeriods rest →
        Canonical (pv :: rest) →
          resolveLoop f rest items [pv] pv.Period = ({ Items := items ++ pv :: rest }, none) := by
  intro rest
  induction rest with
  | nil =>
    intro items pv hpv _ _
    rw [resolveLoop_nil, computeValues_singleton f pv hpv hf]
  | cons next rest ih =>
    intro items pv hpv hne hc
    have hnext : next.Period.Start.tick < next.Period.End.tick := hne next (List.mem_cons_self _ _)
    have hne2 : NonEmptyPeriods rest := fun z hz => hne z (List.mem_cons_of_mem _ hz)
    have hle : pv.Period.End.tick ≤ next.Period.Start.tick := (List.chain'_cons.1 hc).1
    have hc2 : Canonical (next :: rest) := (List.chain'_cons.1 hc).2
    rw [resolveLoop_after f next rest items [pv] pv.Period (by omega) hle,
      computeValues_singleton f pv hpv hf,
      clampPeriods_eq_nil [pv] next.Period (by
        intro b hb
        rw [List.mem_singleton.1 hb]
        exact not_intersects_of_le hle),
      List.nil_append, ih _ next hnext hne2 hc2]
    simp

end Disjoint

/-! ## The periods of `SplitAllPeriods` -/

section Slices

variable {T : Type}

theorem mem_allTimes (l : List (PeriodValue T)) (t : Time) :
    t ∈ allTimes l ↔ IsBoundary l t := by
  unfold allTimes timeKeys IsBoundary
  rw [(List.perm_insertionSort _ _).mem_iff, List.mem_dedup, List.mem_flatMap]
  constructor
  · rintro ⟨x, hx, ht⟩
    refine ⟨x, hx, ?_⟩
    simpa using ht
  · rintro ⟨x, hx, ht⟩
    refine ⟨x, hx, ?_⟩
    simpa using ht

/-- The keys are in ascending order of their instants. -/
theorem allTimes_ascending (l : List (PeriodValue T)) :
    (allTimes l).Sorted (fun a b => a.tick ≤ b.tick) := by
  unfold allTimes
  haveI : IsTotal Time (fun a b => a.tick ≤ b.tick) := ⟨fun a b => le_total a.tick b.tick⟩
  haveI : IsTrans Time (fun a b => a.tick ≤ b.tick) := ⟨fun a b c hab hbc => le_trans hab hbc⟩
  exact List.sorted_insertionSort _ _

theorem allTimes_nodup (l : List (PeriodValue T)) : (allTimes l).Nodup := by
  unfold allTimes
  rw [(List.perm_insertionSort _ _).nodup_iff]
  exact List.nodup_dedup _

/-- When each instant comes in one representation the keys are in strictly ascending order. -/
theorem allTimes_sorted (l : List (PeriodValue T)) (hc : OneValuePerInstant l) :
    (allTimes l).Sorted (fun a b => a.tick < b.tick) := by
  refine List.Pairwise.imp_of_mem ?_ ((allTimes_ascending l).and (allTimes_nodup l))
  intro a b ha hb hab
  rcases lt_or_eq_of_le hab.1 with h | h
  · exact h
  · exact absurd (hc a b ((mem_allTimes l a).1 ha) ((mem_allTimes l b).1 hb) h) hab.2

theorem consecutivePeriods_cons_cons (a b : Time) (rest : List Time) :
    consecutivePeriods (a :: b :: rest) =
      { Start := a, End := b } :: consecutivePeriods (b :: rest) := rfl

/-- The periods between neighbours of a strictly ascending list are those made of two members
with no member strictly between them. -/
theorem mem_consecutivePeriods (q : Period) :
    ∀ (l : List Time), l.Sorted (fun a b => a.tick < b.tick) →
      (q ∈ consecutivePeriods l ↔
        q.Start ∈ l ∧ q.End ∈ l ∧ q.Start.tick < q.End.tick ∧
          ∀ c ∈ l, c.tick ≤ q.Start.tick ∨ q.End.tick ≤ c.tick) := by
  intro l
  induction l with
  | nil => intro _; simp [consecutivePeriods]
  | cons a rest ih =>
    intro hs
    cases rest with
    | nil =>
      simp only [consecutivePeriods, List.not_mem_nil, List.mem_singleton, false_iff]
      rintro ⟨h1, h2, h3, _⟩
      rw [h1, h2] at h3
      omega
    | cons b rest =>
      have hs2 : (b :: rest).Sorted (fun a b => a.tick < b.tick) := (List.pairwise_cons.1 hs).2
      have hab : ∀ c ∈ b :: rest, a.tick < c.tick := (List.pairwise_cons.1 hs).1
      have hb : ∀ c ∈ rest, b.tick < c.tick := (List.pairwise_cons.1 hs2).1
      have hble : ∀ c ∈ b :: rest, b.tick ≤ c.tick := by
        intro c hc
        rcases List.mem_cons.1 hc with h | h
        · rw [h]
        · exact le_of_lt (hb c h)
      have hlt : a.tick < b.tick := hab b (List.mem_cons_self _ _)
      rw [consecutivePeriods_cons_cons]
      simp only [List.mem_cons]
      constructor
      · rintro (h | h)
        · subst h
          refine ⟨Or.inl rfl, Or.inr (Or.inl rfl), hlt, ?_⟩
          rintro c (hc | hc | hc)
          · left; simp [hc]
          · right; simp [hc]
          · right; exact le_of_lt (hb c hc)
        · have h2 := (ih hs2).1 h
          obtain ⟨m1, m2, h3, h4⟩ := h2
          refine ⟨Or.inr (List.mem_cons.1 m1), Or.inr (List.mem_cons.1 m2), h3, ?_⟩
          rintro c (hc | hc)
          · left
            have := hble _ m1
            rw [hc]
            omega
          · exact h4 c (List.mem_cons.2 hc)
      · rintro ⟨m1, m2, h3, h4⟩
        rcases m1 with m1 | m1
        · left
          have hend : q.End ∈ b :: rest := by
            rcases m2 with m2 | m2
            · rw [m1, m2] at h3
              omega
            · exact List.mem_cons.2 m2
          have h5 := hble _ hend
          have h6 := h4 b (Or.inr (Or.inl rfl))
          have h7 : q.End.tick = b.tick := by
            rw [m1] at h6
            omega
          have h8 : q.End = b := by
            rcases List.mem_cons.1 hend with h | h
            · exact h
            · have := hb _ h
              omega
          cases q
          simp only at m1 h8
          rw [m1, h8]
        · right
          have m1c : q.Start ∈ b :: rest := List.mem_cons.2 m1
          have h5 := hble _ m1c
          have hend : q.End ∈ b :: rest := by
            rcases m2 with m2 | m2
            · rw [m2] at h3
              omega
            · exact List.mem_cons.2 m2
          exact (ih hs2).2 ⟨m1c, hend, h3, fun c hc => h4 c (Or.inr (List.mem_cons.1 hc))⟩

/-- When each instant comes in one representation, the periods of `SplitAllPeriods` are the
pairs of neighbouring boundaries. -/
theorem mem_splitAllPeriods (l : List (PeriodValue T)) (hc : OneValuePerInstant l)
    (q : Period) :
    q ∈ SplitAllPeriods l ↔
      IsBoundary l q.Start ∧ IsBoundary l q.End ∧ q.Start.tick < q.End.tick ∧
        ∀ c, IsBoundary l c → c.tick ≤ q.Start.tick ∨ q.End.tick ≤ c.tick := by
  unfold SplitAllPeriods
  rw [mem_consecutivePeriods q _ (allTimes_sorted l hc), mem_allTimes, mem_allTimes]
  constructor
  · rintro ⟨h1, h2, h3, h4⟩
    exact ⟨h1, h2, h3, fun c hc => h4 c ((mem_allTimes l c).2 hc)⟩
  · rintro ⟨h1, h2, h3, h4⟩
    exact ⟨h1, h2, h3, fun c hc => h4 c ((mem_allTimes l c).1 hc)⟩

/-- Neighbouring members of an ascending list give periods with ascending starts. -/
theorem consecutivePeriods_sorted :
    ∀ (l : List Time), l.Sorted (fun a b => a.tick < b.tick) →
      (consecutivePeriods l).Pairwise (fun p q => p.Start.tick < q.Start.tick) := by
  intro l
  induction l with
  | nil => intro _; simp [consecutivePeriods]
  | cons a rest ih =>
    intro hs
    cases rest with
    | nil => simp [consecutivePeriods]
    | cons b rest =>
      have hs2 : (b :: rest).Sorted (fun a b => a.tick < b.tick) := (List.pairwise_cons.1 hs).2
      have hab : ∀ c ∈ b :: rest, a.tick < c.tick := (List.pairwise_cons.1 hs).1
      rw [consecutivePeriods_cons_cons]
      refine List.pairwise_cons.2 ⟨?_, ih hs2⟩
      intro q hq
      have hm := ((mem_consecutivePeriods q _ hs2).1 hq).1
      exact hab _ hm

theorem splitAllPeriods_sorted (l : List (PeriodValue T)) (hc : OneValuePerInstant l) :
    (SplitAllPeriods l).Pairwise (fun p q => p.Start.tick < q.Start.tick) :=
  consecutivePeriods_sorted _ (allTimes_sorted l hc)

/-- Two lists of items with strictly ascending starts and the same members are equal. -/
theorem eq_of_ascending_starts (l1 l2 : List (PeriodValue T))
    (h1 : l1.Pairwise (fun a b => a.Period.Start.tick < b.Period.Start.tick))
    (h2 : l2.Pairwise (fun a b => a.Period.Start.tick < b.Period.Start.tick))
    (hm : ∀ z, z ∈ l1 ↔ z ∈ l2) : l1 = l2 := by
  have n1 : l1.Nodup := h1.imp (fun {a b} hab heq => by rw [heq] at hab; exact lt_irrefl _ hab)
  have n2 : l2.Nodup := h2.imp (fun {a b} hab heq => by rw [heq] at hab; exact lt_irrefl _ hab)
  have hp : l1.Perm l2 := (List.perm_ext_iff_of_nodup n1 n2).2 hm
  haveI : IsAntisymm (PeriodValue T) (fun a b => a.Period.Start.tick < b.Period.Start.tick) :=
    ⟨fun a b hab hba => absurd (lt_trans hab hba) (lt_irrefl _)⟩
  exact List.eq_of_perm_of_sorted hp h1 h2

theorem isBoundary_append (l1 l2 : List (PeriodValue T)) (c : Time) :
    IsBoundary (l1 ++ l2) c ↔ IsBoundary l1 c ∨ IsBoundary l2 c := by
  unfold IsBoundary
  constructor
  · rintro ⟨x, hx, hc⟩
    rcases List.mem_append.1 hx with h | h
    · exact Or.inl ⟨x, h, hc⟩
    · exact Or.inr ⟨x, h, hc⟩
  · rintro (⟨x, hx, hc⟩ | ⟨x, hx, hc⟩)
    · exact ⟨x, List.mem_append.2 (Or.inl hx), hc⟩
    · exact ⟨x, List.mem_append.2 (Or.inr hx), hc⟩

/-- Items whose starts and ends are all in the representation `z` have one value per
instant. -/
theorem oneValuePerInstant_of_zone (l : List (PeriodValue T)) (z : Nat)
    (h : ∀ x ∈ l, x.Period.Start.zone = z ∧ x.Period.End.zone = z) : OneValuePerInstant l := by
  have hz : ∀ c, IsBoundary l c → c.zone = z := by
    rintro c ⟨x, hx, rfl | rfl⟩
    · exact (h x hx).1
    · exact (h x hx).2
  intro a b ha hb hab
  have h1 := hz a ha
  have h2 := hz b hb
  cases a
  cases b
  simp only at hab h1 h2
  rw [hab, h1, h2]

theorem mem_map_tick_allTimes (l : List (PeriodValue T)) (c : Int) :
    c ∈ (allTimes l).map Time.tick ↔ ∃ b, IsBoundary l b ∧ b.tick = c := by
  rw [List.mem_map]
  constructor
  · rintro ⟨b, hb, hc⟩
    exact ⟨b, (mem_allTimes l b).1 hb, hc⟩
  · rintro ⟨b, hb, hc⟩
    exact ⟨b, (mem_allTimes l b).2 hb, hc⟩

theorem oneValuePerInstant_of_subset (l1 l2 : List (PeriodValue T))
    (h : ∀ c, IsBoundary l1 c → IsBoundary l2 c) (hc : OneValuePerInstant l2) :
    OneValuePerInstant l1 :=
  fun a b ha hb hab => hc a b (h a ha) (h b hb) hab

theorem oneValuePerInstant_left (l1 l2 : List (PeriodValue T))
    (hc : OneValuePerInstant (l1 ++ l2)) : OneValuePerInstant l1 :=
  oneValuePerInstant_of_subset l1 (l1 ++ l2)
    (fun c h => (isBoundary_append l1 l2 c).2 (Or.inl h)) hc

theorem oneValuePerInstant_right (l1 l2 : List (PeriodValue T))
    (hc : OneValuePerInstant (l1 ++ l2)) : OneValuePerInstant l2 :=
  oneValuePerInstant_of_subset l2 (l1 ++ l2)
    (fun c h => (isBoundary_append l1 l2 c).2 (Or.inr h)) hc

theorem foldl_skip (f : Period → T → T → T) (q : Period) :
    ∀ (l : List (PeriodValue T)) (acc : T), (∀ x ∈ l, x.Period.Intersects q = false) →
      l.foldl (fun currentValue candidate =>
        if candidate.Period.Intersects q then f q candidate.Value currentValue
        else currentValue) acc = acc := by
  intro l
  induction l with
  | nil => intro acc _; rfl
  | cons x l ih =>
    intro acc h
    rw [List.foldl_cons, h x (List.mem_cons_self _ _)]
    exact ih acc (fun y hy => h y (List.mem_cons_of_mem _ hy))

end Slices

/-! ## Clusters: a group of items followed by items that start after its end -/

section Clusters

variable {T : Type} [Inhabited T]

theorem foldOnPeriod_append_left (f : Period → T → T → T) (l1 l2 : List (PeriodValue T))
    (q : Period) (h : ∀ x ∈ l2, x.Period.Intersects q = false) :
    foldOnPeriod f (l1 ++ l2) q = foldOnPeriod f l1 q := by
  unfold foldOnPeriod
  rw [List.foldl_append, foldl_skip f q l2 _ h]

theorem foldOnPeriod_append_right (f : Period → T → T → T) (l1 l2 : List (PeriodValue T))
    (q : Period) (h : ∀ x ∈ l1, x.Period.Intersects q = false) :
    foldOnPeriod f (l1 ++ l2) q = foldOnPeriod f l2 q := by
  unfold foldOnPeriod
  rw [List.foldl_append, foldl_skip f q l1 _ h]

theorem mem_computeValues (f : Period → T → T → T) (l : List (PeriodValue T))
    (z : PeriodValue T) :
    z ∈ computeValuesOnSamePeriods l f ↔
      z.Period ∈ SplitAllPeriods l ∧ z.Value = foldOnPeriod f l z.Period := by
  unfold computeValuesOnSamePeriods NewPeriodValue
  rw [List.mem_map]
  constructor
  · rintro ⟨q, hq, rfl⟩
    exact ⟨hq, rfl⟩
  · rintro ⟨hq, hv⟩
    refine ⟨z.Period, hq, ?_⟩
    cases z
    simp only at hv
    rw [hv]

theorem mem_resolvedBySlices (f : Period → T → T → T) (l : List (PeriodValue T))
    (z : PeriodValue T) :
    z ∈ resolvedBySlices f l ↔
      z.Period ∈ SplitAllPeriods l ∧ (∃ x ∈ l, x.Period.Intersects z.Period = true) ∧
        z.Value = foldOnPeriod f l z.Period := by
  unfold resolvedBySlices NewPeriodValue
  rw [List.mem_map]
  constructor
  · rintro ⟨q, hq, rfl⟩
    rw [List.mem_filter, List.any_eq_true] at hq
    exact ⟨hq.1, hq.2, rfl⟩
  · rintro ⟨hq, hx, hv⟩
    refine ⟨z.Period, ?_, ?_⟩
    · rw [List.mem_filter, List.any_eq_true]
      exact ⟨hq, hx⟩
    · cases z
      simp only at hv
      rw [hv]

theorem computeValues_sorted (f : Period → T → T → T) (l : List (PeriodValue T))
    (hc : OneValuePerInstant l) :
    (computeValuesOnSamePeriods l f).Pairwise
      (fun a b => a.Period.Start.tick < b.Period.Start.tick) := by
  unfold computeValuesOnSamePeriods
  exact (splitAllPeriods_sorted l hc).map _ (fun _ _ h => h)

theorem resolvedBySlices_sorted (f : Period → T → T → T) (l : List (PeriodValue T))
    (hc : OneValuePerInstant l) :
    (resolvedBySlices f l).Pairwise (fun a b => a.Period.Start.tick < b.Period.Start.tick) := by
  unfold resolvedBySlices
  exact ((splitAllPeriods_sorted l hc).filter _).map _ (fun _ _ h => h)

theorem resolvedBySlices_nil (f : Period → T → T → T) : resolvedBySlices f [] = [] := rfl

/-- A group of items lying inside `[s, e)`, one of them with exactly that period, followed by
items that start at or after `e`, each instant coming in one representation: the slices of the
whole are the slices of the group followed by the slices of the rest that intersect an item. -/
theorem resolvedBySlices_append (f : Period → T → T → T) (grp rest : List (PeriodValue T))
    (hc : OneValuePerInstant (grp ++ rest))
    (s e : Time) (hse : s.tick < e.tick)
    (hhead : ∃ h ∈ grp, h.Period.Start = s ∧ h.Period.End = e)
    (hgrp : ∀ b ∈ grp, s.tick ≤ b.Period.Start.tick ∧
      b.Period.Start.tick < b.Period.End.tick ∧ b.Period.End.tick ≤ e.tick)
    (hrest : ∀ x ∈ rest, e.tick ≤ x.Period.Start.tick ∧
      x.Period.Start.tick < x.Period.End.tick) :
    resolvedBySlices f (grp ++ rest) =
      computeValuesOnSamePeriods grp f ++ resolvedBySlices f rest := by
  have hcG : OneValuePerInstant grp := oneValuePerInstant_left grp rest hc
  have hcR : OneValuePerInstant rest := oneValuePerInstant_right grp rest hc
  have bG : ∀ c, IsBoundary grp c → s.tick ≤ c.tick ∧ c.tick ≤ e.tick := by
    rintro c ⟨x, hx, rfl | rfl⟩
    · have := hgrp x hx
      omega
    · have := hgrp x hx
      omega
  have bR : ∀ c, IsBoundary rest c → e.tick ≤ c.tick := by
    rintro c ⟨x, hx, rfl | rfl⟩
    · have := hrest x hx
      omega
    · have := hrest x hx
      omega
  have bs : IsBoundary grp s := by
    obtain ⟨h, hh, h1, _⟩ := hhead
    exact ⟨h, hh, Or.inl h1.symm⟩
  have be : IsBoundary grp e := by
    obtain ⟨h, hh, _, h2⟩ := hhead
    exact ⟨h, hh, Or.inr h2.symm⟩
  have skipRest : ∀ q : Period, q.End.tick ≤ e.tick →
      ∀ x ∈ rest, x.Period.Intersects q = false := by
    intro q hq x hx
    have := hrest x hx
    rw [← Bool.not_eq_true, intersects_iff]
    omega
  have skipGrp : ∀ q : Period, e.tick ≤ q.Start.tick →
      ∀ x ∈ grp, x.Period.Intersects q = false := by
    intro q hq x hx
    have := hgrp x hx
    rw [← Bool.not_eq_true, intersects_iff]
    omega
  apply eq_of_ascending_starts
  · exact resolvedBySlices_sorted f _ hc
  · rw [List.pairwise_append]
    refine ⟨computeValues_sorted f _ hcG, resolvedBySlices_sorted f _ hcR, ?_⟩
    intro a ha b hb
    have ha1 := ((mem_splitAllPeriods grp hcG a.Period).1 ((mem_computeValues f grp a).1 ha).1)
    have hb1 := ((mem_splitAllPeriods rest hcR b.Period).1
      ((mem_resolvedBySlices f rest b).1 hb).1)
    have := bG _ ha1.2.1
    have := bR _ hb1.1
    have := ha1.2.2.1
    omega
  · intro z
    rw [List.mem_append, mem_resolvedBySlices, mem_computeValues, mem_resolvedBySlices,
      mem_splitAllPeriods _ hc, mem_splitAllPeriods _ hcG, mem_splitAllPeriods _ hcR]
    constructor
    · rintro ⟨⟨b1, b2, hlt, adj⟩, ⟨x, hx, ix⟩, hv⟩
      rw [intersects_iff] at ix
      have as := adj s ((isBoundary_append _ _ _).2 (Or.inl bs))
      have ae := adj e ((isBoundary_append _ _ _).2 (Or.inl be))
      rcases List.mem_append.1 hx with hxg | hxr
      · left
        have hxb := hgrp x hxg
        have h1 : s.tick ≤ z.Period.Start.tick := by omega
        have h2 : z.Period.End.tick ≤ e.tick := by omega
        refine ⟨⟨?_, ?_, hlt, fun c hc => adj c ((isBoundary_append _ _ _).2 (Or.inl hc))⟩, ?_⟩
        · rcases (isBoundary_append _ _ _).1 b1 with h | h
          · exact h
          · have := bR _ h
            omega
        · rcases (isBoundary_append _ _ _).1 b2 with h | h
          · exact h
          · have := bR _ h
            have h3 : z.Period.End = e :=
              hc _ _ b2 ((isBoundary_append _ _ _).2 (Or.inl be)) (by omega)
            rw [h3]
            exact be
        · rw [hv]
          exact foldOnPeriod_append_left f grp rest z.Period (skipRest z.Period h2)
      · right
        have hxb := hrest x hxr
        have bx : IsBoundary (grp ++ rest) x.Period.Start :=
          (isBoundary_append _ _ _).2 (Or.inr ⟨x, hxr, Or.inl rfl⟩)
        have ax := adj x.Period.Start bx
        have h1 : e.tick ≤ z.Period.Start.tick := by omega
        refine ⟨⟨?_, ?_, hlt, fun c hc => adj c ((isBoundary_append _ _ _).2 (Or.inr hc))⟩,
          ⟨x, hxr, (intersects_iff _ _).2 ix⟩, ?_⟩
        · rcases (isBoundary_append _ _ _).1 b1 with h | h
          · have := bG _ h
            have h3 : z.Period.Start = x.Period.Start := hc _ _ b1 bx (by omega)
            rw [h3]
            exact ⟨x, hxr, Or.inl rfl⟩
          · exact h
        · rcases (isBoundary_append _ _ _).1 b2 with h | h
          · have := bG _ h
            omega
          · exact h
        · rw [hv]
          exact foldOnPeriod_append_right f grp rest z.Period (skipGrp z.Period h1)
    · rintro (⟨⟨b1, b2, hlt, adj⟩, hv⟩ | ⟨⟨b1, b2, hlt, adj⟩, ⟨x, hx, ix⟩, hv⟩)
      · have h1 := bG _ b1
        have h2 := bG _ b2
        refine ⟨⟨(isBoundary_append _ _ _).2 (Or.inl b1), (isBoundary_append _ _ _).2 (Or.inl b2),
          hlt, ?_⟩, ?_, ?_⟩
        · intro c hc
          rcases (isBoundary_append _ _ _).1 hc with h | h
          · exact adj c h
          · have := bR _ h
            right
            omega
        · obtain ⟨h, hh, hs1, he1⟩ := hhead
          refine ⟨h, List.mem_append.2 (Or.inl hh), ?_⟩
          rw [intersects_iff, hs1, he1]
          omega
        · rw [hv]
          exact (foldOnPeriod_append_left f grp rest z.Period (skipRest z.Period h2.2)).symm
      · have h1 := bR _ b1
        refine ⟨⟨(isBoundary_append _ _ _).2 (Or.inr b1), (isBoundary_append _ _ _).2 (Or.inr b2),
          hlt, ?_⟩, ⟨x, List.mem_append.2 (Or.inr hx), ix⟩, ?_⟩
        · intro c hc
          rcases (isBoundary_append _ _ _).1 hc with h | h
          · have := bG _ h
            left
            omega
          · exact adj c h
        · rw [hv]
          exact (foldOnPeriod_append_right f grp rest z.Period (skipGrp z.Period h1)).symm

/-- On sorted, non-empty, nested items, each instant coming in one representation, the loop
keeps one group per outermost item and produces the slices of the buffered and the remaining
items. -/
theorem resolveLoop_nested (f : Period → T → T → T) :
    ∀ (rest items buffer : List (PeriodValue T)) (cur : Period),
      OneValuePerInstant (buffer ++ rest) →
      cur.Start.tick < cur.End.tick →
      (∃ h ∈ buffer, h.Period.Start = cur.Start ∧ h.Period.End = cur.End) →
      (∀ b ∈ buffer,
        cur.Start.tick ≤ b.Period.Start.tick ∧ b.Period.Start.tick < b.Period.End.tick ∧
          b.Period.End.tick ≤ cur.End.tick) →
      NonEmptyPeriods rest →
      (∀ x ∈ rest, cur.Start.tick ≤ x.Period.Start.tick) →
      (∀ x ∈ rest, x.Period.Start.tick < cur.End.tick → x.Period.End.tick ≤ cur.End.tick) →
      SortedByStart rest → Nested rest →
        resolveLoop f rest items buffer cur =
          ({ Items := items ++ resolvedBySlices f (buffer ++ rest) }, none) := by
  intro rest
  induction rest with
  | nil =>
    intro items buffer cur hc hcur hhead hbuf _ _ _ _ _
    rw [resolveLoop_nil,
      resolvedBySlices_append f buffer [] hc cur.Start cur.End hcur hhead hbuf (by simp),
      resolvedBySlices_nil, List.append_nil]
  | cons next rest ih =>
    intro items buffer cur hc hcur hhead hbuf hne hge hin hs hn
    have hnext : next.Period.Start.tick < next.Period.End.tick :=
      hne next (List.mem_cons_self _ _)
    have hne2 : NonEmptyPeriods rest := fun z hz => hne z (List.mem_cons_of_mem _ hz)
    have hge0 : cur.Start.tick ≤ next.Period.Start.tick := hge next (List.mem_cons_self _ _)
    have hs1 : ∀ x ∈ rest, next.Period.Start.tick ≤ x.Period.Start.tick :=
      (List.pairwise_cons.1 hs).1
    have hs2 : SortedByStart rest := (List.pairwise_cons.1 hs).2
    have hn1 := (List.pairwise_cons.1 hn).1
    have hn2 : Nested rest := (List.pairwise_cons.1 hn).2
    by_cases ha : cur.End.tick ≤ next.Period.Start.tick
    · have hclamp : ClampPeriods buffer next.Period = [] := by
        apply clampPeriods_eq_nil
        intro b hb
        have := hbuf b hb
        exact not_intersects_of_le (by omega)
      rw [resolveLoop_after f next rest items buffer cur (by omega) ha, hclamp, List.nil_append,
        ih _ [next] next.Period (oneValuePerInstant_right buffer (next :: rest) hc) hnext
          ⟨next, List.mem_singleton.2 rfl, rfl, rfl⟩
          (by
            intro b hb
            rw [List.mem_singleton.1 hb]
            exact ⟨le_refl _, hnext, le_refl _⟩)
          hne2 hs1
          (by
            intro x hx hlt
            have h1 := hne2 x hx
            have h2 := hs1 x hx
            rcases hn1 x hx with h | h
            · rw [← Bool.not_eq_true, intersects_iff] at h
              omega
            · exact ((containsPeriod_iff _ _).1 h).2)
          hs2 hn2,
        resolvedBySlices_append f buffer (next :: rest) hc cur.Start cur.End hcur hhead hbuf
          (by
            intro x hx
            rcases List.mem_cons.1 hx with h | h
            · rw [h]; exact ⟨ha, hnext⟩
            · have := hs1 x h
              exact ⟨by omega, hne2 x h⟩),
        List.append_assoc, List.singleton_append]
    · have hend : next.Period.End.tick ≤ cur.End.tick :=
        hin next (List.mem_cons_self _ _) (by omega)
      rw [resolveLoop_join f next rest items buffer cur (by omega) (by omega) hcur,
        ih _ (buffer ++ [next]) cur
          (by rw [List.append_assoc, List.singleton_append]; exact hc) hcur
          (by
            obtain ⟨h, hh, h1, h2⟩ := hhead
            exact ⟨h, List.mem_append.2 (Or.inl hh), h1, h2⟩)
          (by
            intro b hb
            rcases List.mem_append.1 hb with h | h
            · exact hbuf b h
            · rw [List.mem_singleton.1 h]
              exact ⟨hge0, hnext, hend⟩)
          hne2 (fun x hx => hge x (List.mem_cons_of_mem _ hx))
          (fun x hx => hin x (List.mem_cons_of_mem _ hx)) hs2 hn2,
        List.append_assoc, List.singleton_append]

end Clusters

/-! ## Sorted timelines never fail, and sorting two timelines together -/

section Sorting

variable {T : Type} [Inhabited T]

/-- On items sorted by start with non-empty periods, none of which ends at or before the
start of a non-empty current period, the loop returns no error. -/
theorem resolveLoop_no_error (f : Period → T → T → T) :
    ∀ (rest items buffer : List (PeriodValue T)) (cur : Period),
      cur.Start.tick < cur.End.tick → NonEmptyPeriods rest → SortedByStart rest →
        (∀ x ∈ rest, cur.Start.tick ≤ x.Period.Start.tick) →
          (resolveLoop f rest items buffer cur).2 = none := by
  intro rest
  induction rest with
  | nil => intro items buffer cur _ _ _ _; rw [resolveLoop_nil]
  | cons next rest ih =>
    intro items buffer cur hcur hne hs hge
    have hnext : next.Period.Start.tick < next.Period.End.tick := hne next (List.mem_cons_self _ _)
    have hne2 : NonEmptyPeriods rest := fun z hz => hne z (List.mem_cons_of_mem _ hz)
    have hge0 : cur.Start.tick ≤ next.Period.Start.tick := hge next (List.mem_cons_self _ _)
    have hs1 : ∀ x ∈ rest, next.Period.Start.tick ≤ x.Period.Start.tick :=
      (List.pairwise_cons.1 hs).1
    have hs2 : SortedByStart rest := (List.pairwise_cons.1 hs).2
    by_cases ha : cur.End.tick ≤ next.Period.Start.tick
    · rw [resolveLoop_after f next rest items buffer cur (by omega) ha]
      exact ih _ _ _ hnext hne2 hs2 hs1
    · rw [resolveLoop_join f next rest items buffer cur (by omega) (by omega) hcur]
      exact ih _ _ _ hcur hne2 hs2 (fun x hx => hge x (List.mem_cons_of_mem _ hx))

/-- `ResolveConflicts` returns no error on a timeline sorted by start with non-empty periods. -/
theorem resolveConflicts_no_error (t : Timeline T) (f : Period → T → T → T)
    (hs : SortedByStart t.Items) (hne : NonEmptyPeriods t.Items) :
    (t.ResolveConflicts f).2 = none := by
  cases t with
  | mk items =>
    cases items with
    | nil => rfl
    | cons first rest =>
      unfold Timeline.ResolveConflicts
      simp only
      exact resolveLoop_no_error f rest [] [first] first.Period
        (hne first (List.mem_cons_self _ _)) (fun z hz => hne z (List.mem_cons_of_mem _ hz))
        (List.pairwise_cons.1 hs).2 (List.pairwise_cons.1 hs).1

end Sorting

section SortingItems

variable {T : Type}

theorem sortTimeline_sorted (t : Timeline T) :
    SortedByStart t.SortTimelineByPeriodStart.Items := by
  haveI : IsTotal (PeriodValue T) (fun a b => a.Period.Start.tick ≤ b.Period.Start.tick) :=
    ⟨fun a b => le_total _ _⟩
  haveI : IsTrans (PeriodValue T) (fun a b => a.Period.Start.tick ≤ b.Period.Start.tick) :=
    ⟨fun a b c h1 h2 => le_trans h1 h2⟩
  exact List.sorted_insertionSort _ _

theorem sortTimeline_perm (t : Timeline T) :
    t.SortTimelineByPeriodStart.Items.Perm t.Items :=
  List.perm_insertionSort _ _

end SortingItems

/-! ## Clamping and searching -/

section Clamping

variable {T : Type} [Inhabited T]

/-- Clamping a non-empty period to a non-empty limit that it intersects succeeds. -/
theorem clamp_of_intersects (p limit : Period) (hp : p.Start.tick < p.End.tick)
    (hl : limit.Start.tick < limit.End.tick) (hi : p.Intersects limit = true) :
    p.Clamp limit =
      ({ Start := laterOf limit.Start p.Start, End := earlierOf limit.End p.End }, none) := by
  have h := (intersects_iff _ _).1 hi
  have hlt : (maxTime limit.Start p.Start).tick < (minTime limit.End p.End).tick := by
    rw [maxTime_tick, minTime_tick]
    omega
  unfold Period.Clamp
  rw [if_pos hi, newPeriod_ok hlt, maxTime_eq_laterOf, minTime_eq_earlierOf]

theorem clamp_of_not_intersects (p limit : Period) (hi : p.Intersects limit = false) :
    p.Clamp limit = (Empty, some errOutside) := by
  unfold Period.Clamp
  simp [hi]

theorem periodValue_clamp_of_intersects (x : PeriodValue T) (limit : Period)
    (hp : x.Period.Start.tick < x.Period.End.tick) (hl : limit.Start.tick < limit.End.tick)
    (hi : x.Period.Intersects limit = true) :
    x.Clamp limit =
      ({ Period := { Start := laterOf limit.Start x.Period.Start,
                     End := earlierOf limit.End x.Period.End },
         Value := x.Value }, none) := by
  unfold PeriodValue.Clamp
  rw [clamp_of_intersects x.Period limit hp hl hi]

theorem periodValue_clamp_of_not_intersects (x : PeriodValue T) (limit : Period)
    (hi : x.Period.Intersects limit = false) :
    x.Clamp limit = ({ Period := Empty, Value := default }, some errOutside) := by
  unfold PeriodValue.Clamp
  rw [clamp_of_not_intersects x.Period limit hi]

/-- `ClampPeriods` keeps the intersecting items, cut to the limit. -/
theorem clampPeriods_eq_clampedItems (limit : Period) (hl : limit.Start.tick < limit.End.tick) :
    ∀ (l : List (PeriodValue T)), NonEmptyPeriods l →
      ClampPeriods l limit = clampedItems l limit := by
  intro l
  induction l with
  | nil => intro _; rfl
  | cons x l ih =>
    intro hne
    have hx : x.Period.Start.tick < x.Period.End.tick := hne x (List.mem_cons_self _ _)
    have ih2 := ih (fun z hz => hne z (List.mem_cons_of_mem _ hz))
    unfold ClampPeriods clampedItems at ih2 ⊢
    rw [List.filterMap_cons]
    by_cases hi : x.Period.Intersects limit = true
    · have h := (intersects_iff _ _).1 hi
      have hne2 : Period.IsEmpty
          { Start := laterOf limit.Start x.Period.Start,
            End := earlierOf limit.End x.Period.End } = false := by
        rw [← Bool.not_eq_true, isEmpty_iff]
        simp only [laterOf_tick, earlierOf_tick]
        omega
      rw [periodValue_clamp_of_intersects x limit hx hl hi]
      simp only [hne2, Bool.not_false, if_true, List.filter_cons, hi, List.map_cons]
      rw [ih2]
    · have hi2 : x.Period.Intersects limit = false := by simpa using hi
      rw [periodValue_clamp_of_not_intersects x limit hi2]
      simp only [List.filter_cons, hi2, Bool.false_eq_true, if_false]
      rw [ih2]

end Clamping

section Searching

variable {T : Type}

/-- The scan of `FindIntersects` on items sorted by start gathers the intersecting items. -/
theorem findIntersectsLoop_eq_filter (period : Period) :
    ∀ (l items : List (PeriodValue T)), SortedByStart l →
      findIntersectsLoop period l items =
        items ++ l.filter (fun x => x.Period.Intersects period) := by
  intro l
  induction l with
  | nil => intro items _; simp [findIntersectsLoop]
  | cons x l ih =>
    intro items hs
    have hs1 : ∀ y ∈ l, x.Period.Start.tick ≤ y.Period.Start.tick := (List.pairwise_cons.1 hs).1
    have hs2 : SortedByStart l := (List.pairwise_cons.1 hs).2
    rw [findIntersectsLoop]
    by_cases hbreak : x.Period.Start.After period.End = true
    · rw [if_pos hbreak]
      rw [time_after_iff] at hbreak
      have hnil : (x :: l).filter (fun y => y.Period.Intersects period) = [] := by
        rw [List.filter_eq_nil_iff]
        intro y hy
        have hy2 : x.Period.Start.tick ≤ y.Period.Start.tick := by
          rcases List.mem_cons.1 hy with h | h
          · rw [h]
          · exact hs1 y h
        rw [intersects_iff]
        omega
      rw [hnil, List.append_nil]
    · rw [if_neg hbreak]
      by_cases hi : x.Period.Intersects period = true
      · rw [if_pos hi, ih _ hs2]
        simp only [List.filter_cons, hi, if_true, List.append_assoc, List.singleton_append]
      · rw [if_neg hi, ih _ hs2]
        simp only [List.filter_cons, hi, Bool.false_eq_true, if_false]

end Searching

/-! ## The loop of `Optimize` -/

section Merging

variable {T : Type}

theorem isContiguous_forward (a b : Period) (h : b.Start.tick < a.End.tick) :
    a.IsContiguous b = decide (a.Start.tick = b.End.tick) := by
  unfold Period.IsContiguous Time.Equal
  have h1 : decide (a.End.tick = b.Start.tick) = false := by
    rw [decide_eq_false_iff_not]
    omega
  rw [h1, Bool.false_or]

theorem optimizeLoop_nil (eq : T → T → Bool) (prev : PeriodValue T)
    (items : List (PeriodValue T)) (h : prev.Period.Start.tick < prev.Period.End.tick) :
    optimizeLoop eq [] prev items = items ++ [prev] := by
  have he : prev.IsEmpty = false := by
    unfold PeriodValue.IsEmpty Period.IsEmpty Time.Before
    simp [h]
  simp [optimizeLoop, he]

theorem optimizeLoop_merge (eq : T → T → Bool) (cur prev : PeriodValue T)
    (rest items : List (PeriodValue T))
    (h : (cur.Period.IsContiguous prev.Period && eq prev.Value cur.Value) = true) :
    optimizeLoop eq (cur :: rest) prev items =
      optimizeLoop eq rest
        { Value := prev.Value,
          Period := { Start := prev.Period.Start, End := cur.Period.End } } items := by
  rw [optimizeLoop, if_pos h]

theorem optimizeLoop_keep (eq : T → T → Bool) (cur prev : PeriodValue T)
    (rest items : List (PeriodValue T))
    (h : (cur.Period.IsContiguous prev.Period && eq prev.Value cur.Value) = false) :
    optimizeLoop eq (cur :: rest) prev items = optimizeLoop eq rest cur (items ++ [prev]) := by
  rw [optimizeLoop, if_neg (by simp [h])]

/-- The items already emitted are not touched by the rest of the loop. -/
theorem optimizeLoop_acc (eq : T → T → Bool) :
    ∀ (rest : List (PeriodValue T)) (prev : PeriodValue T) (items : List (PeriodValue T)),
      optimizeLoop eq rest prev items = items ++ optimizeLoop eq rest prev [] := by
  intro rest
  induction rest with
  | nil =>
    intro prev items
    simp only [optimizeLoop]
    split <;> simp
  | cons cur rest ih =>
    intro prev items
    by_cases h : (cur.Period.IsContiguous prev.Period && eq prev.Value cur.Value) = true
    · rw [optimizeLoop_merge eq cur prev rest items h, optimizeLoop_merge eq cur prev rest [] h]
      exact ih _ _
    · have h2 : (cur.Period.IsContiguous prev.Period && eq prev.Value cur.Value) = false := by
        simpa using h
      rw [optimizeLoop_keep eq cur prev rest items h2, optimizeLoop_keep eq cur prev rest [] h2,
        ih cur (items ++ [prev]), ih cur ([] ++ [prev])]
      simp

/-- The loop never emits more items than it visits, the pending one included. -/
theorem optimizeLoop_length (eq : T → T → Bool) :
    ∀ (rest : List (PeriodValue T)) (prev : PeriodValue T),
      (optimizeLoop eq rest prev []).length ≤ rest.length + 1 := by
  intro rest
  induction rest with
  | nil =>
    intro prev
    simp only [optimizeLoop]
    split <;> simp
  | cons cur rest ih =>
    intro prev
    by_cases h : (cur.Period.IsContiguous prev.Period && eq prev.Value cur.Value) = true
    · rw [optimizeLoop_merge eq cur prev rest [] h]
      have := ih ⟨⟨prev.Period.Start, cur.Period.End⟩, prev.Value⟩
      simp only [List.length_cons]
      omega
    · have h2 : (cur.Period.IsContiguous prev.Period && eq prev.Value cur.Value) = false := by
        simpa using h
      rw [optimizeLoop_keep eq cur prev rest [] h2, optimizeLoop_acc]
      have := ih cur
      simp only [List.nil_append, List.length_append, List.length_cons, List.length_nil]
      omega

/-- On items sorted by start with non-empty periods the loop emits at least one item; the first
one starts where the pending item starts, carries its value and ends no earlier; all emitted
periods are non-empty, and no emitted item can be merged into the one before it. -/
theorem optimizeLoop_stable (eq : T → T → Bool) :
    ∀ (rest : List (PeriodValue T)) (prev : PeriodValue T),
      prev.Period.Start.tick < prev.Period.End.tick →
      (∀ x ∈ rest, prev.Period.Start.tick ≤ x.Period.Start.tick) →
      NonEmptyPeriods rest → SortedByStart rest →
        ∃ h tl, optimizeLoop eq rest prev [] = h :: tl ∧
          h.Period.Start.tick = prev.Period.Start.tick ∧ h.Value = prev.Value ∧
          prev.Period.End.tick ≤ h.Period.End.tick ∧ NonEmptyPeriods (h :: tl) ∧
          (h :: tl).Chain'
            (fun a b => (b.Period.IsContiguous a.Period && eq a.Value b.Value) = false) := by
  intro rest
  induction rest with
  | nil =>
    intro prev hprev _ _ _
    refine ⟨prev, [], ?_, rfl, rfl, le_refl _, ?_, List.chain'_singleton _⟩
    · rw [optimizeLoop_nil eq prev [] hprev, List.nil_append]
    · intro r hr
      rw [List.mem_singleton.1 hr]
      exact hprev
  | cons cur rest ih =>
    intro prev hprev hge hne hs
    have hcur : cur.Period.Start.tick < cur.Period.End.tick := hne cur (List.mem_cons_self _ _)
    have hne2 : NonEmptyPeriods rest := fun z hz => hne z (List.mem_cons_of_mem _ hz)
    have hge0 : prev.Period.Start.tick ≤ cur.Period.Start.tick := hge cur (List.mem_cons_self _ _)
    have hs1 : ∀ x ∈ rest, cur.Period.Start.tick ≤ x.Period.Start.tick :=
      (List.pairwise_cons.1 hs).1
    have hs2 : SortedByStart rest := (List.pairwise_cons.1 hs).2
    have hfw := isContiguous_forward cur.Period prev.Period (by omega)
    by_cases h : (cur.Period.IsContiguous prev.Period && eq prev.Value cur.Value) = true
    · have hc : cur.Period.Start.tick = prev.Period.End.tick := by
        have h0 := h
        rw [hfw, Bool.and_eq_true, decide_eq_true_eq] at h0
        exact h0.1
      rw [optimizeLoop_merge eq cur prev rest [] h]
      obtain ⟨hd, tl, e, h1, h2, h3, h4, h5⟩ :=
        ih { Value := prev.Value,
             Period := { Start := prev.Period.Start, End := cur.Period.End } }
          (by simp only; omega) (fun x hx => hge x (List.mem_cons_of_mem _ hx)) hne2 hs2
      simp only at h1 h2 h3
      exact ⟨hd, tl, e, h1, h2, by omega, h4, h5⟩
    · have h2 : (cur.Period.IsContiguous prev.Period && eq prev.Value cur.Value) = false := by
        simpa using h
      rw [optimizeLoop_keep eq cur prev rest [] h2, optimizeLoop_acc]
      obtain ⟨hd, tl, e, h1, h3, h4, h5, h6⟩ := ih cur hcur hs1 hne2 hs2
      refine ⟨prev, hd :: tl, ?_, rfl, rfl, le_refl _, ?_, ?_⟩
      · rw [e]; rfl
      · intro r hr
        rcases List.mem_cons.1 hr with hr | hr
        · rw [hr]; exact hprev
        · exact h5 r hr
      · refine List.chain'_cons.2 ⟨?_, h6⟩
        have hfw2 := isContiguous_forward hd.Period prev.Period (by omega)
        rw [hfw2, h1, h3, ← hfw]
        exact h2

/-- A list of items with non-empty periods in which no item can be merged into the one before
it is returned unchanged by the loop. -/
theorem optimizeLoop_fixed (eq : T → T → Bool) :
    ∀ (tl : List (PeriodValue T)) (h : PeriodValue T),
      NonEmptyPeriods (h :: tl) →
      (h :: tl).Chain'
        (fun a b => (b.Period.IsContiguous a.Period && eq a.Value b.Value) = false) →
        optimizeLoop eq tl h [] = h :: tl := by
  intro tl
  induction tl with
  | nil =>
    intro h hne _
    rw [optimizeLoop_nil eq h [] (hne h (List.mem_cons_self _ _)), List.nil_append]
  | cons b tl ih =>
    intro h hne hc
    rw [optimizeLoop_keep eq b h tl [] (List.chain'_cons.1 hc).1, optimizeLoop_acc,
      ih b (fun z hz => hne z (List.mem_cons_of_mem _ hz)) (List.chain'_cons.1 hc).2]
    rfl

/-- With true equality as the comparer, the emitted items cover, value by value, the instants
covered by the pending item and by the items still to visit. -/
theorem optimizeLoop_covers (eq : T → T → Bool) (heq : ∀ a b, eq a b = true ↔ a = b)
    (t : Int) (v : T) :
    ∀ (rest : List (PeriodValue T)) (prev : PeriodValue T),
      prev.Period.Start.tick < prev.Period.End.tick →
      (∀ x ∈ rest, prev.Period.Start.tick ≤ x.Period.Start.tick) →
      NonEmptyPeriods rest → SortedByStart rest →
        ((∃ r ∈ optimizeLoop eq rest prev [], r.Value = v ∧ Covers r.Period t) ↔
          (prev.Value = v ∧ Covers prev.Period t) ∨
            ∃ x ∈ rest, x.Value = v ∧ Covers x.Period t) := by
  intro rest
  induction rest with
  | nil =>
    intro prev hprev _ _ _
    rw [optimizeLoop_nil eq prev [] hprev]
    simp
  | cons cur rest ih =>
    intro prev hprev hge hne hs
    have hcur : cur.Period.Start.tick < cur.Period.End.tick := hne cur (List.mem_cons_self _ _)
    have hne2 : NonEmptyPeriods rest := fun z hz => hne z (List.mem_cons_of_mem _ hz)
    have hge0 : prev.Period.Start.tick ≤ cur.Period.Start.tick := hge cur (List.mem_cons_self _ _)
    have hs1 : ∀ x ∈ rest, cur.Period.Start.tick ≤ x.Period.Start.tick :=
      (List.pairwise_cons.1 hs).1
    have hs2 : SortedByStart rest := (List.pairwise_cons.1 hs).2
    have hfw := isContiguous_forward cur.Period prev.Period (by omega)
    simp only [List.mem_cons, exists_eq_or_imp]
    by_cases h : (cur.Period.IsContiguous prev.Period && eq prev.Value cur.Value) = true
    · have h0 := h
      rw [hfw, Bool.and_eq_true, decide_eq_true_eq, heq] at h0
      obtain ⟨hc, hv⟩ := h0
      rw [optimizeLoop_merge eq cur prev rest [] h,
        ih ⟨⟨prev.Period.Start, cur.Period.End⟩, prev.Value⟩ (by simp only; omega)
          (fun x hx => hge x (List.mem_cons_of_mem _ hx)) hne2 hs2]
      simp only [Covers]
      constructor
      · rintro (⟨h1, h2, h3⟩ | h1)
        · by_cases hlt : t < prev.Period.End.tick
          · exact Or.inl ⟨h1, h2, hlt⟩
          · exact Or.inr (Or.inl ⟨hv ▸ h1, by omega, h3⟩)
        · exact Or.inr (Or.inr h1)
      · rintro (⟨h1, h2, h3⟩ | ⟨h1, h2, h3⟩ | h1)
        · exact Or.inl ⟨h1, h2, by omega⟩
        · exact Or.inl ⟨hv ▸ h1, by omega, h3⟩
        · exact Or.inr h1
    · have h2 : (cur.Period.IsContiguous prev.Period && eq prev.Value cur.Value) = false := by
        simpa using h
      rw [optimizeLoop_keep eq cur prev rest [] h2, optimizeLoop_acc]
      simp only [List.nil_append, List.singleton_append, List.mem_cons, exists_eq_or_imp]
      rw [ih cur hcur hs1 hne2 hs2]

end Merging

/-! ## The shape of the list of periods between neighbouring instants -/

section Neighbours

theorem consecutivePeriods_singleton (a : Time) : consecutivePeriods [a] = [] := rfl

/-- Both instants of a period between neighbours are members of the list. -/
theorem mem_of_mem_consecutivePeriods (q : Period) :
    ∀ (l : List Time), q ∈ consecutivePeriods l → q.Start ∈ l ∧ q.End ∈ l := by
  intro l
  induction l with
  | nil => intro h; simp [consecutivePeriods] at h
  | cons a rest ih =>
    intro h
    cases rest with
    | nil => simp [consecutivePeriods] at h
    | cons b rest =>
      rw [consecutivePeriods_cons_cons, List.mem_cons] at h
      rcases h with h | h
      · subst h
        exact ⟨List.mem_cons_self _ _, List.mem_cons_of_mem _ (List.mem_cons_self _ _)⟩
      · have := ih h
        exact ⟨List.mem_cons_of_mem _ this.1, List.mem_cons_of_mem _ this.2⟩

/-- On an ascending list each period between neighbours ends at or before the start of the
ones after it. -/
theorem consecutivePeriods_ordered :
    ∀ (l : List Time), l.Sorted (fun a b => a.tick ≤ b.tick) →
      (consecutivePeriods l).Pairwise (fun p q => p.End.tick ≤ q.Start.tick) := by
  intro l
  induction l with
  | nil => intro _; simp [consecutivePeriods]
  | cons a rest ih =>
    intro hs
    cases rest with
    | nil => simp [consecutivePeriods]
    | cons b rest =>
      have hs2 : (b :: rest).Sorted (fun a b => a.tick ≤ b.tick) := (List.pairwise_cons.1 hs).2
      have hb : ∀ c ∈ rest, b.tick ≤ c.tick := (List.pairwise_cons.1 hs2).1
      rw [consecutivePeriods_cons_cons]
      refine List.pairwise_cons.2 ⟨?_, ih hs2⟩
      intro q hq
      have hm := (mem_of_mem_consecutivePeriods q _ hq).1
      rcases List.mem_cons.1 hm with h | h
      · rw [h]
      · exact hb _ h

/-- On an ascending list no period between neighbours ends before it starts. -/
theorem consecutivePeriods_le :
    ∀ (l : List Time), l.Sorted (fun a b => a.tick ≤ b.tick) →
      ∀ q ∈ consecutivePeriods l, q.Start.tick ≤ q.End.tick := by
  intro l
  induction l with
  | nil => intro _ q hq; simp [consecutivePeriods] at hq
  | cons a rest ih =>
    intro hs q hq
    cases rest with
    | nil => simp [consecutivePeriods] at hq
    | cons b rest =>
      rw [consecutivePeriods_cons_cons, List.mem_cons] at hq
      rcases hq with h | h
      · rw [h]
        exact (List.pairwise_cons.1 hs).1 b (List.mem_cons_self _ _)
      · exact ih (List.pairwise_cons.1 hs).2 q h

/-- Each period between neighbours ends where the next one starts. -/
theorem consecutivePeriods_chain :
    ∀ (l : List Time), (consecutivePeriods l).Chain' (fun p q => p.End = q.Start) := by
  intro l
  induction l with
  | nil => simp [consecutivePeriods]
  | cons a rest ih =>
    cases rest with
    | nil => simp [consecutivePeriods]
    | cons b rest =>
      rw [consecutivePeriods_cons_cons]
      cases rest with
      | nil => simp [consecutivePeriods]
      | cons c rest =>
        rw [consecutivePeriods_cons_cons] at ih ⊢
        exact List.chain'_cons.2 ⟨rfl, ih⟩

theorem consecutivePeriods_length :
    ∀ (l : List Time), (consecutivePeriods l).length = l.length - 1 := by
  intro l
  induction l with
  | nil => rfl
  | cons a rest ih =>
    cases rest with
    | nil => rfl
    | cons b rest =>
      rw [consecutivePeriods_cons_cons, List.length_cons, ih]
      simp

/-- An instant between two members of an ascending list lies in one of the periods between
neighbours. -/
theorem consecutivePeriods_covers (t : Int) :
    ∀ (l : List Time), l.Sorted (fun a b => a.tick ≤ b.tick) →
      (∃ a ∈ l, a.tick ≤ t) → (∃ b ∈ l, t < b.tick) →
        ∃ q ∈ consecutivePeriods l, q.Start.tick ≤ t ∧ t < q.End.tick := by
  intro l
  induction l with
  | nil => intro _ h _; simp at h
  | cons a rest ih =>
    intro hs hlow hhigh
    have ha : ∀ c ∈ rest, a.tick ≤ c.tick := (List.pairwise_cons.1 hs).1
    cases rest with
    | nil =>
      obtain ⟨x, hx, hxt⟩ := hlow
      obtain ⟨y, hy, hyt⟩ := hhigh
      rw [List.mem_singleton] at hx hy
      rw [hx] at hxt
      rw [hy] at hyt
      omega
    | cons b rest =>
      have hs2 : (b :: rest).Sorted (fun a b => a.tick ≤ b.tick) := (List.pairwise_cons.1 hs).2
      rw [consecutivePeriods_cons_cons]
      by_cases htb : t < b.tick
      · refine ⟨⟨a, b⟩, List.mem_cons_self _ _, ?_, htb⟩
        obtain ⟨x, hx, hxt⟩ := hlow
        rcases List.mem_cons.1 hx with h | h
        · rw [h] at hxt
          exact hxt
        · have := ha x h
          simp only; omega
      · obtain ⟨q, hq, hq2⟩ := ih hs2 ⟨b, List.mem_cons_self _ _, by omega⟩ (by
          obtain ⟨y, hy, hyt⟩ := hhigh
          rcases List.mem_cons.1 hy with h | h
          · have := ha b (List.mem_cons_self _ _)
            rw [h] at hyt
            omega
          · exact ⟨y, h, hyt⟩)
        exact ⟨q, List.mem_cons_of_mem _ hq, hq2⟩

/-- The periods between neighbours of a list split at any of its members. -/
theorem consecutivePeriods_append :
    ∀ (l1 : List Time) (x : Time) (l2 : List Time),
      consecutivePeriods (l1 ++ x :: l2) =
        consecutivePeriods (l1 ++ [x]) ++ consecutivePeriods (x :: l2) := by
  intro l1
  induction l1 with
  | nil => intro x l2; rfl
  | cons a l1 ih =>
    intro x l2
    cases l1 with
    | nil =>
      simp only [List.cons_append, List.nil_append]
      rw [consecutivePeriods_cons_cons, consecutivePeriods_cons_cons,
        consecutivePeriods_singleton]
      rfl
    | cons b l1 =>
      have h := ih x l2
      simp only [List.cons_append] at h ⊢
      rw [consecutivePeriods_cons_cons, consecutivePeriods_cons_cons, h]
      rfl

/-- The last of the periods between neighbours ends at the last instant of the list. -/
theorem consecutivePeriods_getLast (e : Time) :
    ∀ (l : List Time), l ≠ [] →
      ∃ last, (consecutivePeriods (l ++ [e])).getLast? = some last ∧ last.End = e := by
  intro l
  induction l with
  | nil => intro h; exact absurd rfl h
  | cons a l ih =>
    intro _
    cases l with
    | nil => exact ⟨⟨a, e⟩, rfl, rfl⟩
    | cons b l =>
      obtain ⟨last, h1, h2⟩ := ih (List.cons_ne_nil _ _)
      refine ⟨last, ?_, h2⟩
      simp only [List.cons_append] at h1 ⊢
      rw [consecutivePeriods_cons_cons]
      cases hc : consecutivePeriods (b :: (l ++ [e])) with
      | nil => rw [hc] at h1; simp at h1
      | cons c cs =>
        rw [hc] at h1
        rw [List.getLast?_cons_cons]
        exact h1

/-- Two strictly ascending lists of instants with the same members are equal. -/
theorem eq_of_ascending_of_mem_iff (l1 l2 : List Int)
    (h1 : l1.Sorted (fun a b => a < b)) (h2 : l2.Sorted (fun a b => a < b))
    (hm : ∀ c, c ∈ l1 ↔ c ∈ l2) : l1 = l2 := by
  have n1 : l1.Nodup := h1.imp (fun {a b} hab => ne_of_lt hab)
  have n2 : l2.Nodup := h2.imp (fun {a b} hab => ne_of_lt hab)
  exact List.eq_of_perm_of_sorted ((List.perm_ext_iff_of_nodup n1 n2).2 hm) h1 h2

/-- The instants of the periods between neighbours are the pairs of neighbouring instants. -/
theorem consecutivePeriods_instants :
    ∀ (l : List Time),
      (consecutivePeriods l).map (fun q => (q.Start.tick, q.End.tick)) =
        pairsOfInstants (l.map Time.tick) := by
  intro l
  induction l with
  | nil => rfl
  | cons a rest ih =>
    cases rest with
    | nil => rfl
    | cons b rest =>
      rw [consecutivePeriods_cons_cons, List.map_cons, ih]
      rfl

end Neighbours

/-! ## Splitting a period -/

section Splitting

/-- On intersecting periods the channel of `SplitFromPeriod` carries the three-way partition. -/
theorem splitFromPeriod_eq_threeWaySplit (p q : Period) (hi : p.Intersects q = true) :
    p.SplitFromPeriod q = threeWaySplit p q := by
  unfold Period.SplitFromPeriod threeWaySplit
  simp only [hi, Bool.not_true, Bool.false_eq_true, if_false, maxTime_eq_laterOf,
    minTime_eq_earlierOf, time_before_iff, time_after_iff]

/-- The three-way partition of a non-empty period around a non-empty period it intersects:
one to three non-empty periods from `p.Start` to `p.End`, each ending where the next starts,
of which only the middle one lies inside `q`. -/
theorem threeWaySplit_props (p q : Period) (hp : p.Start.tick < p.End.tick)
    (hq : q.Start.tick < q.End.tick)
    (h1 : p.Start.tick < q.End.tick) (h2 : q.Start.tick < p.End.tick) :
    1 ≤ (threeWaySplit p q).length ∧ (threeWaySplit p q).length ≤ 3 ∧
      (∀ r ∈ threeWaySplit p q, r.Start.tick < r.End.tick) ∧
      (threeWaySplit p q).Chain' (fun a b => a.End.tick = b.Start.tick) ∧
      (∃ first, (threeWaySplit p q).head? = some first ∧ first.Start.tick = p.Start.tick) ∧
      (∃ last, (threeWaySplit p q).getLast? = some last ∧ last.End.tick = p.End.tick) ∧
      (∀ r ∈ threeWaySplit p q,
        q.ContainsPeriod r = true ↔
          r = { Start := laterOf p.Start q.Start, End := earlierOf p.End q.End }) := by
  unfold threeWaySplit
  have hM := laterOf_tick p.Start q.Start
  have hN := earlierOf_tick p.End q.End
  generalize laterOf p.Start q.Start = M at hM ⊢
  generalize earlierOf p.End q.End = N at hN ⊢
  by_cases ha : p.Start.tick < q.Start.tick
  · by_cases hb : q.End.tick < p.End.tick
    · rw [if_pos ha, if_pos hb]
      refine ⟨by simp, by simp, ?_, ?_, ⟨_, rfl, rfl⟩, ⟨_, rfl, rfl⟩, ?_⟩
      · intro r hr
        simp only [List.cons_append, List.nil_append, List.mem_cons, List.mem_singleton,
          List.not_mem_nil, or_false] at hr
        rcases hr with rfl | rfl | rfl <;> simp only <;> omega
      · simp only [List.cons_append, List.nil_append, List.chain'_cons, List.chain'_singleton,
          and_true]
        omega
      · intro r hr
        simp only [List.cons_append, List.nil_append, List.mem_cons, List.mem_singleton,
          List.not_mem_nil, or_false] at hr
        rcases hr with rfl | rfl | rfl
        · rw [containsPeriod_iff]
          constructor
          · intro h; simp only at h; omega
          · intro h
            have e := congrArg (fun r => r.Start.tick) h
            simp only at e
            omega
        · rw [containsPeriod_iff]
          constructor
          · intro _; rfl
          · intro _; simp only; omega
        · rw [containsPeriod_iff]
          constructor
          · intro h; simp only at h; omega
          · intro h
            have e := congrArg (fun r => r.End.tick) h
            simp only at e
            omega
    · rw [if_pos ha, if_neg hb]
      refine ⟨by simp, by simp, ?_, ?_, ⟨_, rfl, rfl⟩, ⟨⟨M, N⟩, rfl, ?_⟩, ?_⟩
      · intro r hr
        simp only [List.cons_append, List.nil_append, List.append_nil, List.mem_cons,
          List.mem_singleton, List.not_mem_nil, or_false] at hr
        rcases hr with rfl | rfl <;> simp only <;> omega
      · simp only [List.cons_append, List.nil_append, List.append_nil, List.chain'_cons,
          List.chain'_singleton, and_true]
        omega
      · show N.tick = p.End.tick; omega
      · intro r hr
        simp only [List.cons_append, List.nil_append, List.append_nil, List.mem_cons,
          List.mem_singleton, List.not_mem_nil, or_false] at hr
        rcases hr with rfl | rfl
        · rw [containsPeriod_iff]
          constructor
          · intro h; simp only at h; omega
          · intro h
            have e := congrArg (fun r => r.Start.tick) h
            simp only at e
            omega
        · rw [containsPeriod_iff]
          constructor
          · intro _; rfl
          · intro _; simp only; omega
  · by_cases hb : q.End.tick < p.End.tick
    · rw [if_neg ha, if_pos hb]
      refine ⟨by simp, by simp, ?_, ?_, ⟨⟨M, N⟩, rfl, ?_⟩, ⟨_, rfl, rfl⟩, ?_⟩
      · intro r hr
        simp only [List.cons_append, List.nil_append, List.mem_cons, List.mem_singleton,
          List.not_mem_nil, or_false] at hr
        rcases hr with rfl | rfl <;> simp only <;> omega
      · simp only [List.cons_append, List.nil_append, List.chain'_cons, List.chain'_singleton,
          and_true]
        omega
      · show _ = p.Start.tick; simp only; omega
      · intro r hr
        simp only [List.cons_append, List.nil_append, List.mem_cons, List.mem_singleton,
          List.not_mem_nil, or_false] at hr
        rcases hr with rfl | rfl
        · rw [containsPeriod_iff]
          constructor
          · intro _; rfl
          · intro _; simp only; omega
        · rw [containsPeriod_iff]
          constructor
          · intro h; simp only at h; omega
          · intro h
            have e := congrArg (fun r => r.End.tick) h
            simp only at e
            omega
    · rw [if_neg ha, if_neg hb]
      refine ⟨by simp, by simp, ?_, by simp, ⟨⟨M, N⟩, rfl, ?_⟩, ⟨⟨M, N⟩, rfl, ?_⟩, ?_⟩
      · intro r hr
        simp only [List.nil_append, List.append_nil, List.mem_singleton] at hr
        subst hr
        simp only
        omega
      · show _ = p.Start.tick; simp only; omega
      · show N.tick = p.End.tick; omega
      · intro r hr
        simp only [List.nil_append, List.append_nil, List.mem_singleton] at hr
        subst hr
        rw [containsPeriod_iff]
        constructor
        · intro _; rfl
        · intro _; simp only; omega


theorem splitLoop_done (f : Time → Time) (stop : Time) (fuel : Nat) (current : Time)
    (h : stop.tick ≤ current.tick) : splitLoop f stop fuel current = some [] := by
  have hb : current.Before stop = false := by
    rw [← Bool.not_eq_true, time_before_iff]; omega
  cases fuel with
  | zero => rw [splitLoop, hb]; rfl
  | succ fuel => rw [splitLoop, hb]; rfl

/-- With a step that strictly advances, enough iterations end the loop of `Split`: the chunks
are `[c, f c)`, start before `stop`, follow one another from `current`, and the last one ends at
or after `stop`. -/
theorem splitLoop_spec (f : Time → Time) (hf : ∀ t, t.tick < (f t).tick) (stop : Time) :
    ∀ (fuel : Nat) (current : Time), (stop.tick - current.tick).toNat ≤ fuel →
      ∃ chunks, splitLoop f stop fuel current = some chunks ∧
        (stop.tick ≤ current.tick → chunks = []) ∧
        (current.tick < stop.tick →
          (∃ first, chunks.head? = some first ∧ first.Start = current) ∧
            ∃ last, chunks.getLast? = some last ∧ stop.tick ≤ last.End.tick) ∧
        (∀ c ∈ chunks, c.End = f c.Start ∧ c.Start.tick < stop.tick) ∧
        chunks.Chain' (fun a b => a.End = b.Start) := by
  intro fuel
  induction fuel with
  | zero =>
    intro current hfuel
    have h : stop.tick ≤ current.tick := by omega
    refine ⟨[], splitLoop_done f stop 0 current h, fun _ => rfl, fun hlt => ?_, ?_, ?_⟩
    · omega
    · intro c hc; simp at hc
    · exact List.chain'_nil
  | succ fuel ih =>
    intro current hfuel
    by_cases h : current.tick < stop.tick
    · have hadv := hf current
      obtain ⟨rest, hrest, hnil, hne, hall, hchain⟩ := ih (f current) (by omega)
      refine ⟨{ Start := current, End := f current } :: rest, ?_, fun hle => by omega,
        fun _ => ⟨⟨_, rfl, rfl⟩, ?_⟩, ?_, ?_⟩
      · rw [splitLoop, if_pos ((time_before_iff _ _).2 h), hrest]
      · by_cases hstop : stop.tick ≤ (f current).tick
        · rw [hnil hstop]
          exact ⟨_, rfl, hstop⟩
        · obtain ⟨_, last, hlast, hle⟩ := hne (by omega)
          cases rest with
          | nil => simp at hlast
          | cons r rs =>
            rw [List.getLast?_cons_cons]
            exact ⟨last, hlast, hle⟩
      · intro c hc
        rcases List.mem_cons.1 hc with hc | hc
        · subst hc
          exact ⟨rfl, h⟩
        · exact hall c hc
      · cases rest with
        | nil => exact List.chain'_singleton _
        | cons r rs =>
          refine List.chain'_cons.2 ⟨?_, hchain⟩
          by_cases hstop : stop.tick ≤ (f current).tick
          · have := hnil hstop
            simp at this
          · obtain ⟨⟨first, hfirst, hstart⟩, _⟩ := hne (by omega)
            simp only [List.head?_cons, Option.some.injEq] at hfirst
            subst hfirst
            exact hstart.symm
    · have h2 : stop.tick ≤ current.tick := by omega
      refine ⟨[], splitLoop_done f stop _ current h2, fun _ => rfl, fun hlt => ?_, ?_, ?_⟩
      · omega
      · intro c hc; simp at hc
      · exact List.chain'_nil

theorem time_add_add (t : Time) (a b : Int) : (t.Add a).Add b = t.Add (a + b) := by
  unfold Time.Add
  simp only [Time.mk.injEq, and_true]
  ring

theorem time_add_zero (t : Time) : t.Add 0 = t := by
  unfold Time.Add
  simp

/-- With a fixed step `d > 0` and `n` steps from `current` to `stop`, the loop of `Split`
emits the `n` chunks `[current + k d, current + (k + 1) d)`. -/
theorem splitLoop_fixed_step (d : Int) (hd : 0 < d) (stop : Time) :
    ∀ (n fuel : Nat) (current : Time), stop.tick - current.tick = n * d → n ≤ fuel →
      splitLoop (fun t => t.Add d) stop fuel current =
        some ((List.range n).map
          (fun k => { Start := current.Add (k * d), End := current.Add ((k + 1) * d) })) := by
  intro n
  induction n with
  | zero =>
    intro fuel current hlen _
    rw [splitLoop_done _ stop fuel current (by simp at hlen; omega)]
    rfl
  | succ n ih =>
    intro fuel current hlen hfuel
    cases fuel with
    | zero => omega
    | succ fuel =>
      have hpos : (0 : Int) ≤ n * d := Int.mul_nonneg (Int.ofNat_nonneg n) (le_of_lt hd)
      have hlen2 : stop.tick - current.tick = n * d + d := by
        rw [hlen]; push_cast; ring
      have hstep : (current.Add d).tick = current.tick + d := rfl
      rw [splitLoop, if_pos ((time_before_iff _ _).2 (by omega)),
        ih fuel (current.Add d) (by omega) (by omega),
        List.range_succ_eq_map, List.map_cons, List.map_map]
      simp only [Nat.cast_zero, zero_mul, zero_add, one_mul, time_add_zero, Option.some.injEq,
        List.cons.injEq, true_and]
      apply List.map_congr_left
      intro k _
      simp only [Function.comp, Nat.cast_succ, Period.mk.injEq, time_add_add]
      constructor <;> congr 1 <;> ring

end Splitting

/-! ## The builder -/

section Builder

variable {T : Type}

/-- A call on a builder that has recorded an error changes nothing. -/
theorem apply_of_error (b : TimeLineBuilder T) (c : BuilderCall T) (e : String)
    (h : b.err = some e) : BuilderCall.apply b c = b := by
  cases c with
  | addPeriod start stop value =>
    simp only [BuilderCall.apply, TimeLineBuilder.AddPeriod, h]
  | addPeriodValue pv =>
    simp only [BuilderCall.apply, TimeLineBuilder.AddPeriodValue, h]

/-- A call with a valid period on a builder without error appends its item. -/
theorem apply_of_valid (items : List (PeriodValue T)) (c : BuilderCall T)
    (h : c.item.Period.Start.tick < c.item.Period.End.tick) :
    BuilderCall.apply { items := items, err := none } c =
      { items := items ++ [c.item], err := none } := by
  cases c with
  | addPeriod start stop value =>
    simp only [BuilderCall.item] at h
    simp only [BuilderCall.apply, TimeLineBuilder.AddPeriod, newPeriod_ok h, BuilderCall.item,
      NewPeriodValue]
  | addPeriodValue pv =>
    simp only [BuilderCall.item] at h
    have hb : pv.Period.Start.Before pv.Period.End = true := (time_before_iff _ _).2 h
    simp only [BuilderCall.apply, TimeLineBuilder.AddPeriodValue, hb, Bool.not_true,
      Bool.false_eq_true, if_false, BuilderCall.item]

/-- A call with an invalid period on a builder without error records the error. -/
theorem apply_of_invalid (items : List (PeriodValue T)) (c : BuilderCall T)
    (h : ¬ c.item.Period.Start.tick < c.item.Period.End.tick) :
    BuilderCall.apply { items := items, err := none } c =
      { items := items, err := some errInvalidPeriod } := by
  cases c with
  | addPeriod start stop value =>
    simp only [BuilderCall.item] at h
    simp only [BuilderCall.apply, TimeLineBuilder.AddPeriod, newPeriod_error (not_lt.1 h)]
  | addPeriodValue pv =>
    simp only [BuilderCall.item] at h
    have hb : pv.Period.Start.Before pv.Period.End = false := by
      rw [← Bool.not_eq_true, time_before_iff]; exact h
    simp only [BuilderCall.apply, TimeLineBuilder.AddPeriodValue, hb, Bool.not_false, if_true]

theorem foldl_apply_of_error (e : String) :
    ∀ (calls : List (BuilderCall T)) (b : TimeLineBuilder T), b.err = some e →
      calls.foldl BuilderCall.apply b = b := by
  intro calls
  induction calls with
  | nil => intro b _; rfl
  | cons c calls ih =>
    intro b h
    rw [List.foldl_cons, apply_of_error b c e h]
    exact ih b h

theorem foldl_apply_of_valid :
    ∀ (calls : List (BuilderCall T)) (items : List (PeriodValue T)),
      (∀ c ∈ calls, c.item.Period.Start.tick < c.item.Period.End.tick) →
        calls.foldl BuilderCall.apply { items := items, err := none } =
          { items := items ++ calls.map BuilderCall.item, err := none } := by
  intro calls
  induction calls with
  | nil => intro items _; simp
  | cons c calls ih =>
    intro items h
    rw [List.foldl_cons, apply_of_valid items c (h c (List.mem_cons_self _ _)),
      ih _ (fun x hx => h x (List.mem_cons_of_mem _ hx))]
    simp

/-- The builder after valid calls followed by an invalid one: the items of the valid calls and
the error; the calls that follow are ignored. -/
theorem runCalls_of_invalid (pre : List (BuilderCall T)) (c : BuilderCall T)
    (post : List (BuilderCall T))
    (hpre : ∀ x ∈ pre, x.item.Period.Start.tick < x.item.Period.End.tick)
    (hc : ¬ c.item.Period.Start.tick < c.item.Period.End.tick) :
    runCalls (pre ++ c :: post) =
      { items := pre.map BuilderCall.item, err := some errInvalidPeriod } := by
  unfold runCalls NewTimeLineBuilder
  rw [List.foldl_append, foldl_apply_of_valid pre [] hpre, List.foldl_cons, List.nil_append,
    apply_of_invalid _ c hc, foldl_apply_of_error errInvalidPeriod post _ rfl]

/-- Either every call is valid or there is a first invalid call. -/
theorem first_invalid_call :
    ∀ (calls : List (BuilderCall T)),
      (∀ c ∈ calls, c.item.Period.Start.tick < c.item.Period.End.tick) ∨
        ∃ pre c post, calls = pre ++ c :: post ∧
          (∀ x ∈ pre, x.item.Period.Start.tick < x.item.Period.End.tick) ∧
          ¬ c.item.Period.Start.tick < c.item.Period.End.tick := by
  intro calls
  induction calls with
  | nil => left; intro c hc; simp at hc
  | cons a calls ih =>
    by_cases ha : a.item.Period.Start.tick < a.item.Period.End.tick
    · rcases ih with h | ⟨pre, c, post, h1, h2, h3⟩
      · left
        intro c hc
        rcases List.mem_cons.1 hc with hc | hc
        · rw [hc]; exact ha
        · exact h c hc
      · right
        refine ⟨a :: pre, c, post, by rw [h1]; rfl, ?_, h3⟩
        intro x hx
        rcases List.mem_cons.1 hx with hx | hx
        · rw [hx]; exact ha
        · exact h2 x hx
    · right
      exact ⟨[], a, calls, rfl, by intro x hx; simp at hx, ha⟩

end Builder

/-! ## The instants covered by the result of `ResolveConflicts` -/

section CoverageOfSlices

variable {T : Type}

/-- For items with non-empty periods the periods of `SplitAllPeriods` cover the instants from
the earliest start to the latest end. -/
theorem splitAllPeriods_covers_iff (l : List (PeriodValue T)) (hne : NonEmptyPeriods l)
    (t : Int) :
    (∃ q ∈ SplitAllPeriods l, Covers q t) ↔
      (∃ x ∈ l, x.Period.Start.tick ≤ t) ∧ (∃ y ∈ l, t < y.Period.End.tick) := by
  constructor
  · rintro ⟨q, hq, hq1, hq2⟩
    have hm := mem_of_mem_consecutivePeriods q _ hq
    obtain ⟨x, hx, hxs⟩ := (mem_allTimes l _).1 hm.1
    obtain ⟨y, hy, hye⟩ := (mem_allTimes l _).1 hm.2
    have h1 := hne x hx
    have h2 := hne y hy
    refine ⟨⟨x, hx, ?_⟩, ⟨y, hy, ?_⟩⟩
    · rcases hxs with h | h <;> rw [h] at hq1 <;> omega
    · rcases hye with h | h <;> rw [h] at hq2 <;> omega
  · rintro ⟨⟨x, hx, hxt⟩, ⟨y, hy, hyt⟩⟩
    exact consecutivePeriods_covers t (allTimes l) (allTimes_ascending l)
      ⟨x.Period.Start, (mem_allTimes l _).2 ⟨x, hx, Or.inl rfl⟩, hxt⟩
      ⟨y.Period.End, (mem_allTimes l _).2 ⟨y, hy, Or.inr rfl⟩, hyt⟩

/-- When every buffered item is non-empty and starts inside the period of one of them, the
periods of `SplitAllPeriods` cover exactly the instants covered by the buffered items. -/
theorem splitAllPeriods_covers_buffer (buffer : List (PeriodValue T)) (cur : Period)
    (hhead : ∃ h ∈ buffer, h.Period.Start.tick = cur.Start.tick ∧ h.Period.End.tick = cur.End.tick)
    (hbuf : ∀ b ∈ buffer,
      b.Period.Start.tick < b.Period.End.tick ∧
        cur.Start.tick ≤ b.Period.Start.tick ∧ b.Period.Start.tick < cur.End.tick)
    (t : Int) :
    (∃ q ∈ SplitAllPeriods buffer, Covers q t) ↔ ∃ b ∈ buffer, Covers b.Period t := by
  rw [splitAllPeriods_covers_iff buffer (fun b hb => (hbuf b hb).1)]
  constructor
  · rintro ⟨⟨x, hx, hxt⟩, ⟨y, hy, hyt⟩⟩
    have h1 := hbuf x hx
    have h2 := hbuf y hy
    by_cases hlt : t < cur.End.tick
    · obtain ⟨h, hh, hs, he⟩ := hhead
      exact ⟨h, hh, by omega, by omega⟩
    · exact ⟨y, hy, by omega, hyt⟩
  · rintro ⟨b, hb, hb1, hb2⟩
    exact ⟨⟨b, hb, hb1⟩, ⟨b, hb, hb2⟩⟩

end CoverageOfSlices

section Coverage

variable {T : Type} [Inhabited T]

theorem covers_computeValues (f : Period → T → T → T) (buffer : List (PeriodValue T))
    (t : Int) :
    (∃ r ∈ computeValuesOnSamePeriods buffer f, Covers r.Period t) ↔
      ∃ q ∈ SplitAllPeriods buffer, Covers q t := by
  constructor
  · rintro ⟨r, hr, hc⟩
    exact ⟨r.Period, ((mem_computeValues f buffer r).1 hr).1, hc⟩
  · rintro ⟨q, hq, hc⟩
    exact ⟨⟨q, foldOnPeriod f buffer q⟩, (mem_computeValues f buffer _).2 ⟨hq, rfl⟩, hc⟩

/-- The items kept by `ClampPeriods` are non-empty, lie inside the limit and inside the item
they come from. -/
theorem clampPeriods_inside (buffer : List (PeriodValue T)) (limit : Period)
    (hne : NonEmptyPeriods buffer) (hl : limit.Start.tick < limit.End.tick) :
    ∀ r ∈ ClampPeriods buffer limit,
      r.Period.Start.tick < r.Period.End.tick ∧ limit.Start.tick ≤ r.Period.Start.tick ∧
        r.Period.End.tick ≤ limit.End.tick ∧
        ∃ x ∈ buffer, x.Period.Start.tick ≤ r.Period.Start.tick ∧
          r.Period.End.tick ≤ x.Period.End.tick := by
  intro r hr
  rw [clampPeriods_eq_clampedItems limit hl buffer hne] at hr
  unfold clampedItems at hr
  rw [List.mem_map] at hr
  obtain ⟨x, hx, rfl⟩ := hr
  rw [List.mem_filter] at hx
  have hx1 := hne x hx.1
  have hx2 := (intersects_iff _ _).1 hx.2
  refine ⟨?_, ?_, ?_, x, hx.1, ?_, ?_⟩ <;> simp only [laterOf_tick, earlierOf_tick] <;> omega

/-- No period emitted by the loop ends before it starts when none of those already emitted
does. -/
theorem resolveLoop_ordered (f : Period → T → T → T) :
    ∀ (rest items buffer : List (PeriodValue T)) (cur : Period),
      (∀ r ∈ items, r.Period.Start.tick ≤ r.Period.End.tick) →
        ∀ r ∈ (resolveLoop f rest items buffer cur).1.Items,
          r.Period.Start.tick ≤ r.Period.End.tick := by
  have hflush : ∀ (items buffer : List (PeriodValue T)),
      (∀ r ∈ items, r.Period.Start.tick ≤ r.Period.End.tick) →
      ∀ r ∈ items ++ computeValuesOnSamePeriods buffer f,
        r.Period.Start.tick ≤ r.Period.End.tick := by
    intro items buffer hi r hr
    rcases List.mem_append.1 hr with h | h
    · exact hi r h
    · exact consecutivePeriods_le _ (allTimes_ascending buffer) r.Period
        ((mem_computeValues f buffer r).1 h).1
  intro rest
  induction rest with
  | nil =>
    intro items buffer cur hi
    rw [resolveLoop_nil]
    exact hflush items buffer hi
  | cons next rest ih =>
    intro items buffer cur hi
    rw [resolveLoop]
    split
    · intro r hr; simp at hr
    · split
      · exact ih _ _ _ (hflush items buffer hi)
      · split
        · intro r hr; simp at hr
        · exact ih _ _ _ hi

/-- The starts and ends of the items kept by `ClampPeriods` are starts or ends of the items
it is given, or of the limit. -/
theorem isBoundary_clampPeriods (buffer : List (PeriodValue T)) (limit : Period) (c : Time)
    (hc : IsBoundary (ClampPeriods buffer limit) c) :
    IsBoundary buffer c ∨ c = limit.Start ∨ c = limit.End := by
  obtain ⟨r, hr, hcr⟩ := hc
  unfold ClampPeriods at hr
  rw [List.mem_filterMap] at hr
  obtain ⟨x, hx, hxr⟩ := hr
  have hshape : r.Period.Start = maxTime limit.Start x.Period.Start ∧
      r.Period.End = minTime limit.End x.Period.End := by
    unfold PeriodValue.Clamp Period.Clamp at hxr
    by_cases hi : x.Period.Intersects limit = true
    · rw [if_pos hi] at hxr
      cases hn : NewPeriod (maxTime limit.Start x.Period.Start)
          (minTime limit.End x.Period.End) with
      | error e =>
        rw [hn] at hxr
        simp at hxr
      | ok period =>
        rw [hn] at hxr
        have hp := newPeriod_ok_start hn
        simp only at hxr
        split at hxr
        · cases hxr
          exact ⟨hp.1, hp.2.1⟩
        · cases hxr
    · rw [if_neg hi] at hxr
      simp at hxr
  have hmax : maxTime limit.Start x.Period.Start = limit.Start ∨
      maxTime limit.Start x.Period.Start = x.Period.Start := by
    unfold maxTime
    split
    · exact Or.inl rfl
    · exact Or.inr rfl
  have hmin : minTime limit.End x.Period.End = limit.End ∨
      minTime limit.End x.Period.End = x.Period.End := by
    unfold minTime
    split
    · exact Or.inl rfl
    · exact Or.inr rfl
  rcases hcr with h | h
  · rw [h, hshape.1]
    rcases hmax with h2 | h2
    · exact Or.inr (Or.inl h2)
    · exact Or.inl ⟨x, hx, Or.inl h2⟩
  · rw [h, hshape.2]
    rcases hmin with h2 | h2
    · exact Or.inr (Or.inr h2)
    · exact Or.inl ⟨x, hx, Or.inr h2⟩

/-- When each instant of the buffered items and of the items still to visit comes in one
representation, every period emitted by the loop is non-empty when those already emitted
are. -/
theorem resolveLoop_nonempty (f : Period → T → T → T) :
    ∀ (rest items buffer : List (PeriodValue T)) (cur : Period),
      OneValuePerInstant (buffer ++ rest) → NonEmptyPeriods items →
        NonEmptyPeriods (resolveLoop f rest items buffer cur).1.Items := by
  have hflush : ∀ (items buffer : List (PeriodValue T)), OneValuePerInstant buffer →
      NonEmptyPeriods items →
      NonEmptyPeriods (items ++ computeValuesOnSamePeriods buffer f) := by
    intro items buffer hc hi r hr
    rcases List.mem_append.1 hr with h | h
    · exact hi r h
    · exact ((mem_splitAllPeriods buffer hc r.Period).1
        ((mem_computeValues f buffer r).1 h).1).2.2.1
  intro rest
  induction rest with
  | nil =>
    intro items buffer cur hc hi
    rw [resolveLoop_nil]
    exact hflush items buffer (oneValuePerInstant_left buffer [] hc) hi
  | cons next rest ih =>
    intro items buffer cur hc hi
    rw [resolveLoop]
    split
    · intro r hr; simp at hr
    · split
      · refine ih _ _ _ ?_ (hflush items buffer (oneValuePerInstant_left buffer _ hc) hi)
        refine oneValuePerInstant_of_subset _ _ ?_ hc
        intro c hcb
        rw [List.append_assoc, List.singleton_append] at hcb
        rcases (isBoundary_append _ _ _).1 hcb with h | h
        · rcases isBoundary_clampPeriods buffer next.Period c h with h2 | h2 | h2
          · exact (isBoundary_append _ _ _).2 (Or.inl h2)
          · exact (isBoundary_append _ _ _).2
              (Or.inr ⟨next, List.mem_cons_self _ _, Or.inl h2⟩)
          · exact (isBoundary_append _ _ _).2
              (Or.inr ⟨next, List.mem_cons_self _ _, Or.inr h2⟩)
        · exact (isBoundary_append _ _ _).2 (Or.inr h)
      · split
        · intro r hr; simp at hr
        · refine ih _ _ _ ?_ hi
          rw [List.append_assoc, List.singleton_append]
          exact hc

/-- On items sorted by start with non-empty periods, the result of the loop covers the
instants covered by the items already emitted, by the buffered items and by the items still to
visit. -/
theorem resolveLoop_covers (f : Period → T → T → T) (t : Int) :
    ∀ (rest items buffer : List (PeriodValue T)) (cur : Period),
      cur.Start.tick < cur.End.tick →
      (∃ h ∈ buffer, h.Period.Start.tick = cur.Start.tick ∧ h.Period.End.tick = cur.End.tick) →
      (∀ b ∈ buffer,
        b.Period.Start.tick < b.Period.End.tick ∧ cur.Start.tick ≤ b.Period.Start.tick ∧
          b.Period.Start.tick < cur.End.tick) →
      NonEmptyPeriods rest → SortedByStart rest →
      (∀ x ∈ rest, cur.Start.tick ≤ x.Period.Start.tick) →
        ((∃ r ∈ (resolveLoop f rest items buffer cur).1.Items, Covers r.Period t) ↔
          (∃ r ∈ items, Covers r.Period t) ∨ (∃ b ∈ buffer, Covers b.Period t) ∨
            ∃ x ∈ rest, Covers x.Period t) := by
  intro rest
  induction rest with
  | nil =>
    intro items buffer cur hcur hhead hbuf _ _ _
    rw [resolveLoop_nil]
    simp only [List.mem_append, or_and_right, exists_or, List.not_mem_nil, false_and,
      exists_false, or_false]
    rw [covers_computeValues, splitAllPeriods_covers_buffer buffer cur hhead hbuf]
  | cons next rest ih =>
    intro items buffer cur hcur hhead hbuf hne hs hge
    have hnext : next.Period.Start.tick < next.Period.End.tick := hne next (List.mem_cons_self _ _)
    have hne2 : NonEmptyPeriods rest := fun z hz => hne z (List.mem_cons_of_mem _ hz)
    have hge0 : cur.Start.tick ≤ next.Period.Start.tick := hge next (List.mem_cons_self _ _)
    have hs1 : ∀ x ∈ rest, next.Period.Start.tick ≤ x.Period.Start.tick :=
      (List.pairwise_cons.1 hs).1
    have hs2 : SortedByStart rest := (List.pairwise_cons.1 hs).2
    by_cases ha : cur.End.tick ≤ next.Period.Start.tick
    · have hclamp := clampPeriods_inside buffer next.Period (fun b hb => (hbuf b hb).1) hnext
      rw [resolveLoop_after f next rest items buffer cur (by omega) ha,
        ih _ (ClampPeriods buffer next.Period ++ [next]) next.Period hnext
          ⟨next, List.mem_append.2 (Or.inr (List.mem_singleton.2 rfl)), rfl, rfl⟩
          (by
            intro b hb
            rcases List.mem_append.1 hb with h | h
            · have := hclamp b h
              exact ⟨this.1, this.2.1, by omega⟩
            · rw [List.mem_singleton.1 h]
              exact ⟨hnext, le_refl _, hnext⟩)
          hne2 hs2 hs1]
      simp only [List.mem_append, or_and_right, exists_or, List.mem_singleton, exists_eq_left,
        List.mem_cons, List.not_mem_nil, false_and, exists_false, or_false]
      rw [covers_computeValues, splitAllPeriods_covers_buffer buffer cur hhead hbuf]
      constructor
      · rintro ((h | h) | (h | h) | h)
        · exact Or.inl h
        · exact Or.inr (Or.inl h)
        · obtain ⟨r, hr, hc1, hc2⟩ := h
          obtain ⟨_, _, _, x, hx, hx1, hx2⟩ := hclamp r hr
          exact Or.inr (Or.inl ⟨x, hx, by omega, by omega⟩)
        · exact Or.inr (Or.inr (Or.inl h))
        · exact Or.inr (Or.inr (Or.inr h))
      · rintro (h | h | h | h)
        · exact Or.inl (Or.inl h)
        · exact Or.inl (Or.inr h)
        · exact Or.inr (Or.inl (Or.inr h))
        · exact Or.inr (Or.inr h)
    · rw [resolveLoop_join f next rest items buffer cur (by omega) (by omega) hcur,
        ih _ (buffer ++ [next]) cur hcur
          (by
            obtain ⟨h, hh, h1, h2⟩ := hhead
            exact ⟨h, List.mem_append.2 (Or.inl hh), h1, h2⟩)
          (by
            intro b hb
            rcases List.mem_append.1 hb with h | h
            · exact hbuf b h
            · rw [List.mem_singleton.1 h]
              exact ⟨hnext, hge0, by omega⟩)
          hne2 hs2 (fun x hx => hge x (List.mem_cons_of_mem _ hx))]
      simp only [List.mem_append, or_and_right, exists_or, List.mem_singleton, exists_eq_left,
        List.mem_cons, List.not_mem_nil, false_and, exists_false, or_false]
      constructor
      · rintro (h | (h | h) | h)
        · exact Or.inl h
        · exact Or.inr (Or.inl h)
        · exact Or.inr (Or.inr (Or.inl h))
        · exact Or.inr (Or.inr (Or.inr h))
      · rintro (h | h | h | h)
        · exact Or.inl h
        · exact Or.inr (Or.inl (Or.inl h))
        · exact Or.inr (Or.inl (Or.inr h))
        · exact Or.inr (Or.inr h)

end Coverage

/-! ## Aggregating in either order -/

section Stability

variable {T : Type}

/-- Inserting an item in a list leaves the items of every other start in place and puts the
item in front of those of its own start. -/
theorem orderedInsert_filter_start (a : PeriodValue T) (k : Int) :
    ∀ (l : List (PeriodValue T)),
      (List.orderedInsert (fun a b => a.Period.Start.tick ≤ b.Period.Start.tick) a l).filter
          (fun x => decide (x.Period.Start.tick = k)) =
        (a :: l).filter (fun x => decide (x.Period.Start.tick = k)) := by
  intro l
  induction l with
  | nil => rfl
  | cons b l ih =>
    rw [List.orderedInsert]
    split
    · rfl
    · rename_i hab
      rw [List.filter_cons, ih]
      by_cases hak : a.Period.Start.tick = k
      · have hbk : ¬ b.Period.Start.tick = k := by omega
        simp [List.filter_cons, hak, hbk]
      · simp [List.filter_cons, hak]

/-- The sort is stable: it keeps the order of the items that start at the same instant. -/
theorem sortTimeline_filter_start (l : List (PeriodValue T)) (k : Int) :
    (Timeline.SortTimelineByPeriodStart { Items := l }).Items.filter
        (fun x => decide (x.Period.Start.tick = k)) =
      l.filter (fun x => decide (x.Period.Start.tick = k)) := by
  unfold Timeline.SortTimelineByPeriodStart
  simp only
  induction l with
  | nil => rfl
  | cons a l ih =>
    rw [List.insertionSort, orderedInsert_filter_start, List.filter_cons, List.filter_cons, ih]

/-- Two lists whose members are all equal to one another commute under concatenation. -/
theorem append_comm_of_all_eq {α : Type} (l1 l2 : List α)
    (h : ∀ x ∈ l1, ∀ y ∈ l2, x = y) : l1 ++ l2 = l2 ++ l1 := by
  cases l1 with
  | nil => simp
  | cons a l1 =>
    cases l2 with
    | nil => simp
    | cons b l2 =>
      have hab : a = b := h a (List.mem_cons_self _ _) b (List.mem_cons_self _ _)
      have h1 : ∀ x ∈ a :: l1, x = a := fun x hx =>
        (h x hx b (List.mem_cons_self _ _)).trans hab.symm
      have h2 : ∀ y ∈ b :: l2, y = a := fun y hy =>
        (h a (List.mem_cons_self _ _) y hy).symm
      rw [List.eq_replicate_iff.2 ⟨rfl, h1⟩, List.eq_replicate_iff.2 ⟨rfl, h2⟩,
        List.append_replicate_replicate, List.append_replicate_replicate, Nat.add_comm]

/-- Two lists of periods in ascending order of their starts which have, for each start, the
same periods in the same order, are equal. -/
theorem eq_of_filter_start_eq :
    ∀ (m1 m2 : List Period),
      m1.Pairwise (fun p q => p.Start.tick ≤ q.Start.tick) →
      m2.Pairwise (fun p q => p.Start.tick ≤ q.Start.tick) →
      (∀ k : Int, m1.filter (fun p => decide (p.Start.tick = k)) =
        m2.filter (fun p => decide (p.Start.tick = k))) → m1 = m2 := by
  intro m1
  induction m1 with
  | nil =>
    intro m2 _ _ hf
    cases m2 with
    | nil => rfl
    | cons b t2 =>
      have := hf b.Start.tick
      simp at this
  | cons a t1 ih =>
    intro m2 h1 h2 hf
    cases m2 with
    | nil =>
      have := hf a.Start.tick
      simp at this
    | cons b t2 =>
      have hb1 : b ∈ a :: t1 := by
        have hm : b ∈ (b :: t2).filter (fun p => decide (p.Start.tick = b.Start.tick)) := by
          simp
        rw [← hf] at hm
        exact (List.mem_filter.1 hm).1
      have ha2 : a ∈ b :: t2 := by
        have hm : a ∈ (a :: t1).filter (fun p => decide (p.Start.tick = a.Start.tick)) := by
          simp
        rw [hf] at hm
        exact (List.mem_filter.1 hm).1
      have hab : a.Start.tick ≤ b.Start.tick := by
        rcases List.mem_cons.1 hb1 with h | h
        · rw [h]
        · exact (List.pairwise_cons.1 h1).1 b h
      have hba : b.Start.tick ≤ a.Start.tick := by
        rcases List.mem_cons.1 ha2 with h | h
        · rw [h]
        · exact (List.pairwise_cons.1 h2).1 a h
      have hk : b.Start.tick = a.Start.tick := le_antisymm hba hab
      have hhead := hf a.Start.tick
      simp only [List.filter_cons, hk, decide_True, if_true, List.cons.injEq] at hhead
      rw [hhead.1]
      congr 1
      rw [← hhead.1] at hk
      apply ih t2 (List.pairwise_cons.1 h1).2 (List.pairwise_cons.1 h2).2
      intro k
      by_cases hak : a.Start.tick = k
      · rw [← hak]
        exact hhead.2
      · have := hf k
        rw [← hhead.1] at this
        simpa [List.filter_cons, hak] using this

/-- A list whose members are all equal to one another is equal to each of its
rearrangements. -/
theorem eq_of_perm_of_all_eq {α : Type} (l1 l2 : List α) (hp : l1.Perm l2)
    (h : ∀ x ∈ l1, ∀ y ∈ l1, x = y) : l1 = l2 := by
  cases l1 with
  | nil => exact (List.perm_nil.1 hp.symm).symm
  | cons a l1 =>
    have h1 : ∀ x ∈ a :: l1, x = a := fun x hx => h x hx a (List.mem_cons_self _ _)
    have h2 : ∀ y ∈ l2, y = a := fun y hy => h1 y (hp.mem_iff.2 hy)
    rw [List.eq_replicate_iff.2 ⟨rfl, h1⟩, List.eq_replicate_iff.2 ⟨rfl, h2⟩, hp.length_eq]

/-- When the items that start at the same instant have the same period, two rearrangements
of the items in ascending order of their starts have the same periods in the same order. -/
theorem periods_eq_of_sorted_perm (l1 l2 : List (PeriodValue T)) (hp : l1.Perm l2)
    (hs1 : SortedByStart l1) (hs2 : SortedByStart l2)
    (htie : ∀ x ∈ l1, ∀ y ∈ l1,
      x.Period.Start.tick = y.Period.Start.tick → x.Period = y.Period) :
    l1.map (fun x => x.Period) = l2.map (fun x => x.Period) := by
  apply eq_of_filter_start_eq
  · exact List.pairwise_map.2 hs1
  · exact List.pairwise_map.2 hs2
  · intro k
    rw [List.filter_map, List.filter_map]
    apply eq_of_perm_of_all_eq _ _ ((hp.filter _).map _)
    intro p hp1 q hq1
    obtain ⟨x, hx, rfl⟩ := List.mem_map.1 hp1
    obtain ⟨y, hy, rfl⟩ := List.mem_map.1 hq1
    rw [List.mem_filter] at hx hy
    have h1 : x.Period.Start.tick = k := by simpa using hx.2
    have h2 : y.Period.Start.tick = k := by simpa using hy.2
    exact htie x hx.1 y hy.1 (h1.trans h2.symm)

/-- When an item of the first list and an item of the second that start at the same instant
always have the same period, sorting the two lists together gives the same periods in the
same order whichever list comes first. -/
theorem sortTimeline_append_periods (la lb : List (PeriodValue T))
    (htie : ∀ x ∈ la, ∀ y ∈ lb,
      x.Period.Start.tick = y.Period.Start.tick → x.Period = y.Period) :
    (Timeline.SortTimelineByPeriodStart { Items := la ++ lb }).Items.map (fun x => x.Period) =
      (Timeline.SortTimelineByPeriodStart { Items := lb ++ la }).Items.map
        (fun x => x.Period) := by
  apply eq_of_filter_start_eq
  · exact List.pairwise_map.2 (sortTimeline_sorted _)
  · exact List.pairwise_map.2 (sortTimeline_sorted _)
  · intro k
    rw [List.filter_map, List.filter_map]
    have hcomp : ((fun p : Period => decide (p.Start.tick = k)) ∘
        fun x : PeriodValue T => x.Period) =
        fun x : PeriodValue T => decide (x.Period.Start.tick = k) := rfl
    rw [hcomp, sortTimeline_filter_start, sortTimeline_filter_start, List.filter_append,
      List.filter_append, List.map_append, List.map_append]
    apply append_comm_of_all_eq
    intro p hp q hq
    obtain ⟨x, hx, rfl⟩ := List.mem_map.1 hp
    obtain ⟨y, hy, rfl⟩ := List.mem_map.1 hq
    rw [List.mem_filter] at hx hy
    have h1 : x.Period.Start.tick = k := by simpa using hx.2
    have h2 : y.Period.Start.tick = k := by simpa using hy.2
    exact htie x hx.1 y hy.1 (h1.trans h2.symm)

/-- The periods of `SplitAllPeriods` depend on the periods of the items only. -/
theorem splitAllPeriods_congr (b1 b2 : List (PeriodValue T))
    (h : b1.map (fun x => x.Period) = b2.map (fun x => x.Period)) :
    SplitAllPeriods b1 = SplitAllPeriods b2 := by
  have hk : ∀ l : List (PeriodValue T),
      l.flatMap (fun pv => [pv.Period.Start, pv.Period.End]) =
        (l.map (fun x => x.Period)).flatMap (fun p => [p.Start, p.End]) := by
    intro l
    induction l with
    | nil => rfl
    | cons x l ih =>
      rw [List.flatMap_cons, List.map_cons, List.flatMap_cons, ih]
  unfold SplitAllPeriods allTimes timeKeys
  rw [hk b1, hk b2, h]

end Stability

section EitherOrder

variable {T : Type} [Inhabited T]

/-- With a reduction whose applications commute, the fold over the buffered items does not
depend on their order. -/
theorem foldOnPeriod_perm (f : Period → T → T → T)
    (hlc : ∀ p u v w, f p u (f p v w) = f p v (f p u w))
    (b1 b2 : List (PeriodValue T)) (h : b1.Perm b2) (q : Period) :
    foldOnPeriod f b1 q = foldOnPeriod f b2 q := by
  unfold foldOnPeriod
  apply List.Perm.foldl_eq' h
  intro x _ y _ z
  cases hx : x.Period.Intersects q <;> cases hy : y.Period.Intersects q <;>
    simp only [Bool.false_eq_true, if_true, if_false]
  exact hlc q y.Value x.Value z

theorem computeValues_congr (f : Period → T → T → T)
    (hlc : ∀ p u v w, f p u (f p v w) = f p v (f p u w))
    (b1 b2 : List (PeriodValue T))
    (hm : b1.map (fun x => x.Period) = b2.map (fun x => x.Period)) (hp : b1.Perm b2) :
    computeValuesOnSamePeriods b1 f = computeValuesOnSamePeriods b2 f := by
  unfold computeValuesOnSamePeriods
  rw [splitAllPeriods_congr b1 b2 hm]
  apply List.map_congr_left
  intro q _
  rw [foldOnPeriod_perm f hlc b1 b2 hp q]

/-- The periods kept by `ClampPeriods` depend on the periods of the items only. -/
theorem clampPeriods_periods (limit : Period) :
    ∀ (b1 b2 : List (PeriodValue T)),
      b1.map (fun x => x.Period) = b2.map (fun x => x.Period) →
        (ClampPeriods b1 limit).map (fun x => x.Period) =
          (ClampPeriods b2 limit).map (fun x => x.Period) := by
  intro b1
  induction b1 with
  | nil =>
    intro b2 h
    cases b2 with
    | nil => rfl
    | cons y b2 => cases h
  | cons x b1 ih =>
    intro b2 h
    cases b2 with
    | nil => cases h
    | cons y b2 =>
      rw [List.map_cons, List.map_cons, List.cons.injEq] at h
      have ih2 := ih b2 h.2
      have hxy : x.Period = y.Period := h.1
      unfold ClampPeriods at ih2 ⊢
      rw [List.filterMap_cons, List.filterMap_cons]
      unfold PeriodValue.Clamp
      rw [hxy]
      rcases hc : y.Period.Clamp limit with ⟨c, e⟩
      cases e with
      | some e => exact ih2
      | none =>
        simp only
        by_cases hemp : c.IsEmpty = true
        · simp only [hemp, Bool.not_true, Bool.false_eq_true, if_false]
          exact ih2
        · have hemp2 : c.IsEmpty = false := by simpa using hemp
          simp only [hemp2, Bool.not_false, if_true, List.map_cons, List.cons.injEq, true_and]
          exact ih2

/-- Every item kept by `ClampPeriods` starts before the end of the limit. -/
theorem clampPeriods_start_lt (buffer : List (PeriodValue T)) (limit : Period) :
    ∀ r ∈ ClampPeriods buffer limit, r.Period.Start.tick < limit.End.tick := by
  intro r hr
  unfold ClampPeriods at hr
  rw [List.mem_filterMap] at hr
  obtain ⟨x, _, hxr⟩ := hr
  unfold PeriodValue.Clamp Period.Clamp at hxr
  by_cases hi : x.Period.Intersects limit = true
  · rw [if_pos hi] at hxr
    cases hn : NewPeriod (maxTime limit.Start x.Period.Start)
        (minTime limit.End x.Period.End) with
    | error e =>
      rw [hn] at hxr
      simp at hxr
    | ok period =>
      rw [hn] at hxr
      have hp := newPeriod_ok_start hn
      simp only at hxr
      split at hxr
      · cases hxr
        have h1 := congrArg Time.tick hp.1
        have h2 := congrArg Time.tick hp.2.1
        have h3 := hp.2.2
        simp only [maxTime_tick, minTime_tick] at h1 h2 h3
        simp only
        omega
      · cases hxr
  · rw [if_neg hi] at hxr
    simp at hxr

theorem resolveLoop_invalid (f : Period → T → T → T) (next : PeriodValue T)
    (rest items buffer : List (PeriodValue T)) (cur : Period)
    (h1 : cur.Start.tick < next.Period.End.tick) (h2 : next.Period.Start.tick < cur.End.tick)
    (h3 : cur.End.tick ≤ cur.Start.tick) :
    resolveLoop f (next :: rest) items buffer cur =
      ({ Items := [] }, some errInvalidPeriod) := by
  have hb : next.Period.Before cur = false := by
    rw [← Bool.not_eq_true, before_iff]; omega
  have ha : next.Period.After cur = false := by
    rw [← Bool.not_eq_true, after_iff]; omega
  have hm : maxTime next.Period.Start cur.End = cur.End := maxTime_of_le (by omega)
  rw [resolveLoop]
  simp [hb, ha, hm, newPeriod_error h3]

/-- Two runs of the loop on items with the same periods in the same order, the buffered and
remaining items of the one being those of the other in another order, return the same result
when the applications of the reduction commute. -/
theorem resolveLoop_congr (f : Period → T → T → T)
    (hlc : ∀ p u v w, f p u (f p v w) = f p v (f p u w)) :
    ∀ (r1 r2 items b1 b2 : List (PeriodValue T)) (cur : Period),
      r1.map (fun x => x.Period) = r2.map (fun x => x.Period) →
      b1.map (fun x => x.Period) = b2.map (fun x => x.Period) →
      (b1 ++ r1).Perm (b2 ++ r2) →
      (∀ x ∈ b1, x.Period.Start.tick < cur.End.tick) →
      (∀ x ∈ b2, x.Period.Start.tick < cur.End.tick) →
      NonEmptyPeriods r1 → NonEmptyPeriods r2 →
      SortedByStart r1 → SortedByStart r2 →
        resolveLoop f r1 items b1 cur = resolveLoop f r2 items b2 cur := by
  intro r1
  induction r1 with
  | nil =>
    intro r2 items b1 b2 cur hr hb hperm _ _ _ _ _ _
    cases r2 with
    | cons y r2 => cases hr
    | nil =>
      rw [List.append_nil, List.append_nil] at hperm
      rw [resolveLoop_nil, resolveLoop_nil, computeValues_congr f hlc b1 b2 hb hperm]
  | cons n1 t1 ih =>
    intro r2 items b1 b2 cur hr hb hperm hb1 hb2 hne1 hne2 hs1 hs2
    cases r2 with
    | nil => cases hr
    | cons n2 t2 =>
      rw [List.map_cons, List.map_cons, List.cons.injEq] at hr
      have hper : n1.Period = n2.Period := hr.1
      have hn1 : n1.Period.Start.tick < n1.Period.End.tick := hne1 n1 (List.mem_cons_self _ _)
      have hn2 : n2.Period.Start.tick < n2.Period.End.tick := hne2 n2 (List.mem_cons_self _ _)
      have hne1t : NonEmptyPeriods t1 := fun z hz => hne1 z (List.mem_cons_of_mem _ hz)
      have hne2t : NonEmptyPeriods t2 := fun z hz => hne2 z (List.mem_cons_of_mem _ hz)
      by_cases hbef : n2.Period.End.tick ≤ cur.Start.tick
      · rw [resolveLoop_before f n1 t1 items b1 cur (by rw [hper]; exact hbef),
          resolveLoop_before f n2 t2 items b2 cur hbef]
      · by_cases haft : cur.End.tick ≤ n2.Period.Start.tick
        · have hfil : ∀ (b r : List (PeriodValue T)),
              (∀ x ∈ b, x.Period.Start.tick < cur.End.tick) →
              (∀ x ∈ r, cur.End.tick ≤ x.Period.Start.tick) →
              (b ++ r).filter (fun x => decide (x.Period.Start.tick < cur.End.tick)) = b := by
            intro b r hbb hrr
            rw [List.filter_append, List.filter_eq_self.2 (fun x hx => by simpa using hbb x hx),
              List.filter_eq_nil_iff.2 (fun x hx => by
                have := hrr x hx
                simp only [decide_eq_true_eq]
                omega),
              List.append_nil]
          have hr1 : ∀ x ∈ n1 :: t1, cur.End.tick ≤ x.Period.Start.tick := by
            intro x hx
            rcases List.mem_cons.1 hx with h | h
            · rw [h, hper]
              exact haft
            · have := (List.pairwise_cons.1 hs1).1 x h
              rw [hper] at this
              omega
          have hr2 : ∀ x ∈ n2 :: t2, cur.End.tick ≤ x.Period.Start.tick := by
            intro x hx
            rcases List.mem_cons.1 hx with h | h
            · rw [h]
              exact haft
            · have := (List.pairwise_cons.1 hs2).1 x h
              omega
          have hpb : b1.Perm b2 := by
            have h := hperm.filter (fun x => decide (x.Period.Start.tick < cur.End.tick))
            rwa [hfil b1 _ hb1 hr1, hfil b2 _ hb2 hr2] at h
          have hpr : (n1 :: t1).Perm (n2 :: t2) :=
            (List.perm_append_left_iff b1).1 (hperm.trans (hpb.symm.append_right _))
          rw [resolveLoop_after f n1 t1 items b1 cur (by rw [hper]; omega)
              (by rw [hper]; exact haft),
            resolveLoop_after f n2 t2 items b2 cur (by omega) haft,
            computeValues_congr f hlc b1 b2 hb hpb, hper]
          apply ih
          · exact hr.2
          · rw [List.map_append, List.map_append, clampPeriods_periods n2.Period b1 b2 hb,
              List.map_singleton, List.map_singleton, hper]
          · rw [List.append_assoc, List.append_assoc, List.singleton_append,
              List.singleton_append]
            unfold ClampPeriods
            exact (hpb.filterMap _).append hpr
          · intro x hx
            rcases List.mem_append.1 hx with h | h
            · exact clampPeriods_start_lt b1 n2.Period x h
            · rw [List.mem_singleton.1 h, hper]
              exact hn2
          · intro x hx
            rcases List.mem_append.1 hx with h | h
            · exact clampPeriods_start_lt b2 n2.Period x h
            · rw [List.mem_singleton.1 h]
              exact hn2
          · exact hne1t
          · exact hne2t
          · exact (List.pairwise_cons.1 hs1).2
          · exact (List.pairwise_cons.1 hs2).2
        · by_cases hcur : cur.Start.tick < cur.End.tick
          · rw [resolveLoop_join f n1 t1 items b1 cur (by rw [hper]; omega)
                (by rw [hper]; omega) hcur,
              resolveLoop_join f n2 t2 items b2 cur (by omega) (by omega) hcur]
            apply ih
            · exact hr.2
            · rw [List.map_append, List.map_append, hb, List.map_singleton,
                List.map_singleton, hper]
            · rw [List.append_assoc, List.append_assoc, List.singleton_append,
                List.singleton_append]
              exact hperm
            · intro x hx
              rcases List.mem_append.1 hx with h | h
              · exact hb1 x h
              · rw [List.mem_singleton.1 h, hper]
                omega
            · intro x hx
              rcases List.mem_append.1 hx with h | h
              · exact hb2 x h
              · rw [List.mem_singleton.1 h]
                omega
            · exact hne1t
            · exact hne2t
            · exact (List.pairwise_cons.1 hs1).2
            · exact (List.pairwise_cons.1 hs2).2
          · rw [resolveLoop_invalid f n1 t1 items b1 cur (by rw [hper]; omega)
                (by rw [hper]; omega) (by omega),
              resolveLoop_invalid f n2 t2 items b2 cur (by omega) (by omega) (by omega)]

/-- Two sorted lists of items with non-empty periods, the one being the other in another
order with the same periods in the same order, are resolved to the same result when the
applications of the reduction commute. -/
theorem resolveConflicts_congr (f : Period → T → T → T)
    (hlc : ∀ p u v w, f p u (f p v w) = f p v (f p u w))
    (l1 l2 : List (PeriodValue T))
    (hm : l1.map (fun x => x.Period) = l2.map (fun x => x.Period)) (hp : l1.Perm l2)
    (hne1 : NonEmptyPeriods l1) (hne2 : NonEmptyPeriods l2)
    (hs1 : SortedByStart l1) (hs2 : SortedByStart l2) :
    Timeline.ResolveConflicts { Items := l1 } f = Timeline.ResolveConflicts { Items := l2 } f := by
  cases l1 with
  | nil =>
    cases l2 with
    | nil => rfl
    | cons y l2 => cases hm
  | cons x l1 =>
    cases l2 with
    | nil => cases hm
    | cons y l2 =>
      rw [List.map_cons, List.map_cons, List.cons.injEq] at hm
      have hper : x.Period = y.Period := hm.1
      unfold Timeline.ResolveConflicts
      simp only
      rw [hper]
      apply resolveLoop_congr f hlc
      · exact hm.2
      · rw [List.map_singleton, List.map_singleton, hper]
      · exact hp
      · intro z hz
        rw [List.mem_singleton.1 hz, hper]
        exact hne2 y (List.mem_cons_self _ _)
      · intro z hz
        rw [List.mem_singleton.1 hz]
        exact hne2 y (List.mem_cons_self _ _)
      · exact fun z hz => hne1 z (List.mem_cons_of_mem _ hz)
      · exact fun z hz => hne2 z (List.mem_cons_of_mem _ hz)
      · exact (List.pairwise_cons.1 hs1).2
      · exact (List.pairwise_cons.1 hs2).2

end EitherOrder


/-! ## Claims -/

section Claims

variable {T : Type} [Inhabited T]

/-- C1 (evaluation at the failing input): `[0,10)=1, [12,15)=4` and `[5,20)=2` are sorted,
non-empty and non-intersecting timelines; their aggregate under addition contains both
`[10,20)=2` and `[12,15)=6`, which cover the instant 13, where the sum of the two is 6. -/
theorem aggregate_steps_covers_instant_twice :
    (SortedByStart stepsA.Items ∧ NonEmptyPeriods stepsA.Items ∧ NonIntersecting stepsA.Items) ∧
      (SortedByStart stepsB.Items ∧ NonEmptyPeriods stepsB.Items ∧ NonIntersecting stepsB.Items) ∧
      stepsA.Aggregate stepsB addValues =
        ({ Items := [⟨⟨0, 5⟩, 1⟩, ⟨⟨5, 10⟩, 3⟩, ⟨⟨10, 20⟩, 2⟩, ⟨⟨12, 15⟩, 6⟩] }, none) ∧
      Covers ⟨10, 20⟩ 13 ∧ Covers ⟨12, 15⟩ 13 := by
  decide

/-- C2 (evaluation at the failing input): on the sorted timeline with non-empty periods
`[0,10)=1, [5,20)=2, [12,15)=4` the result of `ResolveConflicts` is not canonical: its item
`[10,20)` ends after the start of the next item `[12,15)`. -/
theorem resolveConflicts_chain_not_canonical :
    SortedByStart chainTimeline.Items ∧ NonEmptyPeriods chainTimeline.Items ∧
      chainTimeline.ResolveConflicts addValues =
        ({ Items := [⟨⟨0, 5⟩, 1⟩, ⟨⟨5, 10⟩, 3⟩, ⟨⟨10, 20⟩, 2⟩, ⟨⟨12, 15⟩, 6⟩] }, none) ∧
      ¬ Canonical (chainTimeline.ResolveConflicts addValues).1.Items := by
  have h : chainTimeline.ResolveConflicts addValues =
      ({ Items := [⟨⟨0, 5⟩, 1⟩, ⟨⟨5, 10⟩, 3⟩, ⟨⟨10, 20⟩, 2⟩, ⟨⟨12, 15⟩, 6⟩] }, none) := by
    decide
  refine ⟨by decide, by decide, h, ?_⟩
  rw [h]
  simp only [Canonical, List.chain'_cons, List.chain'_singleton, and_true, not_and]
  intro _ _
  decide

/-- C3 (evaluation at the failing input): on `[0,10)=1, [5,20)=2, [12,15)=4` the result of
`ResolveConflicts` has the item `[10,20)` with value 2, while the fold of addition over the
input items intersecting `[10,20)`, which are `[5,20)=2` and `[12,15)=4`, is 6. -/
theorem resolveConflicts_chain_value_misses_item :
    (⟨⟨10, 20⟩, 2⟩ : PeriodValue Int) ∈ (chainTimeline.ResolveConflicts addValues).1.Items ∧
      foldOnPeriod addValues chainTimeline.Items ⟨10, 20⟩ = 6 := by
  decide

/-- C4 (as stated, refuted): the timeline `[0,31)=100, [0,10)=5` is sorted by period start, has
non-empty periods and its second item is contained in the first; the start of the second item
is the instant of the start of the first in another representation. `ResolveConflicts` returns
three items, the first of them on the zero-length period between the two representations, with
the zero value, while only two periods of `SplitAllPeriods` intersect an input item. -/
theorem nested_two_representations_extra_item :
    SortedByStart twoZonesTimeline.Items ∧ NonEmptyPeriods twoZonesTimeline.Items ∧
      Nested twoZonesTimeline.Items ∧
      twoZonesTimeline.ResolveConflicts addValues =
        ({ Items := [⟨⟨0, inOtherZone 0⟩, 0⟩, ⟨⟨inOtherZone 0, 10⟩, 105⟩, ⟨⟨10, 31⟩, 100⟩] },
          none) ∧
      resolvedBySlices addValues twoZonesTimeline.Items =
        [⟨⟨inOtherZone 0, 10⟩, 105⟩, ⟨⟨10, 31⟩, 100⟩] ∧
      (twoZonesTimeline.ResolveConflicts addValues).1.Items.length = 3 ∧
      (resolvedBySlices addValues twoZonesTimeline.Items).length = 2 := by
  decide

/-- C4 (amended): on a timeline sorted by period start with non-empty periods in which any two
items either do not intersect or the later one is contained in the earlier one, and in which
starts and ends that are `Equal` are the same `time.Time` value, `ResolveConflicts` returns no
error and exactly one item per period of `SplitAllPeriods` of the items that intersects some
item, in ascending order, valued with the fold of `f` from the zero value over the input items
intersecting that period, in input order. -/
theorem resolveConflicts_nested (t : Timeline T) (f : Period → T → T → T)
    (hs : SortedByStart t.Items) (hne : NonEmptyPeriods t.Items) (hn : Nested t.Items)
    (hc : OneValuePerInstant t.Items) :
    t.ResolveConflicts f = ({ Items := resolvedBySlices f t.Items }, none) := by
  cases t with
  | mk items =>
    cases items with
    | nil => rfl
    | cons first rest =>
      unfold Timeline.ResolveConflicts
      simp only
      have hfirst : first.Period.Start.tick < first.Period.End.tick :=
        hne first (List.mem_cons_self _ _)
      rw [resolveLoop_nested f rest [] [first] first.Period hc hfirst
        ⟨first, List.mem_singleton.2 rfl, rfl, rfl⟩
        (by
          intro b hb
          rw [List.mem_singleton.1 hb]
          exact ⟨le_refl _, hfirst, le_refl _⟩)
        (fun z hz => hne z (List.mem_cons_of_mem _ hz))
        (List.pairwise_cons.1 hs).1
        (by
          intro x hx hlt
          have h1 := hne x (List.mem_cons_of_mem _ hx)
          have h2 := (List.pairwise_cons.1 hs).1 x hx
          rcases (List.pairwise_cons.1 hn).1 x hx with h | h
          · rw [← Bool.not_eq_true, intersects_iff] at h
            omega
          · exact ((containsPeriod_iff _ _).1 h).2)
        (List.pairwise_cons.1 hs).2 (List.pairwise_cons.1 hn).2]
      simp

/-- The three months with the day 15 January, all built in UTC, give the five items 100, 180,
100, 200, 300. -/
theorem resolveConflicts_nested_witness :
    monthsWithDayTimeline.ResolveConflicts addValues =
      ({ Items := [⟨⟨0, 14⟩, 100⟩, ⟨⟨14, 15⟩, 180⟩, ⟨⟨15, 31⟩, 100⟩, ⟨⟨31, 60⟩, 200⟩,
        ⟨⟨60, 91⟩, 300⟩] }, none) :=
  (resolveConflicts_nested monthsWithDayTimeline addValues (by decide) (by decide)
    (by decide) (oneValuePerInstant_of_zone _ 0 (by decide))).trans (by decide)

/-- C5: on a timeline sorted by period start whose periods are non-empty and pairwise
non-intersecting, with a reduction function that returns its value argument when the accumulator
is the zero value, `ResolveConflicts` returns no error and exactly the input items. -/
theorem resolveConflicts_disjoint_identity (t : Timeline T) (f : Period → T → T → T)
    (hs : SortedByStart t.Items) (hne : NonEmptyPeriods t.Items) (hd : NonIntersecting t.Items)
    (hf : ∀ p x, f p x default = x) : t.ResolveConflicts f = (t, none) := by
  have hc := canonical_of_disjoint t.Items hs hne hd
  cases t with
  | mk items =>
    cases items with
    | nil => rfl
    | cons first rest =>
      unfold Timeline.ResolveConflicts
      simp only
      rw [resolveLoop_disjoint f hf rest [] first (hne first (List.mem_cons_self _ _))
        (fun z hz => hne z (List.mem_cons_of_mem _ hz)) hc]
      simp

/-- The three contiguous months are returned as they are. -/
theorem resolveConflicts_disjoint_identity_witness :
    monthsTimeline.ResolveConflicts addValues = (monthsTimeline, none) :=
  resolveConflicts_disjoint_identity monthsTimeline addValues (by decide) (by decide) (by decide)
    (by intro p x; show x + 0 = x; omega)

/-- C6 (as stated, refuted): the timeline `[5,10)=1, [3,8)=2` is not sorted by period start,
its second item starts strictly before the first, and `ResolveConflicts` returns a result and no
error. -/
theorem resolveConflicts_accepts_overlapping_unsorted :
    overlappingUnsortedTimeline.Items = [⟨⟨5, 10⟩, 1⟩, ⟨⟨3, 8⟩, 2⟩] ∧
      (3 : Int) < 5 ∧
      overlappingUnsortedTimeline.ResolveConflicts addValues =
        ({ Items := [⟨⟨3, 5⟩, 2⟩, ⟨⟨5, 8⟩, 3⟩, ⟨⟨8, 10⟩, 1⟩] }, none) := by
  decide

/-- C6 (amended): `ResolveConflicts` returns an error exactly when some item after the first,
at the time it is visited, either is `Before` the current period (it ends at or before the
start of the current period), or is not `After` the current period while the current period is
empty (its end is not after its start). The current period is the period of the first item,
replaced by the period of each visited item that is `After` it. -/
theorem resolveConflicts_error_iff (t : Timeline T) (f : Period → T → T → T) :
    (t.ResolveConflicts f).2 ≠ none ↔
      ∃ first pre x post, t.Items = first :: (pre ++ x :: post) ∧
        (x.Period.Before (currentPeriodAfter first.Period pre) = true ∨
          (x.Period.After (currentPeriodAfter first.Period pre) = false ∧
            (currentPeriodAfter first.Period pre).IsEmpty = true)) := by
  cases t with
  | mk items =>
    cases items with
    | nil =>
      constructor
      · intro h
        exact absurd rfl h
      · rintro ⟨first, pre, x, post, h, _⟩
        cases h
    | cons first rest =>
      unfold Timeline.ResolveConflicts
      simp only
      rw [resolveLoop_error_iff]
      constructor
      · rintro ⟨pre, x, post, h, hbad⟩
        exact ⟨first, pre, x, post, by rw [h], hbad⟩
      · rintro ⟨first2, pre, x, post, h, hbad⟩
        rw [List.cons.injEq] at h
        rw [← h.1] at hbad
        exact ⟨pre, x, post, h.2, hbad⟩

/-- The item `[5,8)` of `[0,10), [20,30), [5,8)` is visited when the current period is
`[20,30)` and is before it: an error, although `[5,8)` overlaps the first item. The first
period of `[10,5), [3,20)` is empty and the second item is not after it: an error. The item
`[3,8)` of `[5,10), [3,8)` overlaps the current period `[5,10)`: no error. -/
theorem resolveConflicts_error_iff_witness :
    (backwardTimeline.ResolveConflicts addValues).2 ≠ none ∧
      (invertedTimeline.ResolveConflicts addValues).2 ≠ none ∧
      (overlappingUnsortedTimeline.ResolveConflicts addValues).2 = none :=
  ⟨(resolveConflicts_error_iff backwardTimeline addValues).2
      ⟨⟨⟨0, 10⟩, 1⟩, [⟨⟨20, 30⟩, 2⟩], ⟨⟨5, 8⟩, 3⟩, [], rfl, Or.inl (by decide)⟩,
    (resolveConflicts_error_iff invertedTimeline addValues).2
      ⟨⟨⟨10, 5⟩, 1⟩, [], ⟨⟨3, 20⟩, 2⟩, [], rfl, Or.inr ⟨by decide, by decide⟩⟩,
    by decide⟩

/-- C7: for a timeline with non-empty periods in which some item after the first ends at or
before the start of the first item, `ResolveConflicts` returns the unsorted-timeline error (and
no items). -/
theorem resolveConflicts_error_of_item_before_first (t : Timeline T) (f : Period → T → T → T)
    (first : PeriodValue T) (rest : List (PeriodValue T)) (hitems : t.Items = first :: rest)
    (hne : NonEmptyPeriods t.Items)
    (hx : ∃ x ∈ rest, x.Period.End.tick ≤ first.Period.Start.tick) :
    t.ResolveConflicts f = ({ Items := [] }, some errUnsorted) := by
  unfold Timeline.ResolveConflicts
  rw [hitems] at hne ⊢
  exact resolveLoop_unsorted f first.Period.Start.tick rest [] [first] first.Period
    (hne first (List.mem_cons_self _ _)) (le_refl _)
    (fun z hz => hne z (List.mem_cons_of_mem _ hz)) hx

/-- The item `[0,5)` ends before the first item `[10,20)` starts: the unsorted-timeline error. -/
theorem resolveConflicts_error_of_item_before_first_witness :
    regressingTimeline.ResolveConflicts addValues = ({ Items := [] }, some errUnsorted) :=
  resolveConflicts_error_of_item_before_first regressingTimeline addValues
    ⟨⟨10, 20⟩, 1⟩ [⟨⟨30, 40⟩, 2⟩, ⟨⟨0, 5⟩, 3⟩] rfl (by decide) (by decide)

/-- C8: whenever `ResolveConflicts` returns an error, the timeline it returns has no items. -/
theorem resolveConflicts_error_no_items (t : Timeline T) (f : Period → T → T → T)
    (herr : (t.ResolveConflicts f).2 ≠ none) : (t.ResolveConflicts f).1.Items = [] := by
  unfold Timeline.ResolveConflicts at herr ⊢
  split
  · simp at herr
    rename_i h
    rw [h] at herr
    simp at herr
  · rename_i first rest h
    rw [h] at herr
    exact resolveLoop_error_items f rest [] [first] first.Period herr

/-- The failure on `[0,5)` comes after the cluster `[10,20)` has been flushed; no item is
returned. -/
theorem resolveConflicts_error_no_items_witness :
    (regressingTimeline.ResolveConflicts addValues).2 ≠ none ∧
      (regressingTimeline.ResolveConflicts addValues).1.Items = [] :=
  ⟨by decide, resolveConflicts_error_no_items regressingTimeline addValues (by decide)⟩

/-- C9: when the receiver has no items `Aggregate` returns the other timeline and no error,
and when the receiver has items and the other timeline has none it returns the receiver and no
error; in both cases whatever the reduction function is and whatever the items are. -/
theorem aggregate_empty_side (a b : Timeline T) (f : Period → T → T → T) :
    (a.Items = [] → a.Aggregate b f = (b, none)) ∧
      (a.Items ≠ [] → b.Items = [] → a.Aggregate b f = (a, none)) := by
  constructor
  · intro h
    unfold Timeline.Aggregate
    simp [h]
  · intro h1 h2
    unfold Timeline.Aggregate
    simp [h1, h2]

/-- Aggregating with the empty timeline on either side returns the other timeline, here one on
which `ResolveConflicts` fails. -/
theorem aggregate_empty_side_witness :
    (NewTimeline : Timeline Int).Aggregate regressingTimeline addValues =
        (regressingTimeline, none) ∧
      regressingTimeline.Aggregate (NewTimeline : Timeline Int) addValues =
        (regressingTimeline, none) :=
  ⟨(aggregate_empty_side NewTimeline regressingTimeline addValues).1 rfl,
    (aggregate_empty_side regressingTimeline NewTimeline addValues).2 (by decide) rfl⟩

/-- C10 (as stated, refuted): `[0,10)=1` and `[0,10)=-1` are sorted timelines with non-empty
periods and the absolute difference is commutative in its two values, yet aggregating the first
with the second gives `[0,10)=2` and aggregating the second with the first gives `[0,10)=0`.
With addition, `[0,10)=1, [12,15)=4` and `[0,20)=2`, whose first items start at the same
instant and end at different ones, give `[10,20)=2` in one order and not in the other. And
when the slice of `[0,10)=1, [12,15)=4` has room for one more item, aggregating it with
`[5,20)=2` leaves it holding `[0,10)=1, [5,20)=2`, so that aggregating `[5,20)=2` with it
afterwards gives another result. -/
theorem aggregate_depends_on_order :
    ((∀ p a b, absDiff p a b = absDiff p b a) ∧
      (SortedByStart tieA.Items ∧ NonEmptyPeriods tieA.Items) ∧
      (SortedByStart tieB.Items ∧ NonEmptyPeriods tieB.Items) ∧
      tieA.Aggregate tieB absDiff = ({ Items := [⟨⟨0, 10⟩, 2⟩] }, none) ∧
      tieB.Aggregate tieA absDiff = ({ Items := [⟨⟨0, 10⟩, 0⟩] }, none) ∧
      (⟨⟨0, 10⟩, 2⟩ : PeriodValue Int) ∉ (tieB.Aggregate tieA absDiff).1.Items) ∧
      ((SortedByStart stepsA.Items ∧ NonEmptyPeriods stepsA.Items) ∧
        (SortedByStart longTie.Items ∧ NonEmptyPeriods longTie.Items) ∧
        stepsA.Aggregate longTie addValues =
          ({ Items := [⟨⟨0, 10⟩, 3⟩, ⟨⟨10, 20⟩, 2⟩, ⟨⟨12, 15⟩, 6⟩] }, none) ∧
        longTie.Aggregate stepsA addValues =
          ({ Items := [⟨⟨0, 10⟩, 3⟩, ⟨⟨10, 12⟩, 2⟩, ⟨⟨12, 15⟩, 6⟩, ⟨⟨15, 20⟩, 2⟩] }, none) ∧
        (⟨⟨10, 20⟩, 2⟩ : PeriodValue Int) ∉ (longTie.Aggregate stepsA addValues).1.Items) ∧
      (stepsA.itemsAfterAggregate stepsB 1 = [⟨⟨0, 10⟩, 1⟩, ⟨⟨5, 20⟩, 2⟩] ∧
        stepsA.Aggregate stepsB addValues =
          ({ Items := [⟨⟨0, 5⟩, 1⟩, ⟨⟨5, 10⟩, 3⟩, ⟨⟨10, 20⟩, 2⟩, ⟨⟨12, 15⟩, 6⟩] }, none) ∧
        stepsB.Aggregate { Items := stepsA.itemsAfterAggregate stepsB 1 } addValues =
          ({ Items := [⟨⟨0, 5⟩, 1⟩, ⟨⟨5, 10⟩, 5⟩, ⟨⟨10, 20⟩, 4⟩] }, none)) := by
  refine ⟨⟨?_, by decide, by decide, by decide, by decide, by decide⟩, by decide, by decide⟩
  intro p a b
  unfold absDiff
  split <;> split <;> omega

/-- C10 (amended): for timelines `a` and `b` with non-empty periods in which an item of `a` and
an item of `b` that start at the same instant have the same period, and a reduction function
that is commutative and associative in its two values, when aggregating `a` with `b` has left
the items of `a` as they were (as it does when the slice of `a` has no room for the items of
`b`), aggregating `a` with `b` and then `b` with `a` both return no error and the same items in
the same order. When also the items of `a`, and those of `b`, that start at the same instant
have the same period, the two results are the same whatever order the sort leaves the items
that start at the same instant in. -/
theorem aggregate_comm (a b : Timeline T) (f : Period → T → T → T) (spare : Nat)
    (hna : NonEmptyPeriods a.Items) (hnb : NonEmptyPeriods b.Items)
    (htie : ∀ x ∈ a.Items, ∀ y ∈ b.Items,
      x.Period.Start.tick = y.Period.Start.tick → x.Period = y.Period)
    (hcomm : ∀ p u v, f p u v = f p v u)
    (hassoc : ∀ p u v w, f p (f p u v) w = f p u (f p v w))
    (hkeep : a.itemsAfterAggregate b spare = a.Items) :
    (a.Aggregate b f).2 = none ∧
      b.Aggregate { Items := a.itemsAfterAggregate b spare } f = a.Aggregate b f ∧
      ((∀ x ∈ a.Items, ∀ y ∈ a.Items,
          x.Period.Start.tick = y.Period.Start.tick → x.Period = y.Period) →
        (∀ x ∈ b.Items, ∀ y ∈ b.Items,
          x.Period.Start.tick = y.Period.Start.tick → x.Period = y.Period) →
        ∀ l1 l2 : List (PeriodValue T),
          l1.Perm (a.Items ++ b.Items) → SortedByStart l1 →
          l2.Perm (b.Items ++ a.Items) → SortedByStart l2 →
            Timeline.ResolveConflicts { Items := l1 } f =
              Timeline.ResolveConflicts { Items := l2 } f) := by
  rw [hkeep]
  have hlc : ∀ p u v w, f p u (f p v w) = f p v (f p u w) := by
    intro p u v w
    rw [← hassoc, hcomm p u v, hassoc]
  have hany : (∀ x ∈ a.Items, ∀ y ∈ a.Items,
        x.Period.Start.tick = y.Period.Start.tick → x.Period = y.Period) →
      (∀ x ∈ b.Items, ∀ y ∈ b.Items,
        x.Period.Start.tick = y.Period.Start.tick → x.Period = y.Period) →
      ∀ l1 l2 : List (PeriodValue T),
        l1.Perm (a.Items ++ b.Items) → SortedByStart l1 →
        l2.Perm (b.Items ++ a.Items) → SortedByStart l2 →
          Timeline.ResolveConflicts { Items := l1 } f =
            Timeline.ResolveConflicts { Items := l2 } f := by
    intro hta htb l1 l2 hp1 hs1 hp2 hs2
    have hmem1 : ∀ z ∈ l1, z ∈ a.Items ∨ z ∈ b.Items :=
      fun z hz => List.mem_append.1 (hp1.mem_iff.1 hz)
    have hmem2 : ∀ z ∈ l2, z ∈ b.Items ∨ z ∈ a.Items :=
      fun z hz => List.mem_append.1 (hp2.mem_iff.1 hz)
    have hp : l1.Perm l2 := hp1.trans (List.perm_append_comm.trans hp2.symm)
    apply resolveConflicts_congr f hlc l1 l2 _ hp
    · intro z hz
      rcases hmem1 z hz with h | h
      · exact hna z h
      · exact hnb z h
    · intro z hz
      rcases hmem2 z hz with h | h
      · exact hnb z h
      · exact hna z h
    · exact hs1
    · exact hs2
    · apply periods_eq_of_sorted_perm l1 l2 hp hs1 hs2
      intro x hx y hy hxy
      rcases hmem1 x hx with h1 | h1 <;> rcases hmem1 y hy with h2 | h2
      · exact hta x h1 y h2 hxy
      · exact htie x h1 y h2 hxy
      · exact (htie y h2 x h1 hxy.symm).symm
      · exact htb x h1 y h2 hxy
  refine ⟨?_, ?_, hany⟩
  · cases a with
    | mk ia =>
      cases b with
      | mk ib =>
        unfold Timeline.Aggregate
        by_cases h1 : ia.length = 0
        · simp only [h1, if_true]
        · by_cases h2 : ib.length = 0
          · simp only [h1, h2, if_true, if_false]
          · simp only [h1, h2, if_false]
            have hne1 : NonEmptyPeriods
                (Timeline.SortTimelineByPeriodStart { Items := ia ++ ib }).Items := by
              intro z hz
              rcases List.mem_append.1 ((sortTimeline_perm _).mem_iff.1 hz) with h | h
              · exact hna z h
              · exact hnb z h
            have hok := resolveConflicts_no_error _ f (sortTimeline_sorted _) hne1
            rcases hres : (Timeline.SortTimelineByPeriodStart
                { Items := ia ++ ib }).ResolveConflicts f with ⟨r, e⟩
            rw [hres] at hok
            simp only at hok
            subst hok
            rfl
  · cases a with
    | mk ia =>
      cases b with
      | mk ib =>
        cases ia with
        | nil =>
          cases ib with
          | nil => rfl
          | cons y ib => rfl
        | cons x ia =>
          cases ib with
          | nil => rfl
          | cons y ib =>
            have hcongr : (Timeline.SortTimelineByPeriodStart
                  { Items := (x :: ia) ++ (y :: ib) }).ResolveConflicts f =
                (Timeline.SortTimelineByPeriodStart
                  { Items := (y :: ib) ++ (x :: ia) }).ResolveConflicts f :=
              resolveConflicts_congr f hlc
                (Timeline.SortTimelineByPeriodStart { Items := (x :: ia) ++ (y :: ib) }).Items
                (Timeline.SortTimelineByPeriodStart { Items := (y :: ib) ++ (x :: ia) }).Items
                (sortTimeline_append_periods (x :: ia) (y :: ib) htie)
                ((sortTimeline_perm _).trans
                  (List.perm_append_comm.trans (sortTimeline_perm _).symm))
                (by
                  intro z hz
                  rcases List.mem_append.1 ((sortTimeline_perm _).mem_iff.1 hz) with h | h
                  · exact hna z h
                  · exact hnb z h)
                (by
                  intro z hz
                  rcases List.mem_append.1 ((sortTimeline_perm _).mem_iff.1 hz) with h | h
                  · exact hnb z h
                  · exact hna z h)
                (sortTimeline_sorted _) (sortTimeline_sorted _)
            unfold Timeline.Aggregate
            simp only [List.length_cons, Nat.add_one_ne_zero, if_false]
            rw [hcongr]

/-- The first items of `[0,10)=1, [12,15)=4` and of `[0,10)=5, [5,20)=2` have the same period,
addition is commutative and associative, and a slice without spare capacity is left as it
is. -/
theorem aggregate_comm_witness :
    (stepsA.Aggregate sameStartB addValues).2 = none ∧
      sameStartB.Aggregate { Items := stepsA.itemsAfterAggregate sameStartB 0 } addValues =
        stepsA.Aggregate sameStartB addValues :=
  ⟨(aggregate_comm stepsA sameStartB addValues 0 (by decide) (by decide) (by decide)
      (by intro p u v; show u + v = v + u; omega)
      (by intro p u v w; show u + v + w = u + (v + w); omega) (by decide)).1,
    (aggregate_comm stepsA sameStartB addValues 0 (by decide) (by decide) (by decide)
      (by intro p u v; show u + v = v + u; omega)
      (by intro p u v w; show u + v + w = u + (v + w); omega) (by decide)).2.1⟩

/-- C17: for non-empty periods `p` and `limit`, when `p` intersects `limit` the clamp returns
no error and the period `[max p.Start limit.Start, min p.End limit.End)`; when they do not
intersect it returns the empty period and an error; so it fails exactly when they do not
intersect. -/
theorem clamp_succeeds_iff_intersects (p limit : Period) (hp : p.Start.tick < p.End.tick)
    (hl : limit.Start.tick < limit.End.tick) :
    (p.Intersects limit = true →
        p.Clamp limit =
          ({ Start := laterOf limit.Start p.Start, End := earlierOf limit.End p.End }, none) ∧
        (p.Clamp limit).1.Start.tick = max p.Start.tick limit.Start.tick ∧
        (p.Clamp limit).1.End.tick = min p.End.tick limit.End.tick) ∧
      (p.Intersects limit = false → p.Clamp limit = (Empty, some errOutside)) ∧
      ((p.Clamp limit).2 ≠ none ↔ p.Intersects limit = false) := by
  refine ⟨fun hi => ?_, clamp_of_not_intersects p limit, ?_⟩
  · rw [clamp_of_intersects p limit hp hl hi]
    refine ⟨rfl, ?_, ?_⟩
    · simp only [laterOf_tick]
      exact max_comm _ _
    · simp only [earlierOf_tick]
      exact min_comm _ _
  · by_cases hi : p.Intersects limit = true
    · rw [clamp_of_intersects p limit hp hl hi]
      simp [hi]
    · have hi2 : p.Intersects limit = false := by simpa using hi
      rw [clamp_of_not_intersects p limit hi2]
      simp [hi2]

/-- The period 10-20 January clamped to 15-25 January is 15-20 January; a period that only
touches the limit is refused. -/
theorem clamp_succeeds_iff_intersects_witness :
    Period.Clamp ⟨9, 19⟩ ⟨14, 24⟩ = (⟨14, 19⟩, none) ∧
      Period.Clamp ⟨0, 9⟩ ⟨9, 19⟩ = (Empty, some errOutside) :=
  ⟨((clamp_succeeds_iff_intersects ⟨9, 19⟩ ⟨14, 24⟩ (by decide) (by decide)).1
      (by decide)).1.trans (by decide),
    (clamp_succeeds_iff_intersects ⟨0, 9⟩ ⟨9, 19⟩ (by decide) (by decide)).2.1 (by decide)⟩

/-- C18: clamping a valid period to itself returns no error and a period equal to it. -/
theorem clamp_self (p : Period) (hp : p.Start.tick < p.End.tick) :
    (p.Clamp p).2 = none ∧ (p.Clamp p).1.Equal p = true := by
  have hi : p.Intersects p = true := (intersects_iff _ _).2 ⟨hp, hp⟩
  rw [clamp_of_intersects p p hp hp hi]
  simp [Period.Equal, Time.Equal, laterOf_tick, earlierOf_tick]

/-- January 2024 clamped to itself. -/
theorem clamp_self_witness :
    (Period.Clamp ⟨0, 31⟩ ⟨0, 31⟩).2 = none ∧
      (Period.Clamp ⟨0, 31⟩ ⟨0, 31⟩).1.Equal ⟨0, 31⟩ = true :=
  clamp_self ⟨0, 31⟩ (by decide)

/-- C19: for items with non-empty periods and a non-empty limit, `ClampPeriods` returns, in
input order, the items whose period intersects the limit, each cut to
`[max Start limit.Start, min End limit.End)` with its value unchanged; every returned period
is non-empty and contained in the limit. -/
theorem clampPeriods_spec (l : List (PeriodValue T)) (limit : Period)
    (hne : NonEmptyPeriods l) (hl : limit.Start.tick < limit.End.tick) :
    ClampPeriods l limit = clampedItems l limit ∧
      (ClampPeriods l limit).map
          (fun r => (r.Period.Start.tick, r.Period.End.tick, r.Value)) =
        (l.filter (fun x => x.Period.Intersects limit)).map
          (fun x => (max x.Period.Start.tick limit.Start.tick,
            min x.Period.End.tick limit.End.tick, x.Value)) ∧
      ∀ r ∈ ClampPeriods l limit,
        r.Period.Start.tick < r.Period.End.tick ∧ limit.ContainsPeriod r.Period = true := by
  have heq := clampPeriods_eq_clampedItems limit hl l hne
  refine ⟨heq, ?_, ?_⟩
  · rw [heq]
    unfold clampedItems
    rw [List.map_map]
    apply List.map_congr_left
    intro x _
    simp only [Function.comp, laterOf_tick, earlierOf_tick, Prod.mk.injEq, and_true]
    exact ⟨max_comm _ _, min_comm _ _⟩
  · intro r hr
    rw [heq] at hr
    unfold clampedItems at hr
    rw [List.mem_map] at hr
    obtain ⟨x, hx, rfl⟩ := hr
    rw [List.mem_filter] at hx
    have hx1 := hne x hx.1
    have hx2 := (intersects_iff _ _).1 hx.2
    rw [containsPeriod_iff]
    simp only [laterOf_tick, earlierOf_tick]
    omega

/-- The test items clamped to `[10,40)`: March is dropped and the others are cut. -/
theorem clampPeriods_spec_witness :
    ClampPeriods testItems ⟨10, 40⟩ =
      [⟨⟨10, 31⟩, 100⟩, ⟨⟨31, 40⟩, 200⟩, ⟨⟨10, 16⟩, 80⟩, ⟨⟨11, 14⟩, 50⟩] :=
  ((clampPeriods_spec testItems ⟨10, 40⟩ (by decide) (by decide)).1).trans (by decide)

/-- C11: on a timeline sorted by period start with non-empty periods, optimising the result
of `Optimize` again with the same comparer returns the same items. -/
theorem optimize_idempotent (t : Timeline T) (eq : T → T → Bool)
    (hs : SortedByStart t.Items) (hne : NonEmptyPeriods t.Items) :
    (t.Optimize eq).Optimize eq = t.Optimize eq := by
  cases t with
  | mk items =>
    cases items with
    | nil => rfl
    | cons first rest =>
      obtain ⟨h, tl, e, _, _, _, h4, h5⟩ :=
        optimizeLoop_stable eq rest first (hne first (List.mem_cons_self _ _))
          (List.pairwise_cons.1 hs).1 (fun z hz => hne z (List.mem_cons_of_mem _ hz))
          (List.pairwise_cons.1 hs).2
      have e1 : Timeline.Optimize { Items := first :: rest } eq = { Items := h :: tl } := by
        unfold Timeline.Optimize
        simp only
        rw [e]
      rw [e1]
      unfold Timeline.Optimize
      simp only
      rw [optimizeLoop_fixed eq tl h h4 h5]

/-- Optimising the seven items obtained from the twelve months changes nothing. -/
theorem optimize_idempotent_witness :
    (yearTimeline.Optimize sameValue).Optimize sameValue = yearTimeline.Optimize sameValue :=
  optimize_idempotent yearTimeline sameValue (by decide) (by decide)

/-- C12: on a timeline sorted by period start with non-empty periods (overlapping or not), no
two consecutive items of the result of `Optimize` are contiguous, the first ending where the
second starts, with values equal for the comparer; and the result has at most as many items as
the input. -/
theorem optimize_no_mergeable_neighbours (t : Timeline T) (eq : T → T → Bool)
    (hs : SortedByStart t.Items) (hne : NonEmptyPeriods t.Items) :
    (t.Optimize eq).Items.Chain'
        (fun a b => ¬ (a.Period.End.tick = b.Period.Start.tick ∧ eq a.Value b.Value = true)) ∧
      (t.Optimize eq).Items.length ≤ t.Items.length := by
  cases t with
  | mk items =>
    cases items with
    | nil => exact ⟨by simp [Timeline.Optimize, optimizeLoop, PeriodValue.IsEmpty,
        Period.IsEmpty, Empty, Time.Before], by simp [Timeline.Optimize, optimizeLoop,
        PeriodValue.IsEmpty, Period.IsEmpty, Empty, Time.Before]⟩
    | cons first rest =>
      obtain ⟨h, tl, e, _, _, _, _, h5⟩ :=
        optimizeLoop_stable eq rest first (hne first (List.mem_cons_self _ _))
          (List.pairwise_cons.1 hs).1 (fun z hz => hne z (List.mem_cons_of_mem _ hz))
          (List.pairwise_cons.1 hs).2
      have hlen := optimizeLoop_length eq rest first
      unfold Timeline.Optimize
      simp only [List.length_cons]
      refine ⟨?_, hlen⟩
      rw [e]
      refine List.Chain'.imp ?_ h5
      intro a b hab hcontra
      have hc : b.Period.IsContiguous a.Period = true := by
        unfold Period.IsContiguous Time.Equal
        simp [hcontra.1]
      rw [hc, hcontra.2] at hab
      simp at hab

/-- The twelve months with values 100, 200, 300 four times, 400, 100, 800 twice and 900 twice
become seven items. -/
theorem optimize_no_mergeable_neighbours_witness :
    ((yearTimeline.Optimize sameValue).Items.Chain'
        (fun a b => ¬ (a.Period.End.tick = b.Period.Start.tick ∧
            sameValue a.Value b.Value = true)) ∧
      (yearTimeline.Optimize sameValue).Items.length ≤ yearTimeline.Items.length) ∧
      (yearTimeline.Optimize sameValue).Items =
        [⟨⟨0, 31⟩, 100⟩, ⟨⟨31, 60⟩, 200⟩, ⟨⟨60, 182⟩, 300⟩, ⟨⟨182, 213⟩, 400⟩,
          ⟨⟨213, 244⟩, 100⟩, ⟨⟨244, 305⟩, 800⟩, ⟨⟨305, 366⟩, 900⟩] :=
  ⟨optimize_no_mergeable_neighbours yearTimeline sameValue (by decide) (by decide), by decide⟩

/-- C13: on a timeline sorted by period start with non-empty periods (overlapping or not) and
with true equality as the comparer, an instant is covered by a result item of value `v` exactly
when it is covered by an input item of value `v`. -/
theorem optimize_preserves_function (t : Timeline T) (eq : T → T → Bool)
    (hs : SortedByStart t.Items) (hne : NonEmptyPeriods t.Items)
    (heq : ∀ a b, eq a b = true ↔ a = b) (i : Int) (v : T) :
    (∃ r ∈ (t.Optimize eq).Items, r.Value = v ∧ Covers r.Period i) ↔
      ∃ x ∈ t.Items, x.Value = v ∧ Covers x.Period i := by
  cases t with
  | mk items =>
    cases items with
    | nil =>
      simp [Timeline.Optimize, optimizeLoop, PeriodValue.IsEmpty, Period.IsEmpty, Empty,
        Time.Before]
    | cons first rest =>
      unfold Timeline.Optimize
      simp only
      rw [optimizeLoop_covers eq heq i v rest first (hne first (List.mem_cons_self _ _))
        (List.pairwise_cons.1 hs).1 (fun z hz => hne z (List.mem_cons_of_mem _ hz))
        (List.pairwise_cons.1 hs).2]
      simp only [List.mem_cons, exists_eq_or_imp]

/-- In the year without June and July, day 100 (April) is covered with value 300 and day 160
(June, in the gap) is not. -/
theorem optimize_preserves_function_witness :
    (∃ r ∈ (yearWithGapTimeline.Optimize sameValue).Items, r.Value = 300 ∧ Covers r.Period 100) ∧
      ¬ (∃ r ∈ (yearWithGapTimeline.Optimize sameValue).Items,
          r.Value = 300 ∧ Covers r.Period 160) :=
  ⟨(optimize_preserves_function yearWithGapTimeline sameValue (by decide) (by decide)
      (by intro a b; simp [sameValue]) 100 300).2 (by decide),
    fun h => absurd
      ((optimize_preserves_function yearWithGapTimeline sameValue (by decide) (by decide)
        (by intro a b; simp [sameValue]) 160 300).1 h) (by decide)⟩

/-- C31: on a timeline made of one item `(p, v)` with `p` non-empty, `ResolveConflicts`
returns no error and the single item `(p, f p v zero)`, the stored value being the second
argument of `f` and the zero value the third; the item comes back unchanged exactly when
`f p v zero = v`. -/
theorem resolveConflicts_single (p : Period) (v : T) (f : Period → T → T → T)
    (hp : p.Start.tick < p.End.tick) :
    Timeline.ResolveConflicts { Items := [{ Period := p, Value := v }] } f =
        ({ Items := [{ Period := p, Value := f p v default }] }, none) ∧
      (Timeline.ResolveConflicts { Items := [{ Period := p, Value := v }] } f =
          ({ Items := [{ Period := p, Value := v }] }, none) ↔ f p v default = v) := by
  have hi : p.Intersects p = true := (intersects_iff _ _).2 ⟨hp, hp⟩
  have hc : computeValuesOnSamePeriods [({ Period := p, Value := v } : PeriodValue T)] f =
      [{ Period := p, Value := f p v default }] := by
    unfold computeValuesOnSamePeriods
    rw [splitAllPeriods_singleton _ hp]
    simp [foldOnPeriod, NewPeriodValue, hi]
  have hr : Timeline.ResolveConflicts { Items := [{ Period := p, Value := v }] } f =
      ({ Items := [{ Period := p, Value := f p v default }] }, none) := by
    unfold Timeline.ResolveConflicts
    simp only
    rw [resolveLoop_nil, hc, List.nil_append]
  refine ⟨hr, ?_⟩
  rw [hr]
  constructor
  · intro h
    simp only [Prod.mk.injEq, Timeline.mk.injEq, List.cons.injEq, PeriodValue.mk.injEq,
      true_and, and_true] at h
    exact h
  · intro h
    rw [h]

/-- The single item `[0,10)=-1` resolved with the absolute difference comes back with the
value 1. -/
theorem resolveConflicts_single_witness :
    Timeline.ResolveConflicts { Items := [⟨⟨0, 10⟩, -1⟩] } absDiff =
      ({ Items := [⟨⟨0, 10⟩, 1⟩] }, none) :=
  (resolveConflicts_single ⟨0, 10⟩ (-1) absDiff (by decide)).1.trans (by decide)

/-- C32: on a timeline sorted by period start with non-empty periods `ResolveConflicts`
returns no error; the timeline without items gives no error and no item; and `Aggregate` of
two timelines with non-empty periods returns no error. -/
theorem resolveConflicts_never_fails (t a b : Timeline T) (f : Period → T → T → T)
    (hs : SortedByStart t.Items) (hne : NonEmptyPeriods t.Items)
    (hna : NonEmptyPeriods a.Items) (hnb : NonEmptyPeriods b.Items) :
    (t.ResolveConflicts f).2 = none ∧
      (NewTimeline : Timeline T).ResolveConflicts f = ({ Items := [] }, none) ∧
      (a.Aggregate b f).2 = none := by
  refine ⟨resolveConflicts_no_error t f hs hne, rfl, ?_⟩
  unfold Timeline.Aggregate
  by_cases h1 : a.Items.length = 0
  · rw [if_pos h1]
  · rw [if_neg h1]
    by_cases h2 : b.Items.length = 0
    · rw [if_pos h2]
    · rw [if_neg h2]
      have hne2 : NonEmptyPeriods
          (Timeline.SortTimelineByPeriodStart { Items := a.Items ++ b.Items }).Items := by
        intro z hz
        have hz2 := (sortTimeline_perm _).mem_iff.1 hz
        rcases List.mem_append.1 hz2 with h | h
        · exact hna z h
        · exact hnb z h
      have hok := resolveConflicts_no_error _ f (sortTimeline_sorted _) hne2
      rcases hres : (Timeline.SortTimelineByPeriodStart
          { Items := a.Items ++ b.Items }).ResolveConflicts f with ⟨r, e⟩
      rw [hres] at hok
      simp only at hok
      subst hok
      rfl

/-- The chain `[0,10), [5,20), [12,15)` resolves without error, and so does the aggregate of
`[0,10), [12,15)` with `[5,20)`. -/
theorem resolveConflicts_never_fails_witness :
    (chainTimeline.ResolveConflicts addValues).2 = none ∧
      (NewTimeline : Timeline Int).ResolveConflicts addValues = ({ Items := [] }, none) ∧
      (stepsA.Aggregate stepsB addValues).2 = none :=
  resolveConflicts_never_fails chainTimeline stepsA stepsB addValues (by decide) (by decide)
    (by decide) (by decide)

/-- C33 (as stated, refuted): the timeline `[0,10)=1, [0,10)=2`, the same period given in two
representations, is sorted by period start and has non-empty periods; the result of
`ResolveConflicts` has three items, two of them on zero-length periods. -/
theorem resolveConflicts_emits_empty_periods :
    SortedByStart twoZonesItems ∧ NonEmptyPeriods twoZonesItems ∧
      Timeline.ResolveConflicts { Items := twoZonesItems } addValues =
        ({ Items := [⟨⟨0, inOtherZone 0⟩, 0⟩, ⟨⟨inOtherZone 0, 10⟩, 3⟩,
          ⟨⟨10, inOtherZone 10⟩, 0⟩] }, none) ∧
      ¬ NonEmptyPeriods
        (Timeline.ResolveConflicts { Items := twoZonesItems } addValues).1.Items := by
  refine ⟨by decide, by decide, by decide, ?_⟩
  intro h
  exact absurd (h ⟨⟨0, inOtherZone 0⟩, 0⟩ (by decide)) (by decide)

/-- C33 (amended): on a timeline sorted by period start with non-empty periods, an instant is
covered by an item of the result of `ResolveConflicts` exactly when it is covered by an input
item; no period of the result ends before it starts; and when starts and ends that are `Equal`
are the same `time.Time` value, every period of the result is non-empty. -/
theorem resolveConflicts_preserves_coverage (t : Timeline T) (f : Period → T → T → T)
    (hs : SortedByStart t.Items) (hne : NonEmptyPeriods t.Items) :
    (∀ i, (∃ r ∈ (t.ResolveConflicts f).1.Items, Covers r.Period i) ↔
        ∃ x ∈ t.Items, Covers x.Period i) ∧
      (∀ r ∈ (t.ResolveConflicts f).1.Items, r.Period.Start.tick ≤ r.Period.End.tick) ∧
      (OneValuePerInstant t.Items → NonEmptyPeriods (t.ResolveConflicts f).1.Items) := by
  cases t with
  | mk items =>
    cases items with
    | nil =>
      refine ⟨fun i => ?_, ?_, ?_⟩
      · constructor
        · rintro ⟨r, hr, _⟩
          exact absurd hr (List.not_mem_nil r)
        · rintro ⟨x, hx, _⟩
          exact absurd hx (List.not_mem_nil x)
      · intro r hr
        exact absurd hr (List.not_mem_nil r)
      · intro _ r hr
        exact absurd hr (List.not_mem_nil r)
    | cons first rest =>
      have hfirst : first.Period.Start.tick < first.Period.End.tick :=
        hne first (List.mem_cons_self _ _)
      unfold Timeline.ResolveConflicts
      simp only
      refine ⟨fun i => ?_, ?_, ?_⟩
      · rw [resolveLoop_covers f i rest [] [first] first.Period hfirst
          ⟨first, List.mem_singleton.2 rfl, rfl, rfl⟩
          (by
            intro b hb
            rw [List.mem_singleton.1 hb]
            exact ⟨hfirst, le_refl _, hfirst⟩)
          (fun z hz => hne z (List.mem_cons_of_mem _ hz))
          (List.pairwise_cons.1 hs).2 (List.pairwise_cons.1 hs).1]
        simp only [List.not_mem_nil, false_and, exists_false, false_or, or_false,
          List.mem_singleton, exists_eq_left, List.mem_cons, or_and_right, exists_or]
      · exact resolveLoop_ordered f rest [] [first] first.Period
          (fun r hr => absurd hr (List.not_mem_nil r))
      · intro hc
        exact resolveLoop_nonempty f rest [] [first] first.Period hc
          (fun r hr => absurd hr (List.not_mem_nil r))

/-- On `[0,10)=1, [12,15)=4` the instant 11 of the gap is covered by no result item and the
instant 13 is covered; on the chain `[0,10), [5,20), [12,15)` the instant 17 is covered; the
periods of the result on `[0,10)=1, [12,15)=4`, built in UTC, are non-empty. -/
theorem resolveConflicts_preserves_coverage_witness :
    (¬ ∃ r ∈ (stepsA.ResolveConflicts addValues).1.Items, Covers r.Period 11) ∧
      (∃ r ∈ (stepsA.ResolveConflicts addValues).1.Items, Covers r.Period 13) ∧
      (∃ r ∈ (chainTimeline.ResolveConflicts addValues).1.Items, Covers r.Period 17) ∧
      NonEmptyPeriods (stepsA.ResolveConflicts addValues).1.Items :=
  ⟨fun h => absurd
      (((resolveConflicts_preserves_coverage stepsA addValues (by decide) (by decide)).1 11).1 h)
      (by decide),
    ((resolveConflicts_preserves_coverage stepsA addValues (by decide) (by decide)).1 13).2
      (by decide),
    ((resolveConflicts_preserves_coverage chainTimeline addValues (by decide)
      (by decide)).1 17).2 (by decide),
    (resolveConflicts_preserves_coverage stepsA addValues (by decide) (by decide)).2.2
      (oneValuePerInstant_of_zone _ 0 (by decide))⟩

end Claims

section ClaimsOnItems

variable {T : Type}

/-- C14 (as stated, refuted): the items `[0,10)=1, [20,30)=2` are a non-empty collection with
non-empty periods; `SplitAllPeriods` returns `[0,10), [10,20), [20,30)`, and the instant 15 is
covered by the output period `[10,20)` and by no input period. -/
theorem splitAllPeriods_fills_gap :
    gapItems ≠ [] ∧ NonEmptyPeriods gapItems ∧
      SplitAllPeriods gapItems = [⟨0, 10⟩, ⟨10, 20⟩, ⟨20, 30⟩] ∧
      (∃ q ∈ SplitAllPeriods gapItems, Covers q 15) ∧
      ¬ (∃ x ∈ gapItems, Covers x.Period 15) := by
  decide

/-- C14 (amended): for items with non-empty periods the periods of `SplitAllPeriods` follow one
another without overlap and tile the span from the earliest start to the latest end: an instant
is covered by an output period exactly when some input period starts at or before it and some
input period ends after it; so every instant covered by an input period is covered. -/
theorem splitAllPeriods_tiles_span (l : List (PeriodValue T)) (hne : NonEmptyPeriods l) :
    (SplitAllPeriods l).Pairwise (fun p q => p.End.tick ≤ q.Start.tick) ∧
      (∀ t, (∃ q ∈ SplitAllPeriods l, Covers q t) ↔
        (∃ x ∈ l, x.Period.Start.tick ≤ t) ∧ (∃ y ∈ l, t < y.Period.End.tick)) ∧
      (∀ t, (∃ x ∈ l, Covers x.Period t) → ∃ q ∈ SplitAllPeriods l, Covers q t) := by
  refine ⟨consecutivePeriods_ordered _ (allTimes_ascending l),
    fun t => splitAllPeriods_covers_iff l hne t, ?_⟩
  rintro t ⟨x, hx, hx1, hx2⟩
  exact (splitAllPeriods_covers_iff l hne t).2 ⟨⟨x, hx, hx1⟩, ⟨x, hx, hx2⟩⟩

/-- On `[0,10)=1, [20,30)=2` the instants 5, 15 and 25 are covered by an output period. -/
theorem splitAllPeriods_tiles_span_witness :
    (SplitAllPeriods gapItems).Pairwise (fun p q => p.End.tick ≤ q.Start.tick) ∧
      (∀ t, (∃ q ∈ SplitAllPeriods gapItems, Covers q t) ↔
        (∃ x ∈ gapItems, x.Period.Start.tick ≤ t) ∧ (∃ y ∈ gapItems, t < y.Period.End.tick)) ∧
      (∀ t, (∃ x ∈ gapItems, Covers x.Period t) → ∃ q ∈ SplitAllPeriods gapItems, Covers q t) :=
  splitAllPeriods_tiles_span gapItems (by decide)

/-- C15 (as stated, refuted): the items `[0,10)=1, [0,10)=2`, the same period given in two
representations, have the two distinct boundary instants 0 and 10; `SplitAllPeriods` returns
three periods, not one, and two of them are empty. -/
theorem splitAllPeriods_two_representations :
    ((timeKeys twoZonesItems).map Time.tick).dedup = [0, 10] ∧
      SplitAllPeriods twoZonesItems =
        [⟨0, inOtherZone 0⟩, ⟨inOtherZone 0, 10⟩, ⟨10, inOtherZone 10⟩] ∧
      (SplitAllPeriods twoZonesItems).length = 3 ∧
      ((SplitAllPeriods twoZonesItems).filter (fun q => q.IsEmpty)).length = 2 := by
  decide

/-- C15 (amended): when starts and ends that are `Equal` are the same `time.Time` value and
`bs` is the ascending, duplicate-free list of the instants of all starts and ends of the items,
`SplitAllPeriods` returns the periods between each instant of `bs` and the next one, made of
the starts and ends of the items: one fewer than there are instants, each non-empty, each
ending where the next starts. -/
theorem splitAllPeriods_eq_pairs (l : List (PeriodValue T)) (bs : List Int)
    (hc : OneValuePerInstant l)
    (hsorted : bs.Sorted (fun a b => a < b))
    (hmem : ∀ c, c ∈ bs ↔ ∃ b, IsBoundary l b ∧ b.tick = c) :
    (SplitAllPeriods l).map (fun q => (q.Start.tick, q.End.tick)) = pairsOfInstants bs ∧
      (∀ q ∈ SplitAllPeriods l, IsBoundary l q.Start ∧ IsBoundary l q.End) ∧
      (SplitAllPeriods l).length = bs.length - 1 ∧
      (∀ q ∈ SplitAllPeriods l, q.Start.tick < q.End.tick) ∧
      (SplitAllPeriods l).Chain' (fun p q => p.End = q.Start) := by
  have hbs : (allTimes l).map Time.tick = bs :=
    eq_of_ascending_of_mem_iff _ _
      ((allTimes_sorted l hc).map Time.tick (fun _ _ h => h)) hsorted
      (fun c => (mem_map_tick_allTimes l c).trans (hmem c).symm)
  refine ⟨?_, ?_, ?_, ?_, ?_⟩
  · unfold SplitAllPeriods
    rw [consecutivePeriods_instants, hbs]
  · intro q hq
    have h := (mem_splitAllPeriods l hc q).1 hq
    exact ⟨h.1, h.2.1⟩
  · unfold SplitAllPeriods
    rw [consecutivePeriods_length, ← hbs, List.length_map]
  · intro q hq
    exact ((mem_splitAllPeriods l hc q).1 hq).2.2.1
  · exact consecutivePeriods_chain _

/-- The three months with 10-17 January and 12-15 January, built in UTC, have eight distinct
boundaries and give seven periods. -/
theorem splitAllPeriods_eq_pairs_witness :
    (SplitAllPeriods testItems).map (fun q => (q.Start.tick, q.End.tick)) =
        [(0, 9), (9, 11), (11, 14), (14, 16), (16, 31), (31, 60), (60, 91)] ∧
      (SplitAllPeriods testItems).length = 8 - 1 :=
  ⟨(splitAllPeriods_eq_pairs testItems [0, 9, 11, 14, 16, 31, 60, 91]
      (oneValuePerInstant_of_zone _ 0 (by decide)) (by decide)
      (fun c => by
        rw [← mem_map_tick_allTimes,
          show (allTimes testItems).map Time.tick = [0, 9, 11, 14, 16, 31, 60, 91] from by
            decide])).1.trans (by decide),
    (splitAllPeriods_eq_pairs testItems [0, 9, 11, 14, 16, 31, 60, 91]
      (oneValuePerInstant_of_zone _ 0 (by decide)) (by decide)
      (fun c => by
        rw [← mem_map_tick_allTimes,
          show (allTimes testItems).map Time.tick = [0, 9, 11, 14, 16, 31, 60, 91] from by
            decide])).2.2.1⟩

/-- C16: for an input item with a non-empty period `p`, every period of `SplitAllPeriods` is
contained in `p` or does not intersect it, and the output is made of periods that do not
intersect `p`, then the periods contained in `p`, each ending where the next starts, the first
starting at `p.Start` and the last ending at `p.End`, then periods that do not intersect `p`. -/
theorem splitAllPeriods_atomic (l : List (PeriodValue T)) (x : PeriodValue T) (hx : x ∈ l)
    (hp : x.Period.Start.tick < x.Period.End.tick) :
    (∀ q ∈ SplitAllPeriods l,
        x.Period.ContainsPeriod q = true ∨ x.Period.Intersects q = false) ∧
      ∃ pre mid post, SplitAllPeriods l = pre ++ mid ++ post ∧
        (∀ q ∈ pre, x.Period.Intersects q = false) ∧
        (∀ q ∈ post, x.Period.Intersects q = false) ∧
        (∀ q ∈ mid, x.Period.ContainsPeriod q = true) ∧
        mid.Chain' (fun a b => a.End = b.Start) ∧
        (∃ first, mid.head? = some first ∧ first.Start = x.Period.Start) ∧
        (∃ last, mid.getLast? = some last ∧ last.End = x.Period.End) := by
  have hsorted := allTimes_ascending l
  have hs : x.Period.Start ∈ allTimes l := (mem_allTimes l _).2 ⟨x, hx, Or.inl rfl⟩
  have he : x.Period.End ∈ allTimes l := (mem_allTimes l _).2 ⟨x, hx, Or.inr rfl⟩
  obtain ⟨l1, r, hl⟩ := List.append_of_mem hs
  rw [hl] at hsorted he
  have hp1 := List.pairwise_append.1 hsorted
  have hl1 : ∀ a ∈ l1, a.tick ≤ x.Period.Start.tick :=
    fun a ha => hp1.2.2 a ha _ (List.mem_cons_self _ _)
  have her : x.Period.End ∈ r := by
    rcases List.mem_append.1 he with h | h
    · have := hl1 _ h
      omega
    · rcases List.mem_cons.1 h with h | h
      · rw [h] at hp
        omega
      · exact h
  obtain ⟨m, l2, hr⟩ := List.append_of_mem her
  have hp2 := List.pairwise_cons.1 hp1.2.1
  rw [hr] at hp2
  have hp3 := List.pairwise_append.1 hp2.2
  have hm1 : ∀ a ∈ m, x.Period.Start.tick ≤ a.tick :=
    fun a ha => hp2.1 a (List.mem_append.2 (Or.inl ha))
  have hm2 : ∀ a ∈ m, a.tick ≤ x.Period.End.tick :=
    fun a ha => hp3.2.2 a ha _ (List.mem_cons_self _ _)
  have hl2 : ∀ a ∈ l2, x.Period.End.tick ≤ a.tick := (List.pairwise_cons.1 hp3.2.1).1
  have hsplit : SplitAllPeriods l =
      consecutivePeriods (l1 ++ [x.Period.Start]) ++
        consecutivePeriods ((x.Period.Start :: m) ++ [x.Period.End]) ++
          consecutivePeriods (x.Period.End :: l2) := by
    unfold SplitAllPeriods
    rw [hl, hr, consecutivePeriods_append l1, List.append_assoc, ← List.cons_append,
      consecutivePeriods_append (x.Period.Start :: m)]
  have hpre : ∀ q ∈ consecutivePeriods (l1 ++ [x.Period.Start]),
      x.Period.Intersects q = false := by
    intro q hq
    have h := (mem_of_mem_consecutivePeriods q _ hq).2
    rw [← Bool.not_eq_true, intersects_iff]
    rcases List.mem_append.1 h with h | h
    · have := hl1 _ h
      omega
    · rw [List.mem_singleton] at h
      rw [h]
      omega
  have hpost : ∀ q ∈ consecutivePeriods (x.Period.End :: l2),
      x.Period.Intersects q = false := by
    intro q hq
    have h := (mem_of_mem_consecutivePeriods q _ hq).1
    rw [← Bool.not_eq_true, intersects_iff]
    rcases List.mem_cons.1 h with h | h
    · rw [h]
      omega
    · have := hl2 _ h
      omega
  have hbound : ∀ c ∈ (x.Period.Start :: m) ++ [x.Period.End],
      x.Period.Start.tick ≤ c.tick ∧ c.tick ≤ x.Period.End.tick := by
    intro c hc
    rcases List.mem_append.1 hc with h | h
    · rcases List.mem_cons.1 h with h | h
      · rw [h]
        omega
      · have := hm1 c h
        have := hm2 c h
        omega
    · rw [List.mem_singleton] at h
      rw [h]
      omega
  have hmid : ∀ q ∈ consecutivePeriods ((x.Period.Start :: m) ++ [x.Period.End]),
      x.Period.ContainsPeriod q = true := by
    intro q hq
    have h := mem_of_mem_consecutivePeriods q _ hq
    rw [containsPeriod_iff]
    exact ⟨(hbound _ h.1).1, (hbound _ h.2).2⟩
  refine ⟨?_, _, _, _, hsplit, hpre, hpost, hmid, consecutivePeriods_chain _, ?_,
    consecutivePeriods_getLast _ _ (List.cons_ne_nil _ _)⟩
  · intro q hq
    rw [hsplit] at hq
    rcases List.mem_append.1 hq with h | h
    · rcases List.mem_append.1 h with h | h
      · exact Or.inr (hpre q h)
      · exact Or.inl (hmid q h)
    · exact Or.inr (hpost q h)
  · cases m with
    | nil => exact ⟨⟨x.Period.Start, x.Period.End⟩, rfl, rfl⟩
    | cons b m => exact ⟨⟨x.Period.Start, b⟩, rfl, rfl⟩

/-- The item 10-17 January among the test items: it is made of the three consecutive output
periods `[9,11), [11,14), [14,16)`. -/
theorem splitAllPeriods_atomic_witness :
    (∀ q ∈ SplitAllPeriods testItems,
        Period.ContainsPeriod ⟨9, 16⟩ q = true ∨ Period.Intersects ⟨9, 16⟩ q = false) ∧
      ∃ pre mid post, SplitAllPeriods testItems = pre ++ mid ++ post ∧
        (∀ q ∈ pre, Period.Intersects ⟨9, 16⟩ q = false) ∧
        (∀ q ∈ post, Period.Intersects ⟨9, 16⟩ q = false) ∧
        (∀ q ∈ mid, Period.ContainsPeriod ⟨9, 16⟩ q = true) ∧
        mid.Chain' (fun a b => a.End = b.Start) ∧
        (∃ first, mid.head? = some first ∧ first.Start = 9) ∧
        (∃ last, mid.getLast? = some last ∧ last.End = 16) :=
  splitAllPeriods_atomic testItems ⟨⟨9, 16⟩, 80⟩ (by decide) (by decide)

/-- C20: on a timeline sorted by period start, `FindIntersects` returns exactly the items
whose period intersects the query period, in timeline order. -/
theorem findIntersects_eq_filter (t : Timeline T) (period : Period)
    (hs : SortedByStart t.Items) :
    t.FindIntersects period = t.Items.filter (fun x => x.Period.Intersects period) := by
  unfold Timeline.FindIntersects
  rw [findIntersectsLoop_eq_filter period t.Items [] hs, List.nil_append]

/-- The query `[59,61)` on the twelve months finds February and March and stops at April. -/
theorem findIntersects_eq_filter_witness :
    yearTimeline.FindIntersects ⟨59, 61⟩ = [⟨⟨31, 60⟩, 200⟩, ⟨⟨60, 91⟩, 300⟩] :=
  (findIntersects_eq_filter yearTimeline ⟨59, 61⟩ (by decide)).trans (by decide)

/-- C21: after `Add`, whatever the order of the items before, the items are sorted by period
start and are a permutation of the previous items with the new item; none is dropped, merged or
deduplicated. -/
theorem add_sorted_perm (t : Timeline T) (period : Period) (value : T) :
    SortedByStart (t.Add period value).Items ∧
      (t.Add period value).Items.Perm (t.Items ++ [{ Period := period, Value := value }]) ∧
      (t.Add period value).Items.length = t.Items.length + 1 := by
  have hperm : (t.Add period value).Items.Perm
      (t.Items ++ [{ Period := period, Value := value }]) := sortTimeline_perm _
  refine ⟨sortTimeline_sorted _, hperm, ?_⟩
  rw [hperm.length_eq]
  simp

/-- C22: `NewPeriod` returns an error, and no period, exactly when `stop` is not after `start`;
otherwise it returns the period with that start and end, which is not empty. -/
theorem newPeriod_spec (start stop : Time) :
    ((∃ e, NewPeriod start stop = .error e) ↔ stop.tick ≤ start.tick) ∧
      (stop.tick ≤ start.tick → NewPeriod start stop = .error errInvalidPeriod) ∧
      (start.tick < stop.tick →
        NewPeriod start stop = .ok { Start := start, End := stop } ∧
          Period.IsEmpty { Start := start, End := stop } = false) := by
  refine ⟨?_, fun h => newPeriod_error h, fun h => ⟨newPeriod_ok h, ?_⟩⟩
  · by_cases h : stop.tick ≤ start.tick
    · rw [newPeriod_error h]
      simp [h]
    · rw [newPeriod_ok (by omega)]
      simp [h]
  · rw [← Bool.not_eq_true, isEmpty_iff]
    simp only
    omega

/-- The period 1-31 August is accepted; the reversed one and the zero-length one are refused. -/
theorem newPeriod_spec_witness :
    NewPeriod 213 243 = .ok { Start := 213, End := 243 } ∧
      NewPeriod 243 213 = .error errInvalidPeriod ∧
      NewPeriod 213 213 = .error errInvalidPeriod :=
  ⟨((newPeriod_spec 213 243).2.2 (by decide)).1, (newPeriod_spec 243 213).2.1 (by decide),
    (newPeriod_spec 213 213).2.1 (by decide)⟩

/-- C23: a period intersects itself exactly when it is not empty; a valid period does and the
empty period does not. -/
theorem intersects_self_iff (p : Period) :
    (p.Intersects p = true ↔ p.IsEmpty = false) ∧
      (p.Start.tick < p.End.tick → p.Intersects p = true) ∧
      Empty.Intersects Empty = false := by
  refine ⟨?_, fun h => (intersects_iff _ _).2 ⟨h, h⟩, by decide⟩
  rw [intersects_iff, ← Bool.not_eq_true, isEmpty_iff]
  omega

/-- January 2024 intersects itself; the zero-length period `[5,5)` does not. -/
theorem intersects_self_iff_witness :
    Period.Intersects ⟨0, 31⟩ ⟨0, 31⟩ = true ∧ Period.Intersects ⟨5, 5⟩ ⟨5, 5⟩ = false :=
  ⟨(intersects_self_iff ⟨0, 31⟩).2.1 (by decide),
    by
      have h := (intersects_self_iff ⟨5, 5⟩).1
      cases hi : Period.Intersects ⟨5, 5⟩ ⟨5, 5⟩ with
      | false => rfl
      | true => exact absurd (h.1 hi) (by decide)⟩

/-- C24: contiguous periods do not intersect, and `Intersects` is symmetric. -/
theorem contiguous_not_intersects (p q : Period) :
    (p.IsContiguous q = true → p.Intersects q = false) ∧
      p.Intersects q = q.Intersects p := by
  constructor
  · intro h
    unfold Period.IsContiguous Time.Equal at h
    simp only [Bool.or_eq_true, decide_eq_true_eq] at h
    rw [← Bool.not_eq_true, intersects_iff]
    omega
  · rw [Bool.eq_iff_iff, intersects_iff, intersects_iff]
    omega

/-- January and February 2024 touch on 1 February and do not intersect, in either order. -/
theorem contiguous_not_intersects_witness :
    Period.Intersects ⟨0, 31⟩ ⟨31, 60⟩ = false ∧ Period.Intersects ⟨31, 60⟩ ⟨0, 31⟩ = false :=
  ⟨(contiguous_not_intersects ⟨0, 31⟩ ⟨31, 60⟩).1 (by decide),
    (contiguous_not_intersects ⟨31, 60⟩ ⟨0, 31⟩).1 (by decide)⟩

/-- C25: `Contains` holds exactly for the instants from the start to the end, both included;
a valid period contains its end, while a period starting at that end does not intersect it. -/
theorem contains_iff (p : Period) (t : Time) :
    (p.Contains t = true ↔ p.Start.tick ≤ t.tick ∧ t.tick ≤ p.End.tick) ∧
      (p.Start.tick < p.End.tick → p.Contains p.End = true) ∧
      (∀ q : Period, q.Start.tick = p.End.tick → q.Intersects p = false) := by
  have hiff : ∀ i : Time, p.Contains i = true ↔ p.Start.tick ≤ i.tick ∧ i.tick ≤ p.End.tick := by
    intro i
    unfold Period.Contains
    simp only [Bool.and_eq_true, Bool.or_eq_true, time_after_iff, time_before_iff,
      time_equal_iff]
    omega
  refine ⟨hiff t, fun h => (hiff _).2 ⟨by omega, le_refl _⟩, ?_⟩
  intro q hq
  rw [← Bool.not_eq_true, intersects_iff]
  omega

/-- August 2024 contains 15 August and its own end, 1 September; September does not
intersect it. -/
theorem contains_iff_witness :
    Period.Contains ⟨213, 244⟩ 227 = true ∧ Period.Contains ⟨213, 244⟩ 244 = true ∧
      Period.Intersects ⟨244, 274⟩ ⟨213, 244⟩ = false :=
  ⟨(contains_iff ⟨213, 244⟩ 227).1.2 (by decide), (contains_iff ⟨213, 244⟩ 244).2.1 (by decide),
    (contains_iff ⟨213, 244⟩ 0).2.2 ⟨244, 274⟩ rfl⟩

/-- C30 (evaluation at the failing input): `[0,10)=1, [5,20)=2, [12,15)=4` is sorted, has
non-empty periods and each item after the first starts before the latest end before it, yet the
periods of the result of `ResolveConflicts` are `[0,5), [5,10), [10,20), [12,15)` and not the
periods `[0,5), [5,10), [10,12), [12,15), [15,20)` of `SplitAllPeriods`. -/
theorem resolveConflicts_chain_not_single_cluster :
    SortedByStart chainTimeline.Items ∧ NonEmptyPeriods chainTimeline.Items ∧
      ConnectedCluster chainTimeline.Items = true ∧
      (chainTimeline.ResolveConflicts addValues).1.Items.map (fun x => x.Period) =
        [⟨0, 5⟩, ⟨5, 10⟩, ⟨10, 20⟩, ⟨12, 15⟩] ∧
      SplitAllPeriods chainTimeline.Items = [⟨0, 5⟩, ⟨5, 10⟩, ⟨10, 12⟩, ⟨12, 15⟩, ⟨15, 20⟩] := by
  decide

/-- C26: for non-empty periods `p` and `q`, `SplitFromPeriod` emits nothing when they do not
intersect; otherwise it emits the three-way partition of `p` around `q`: one to three non-empty
periods, the first starting at `p.Start`, each ending where the next starts, the last ending at
`p.End`, of which exactly `[max p.Start q.Start, min p.End q.End)` lies inside `q`, preceded by
`[p.Start, q.Start)` iff `p.Start < q.Start` and followed by `[q.End, p.End)` iff
`q.End < p.End`. -/
theorem splitFromPeriod_spec (p q : Period) (hp : p.Start.tick < p.End.tick)
    (hq : q.Start.tick < q.End.tick) :
    (p.Intersects q = false → p.SplitFromPeriod q = []) ∧
      (p.Intersects q = true →
        p.SplitFromPeriod q = threeWaySplit p q ∧
          1 ≤ (p.SplitFromPeriod q).length ∧ (p.SplitFromPeriod q).length ≤ 3 ∧
          (∀ r ∈ p.SplitFromPeriod q, r.Start.tick < r.End.tick) ∧
          (p.SplitFromPeriod q).Chain' (fun a b => a.End.tick = b.Start.tick) ∧
          (∃ first, (p.SplitFromPeriod q).head? = some first ∧
            first.Start.tick = p.Start.tick) ∧
          (∃ last, (p.SplitFromPeriod q).getLast? = some last ∧ last.End.tick = p.End.tick) ∧
          (∀ r ∈ p.SplitFromPeriod q,
            q.ContainsPeriod r = true ↔
              r = { Start := laterOf p.Start q.Start, End := earlierOf p.End q.End }) ∧
          (laterOf p.Start q.Start).tick = max p.Start.tick q.Start.tick ∧
          (earlierOf p.End q.End).tick = min p.End.tick q.End.tick) := by
  constructor
  · intro h
    unfold Period.SplitFromPeriod
    simp [h]
  · intro h
    have hi := (intersects_iff _ _).1 h
    rw [splitFromPeriod_eq_threeWaySplit p q h]
    obtain ⟨h1, h2, h3, h4, h5, h6, h7⟩ := threeWaySplit_props p q hp hq hi.1 hi.2
    exact ⟨rfl, h1, h2, h3, h4, h5, h6, h7, laterOf_tick _ _, earlierOf_tick _ _⟩

/-- February 2024 split around 15 February, and January 2024 split around March 2024. -/
theorem splitFromPeriod_spec_witness :
    Period.SplitFromPeriod ⟨31, 60⟩ ⟨45, 46⟩ = [⟨31, 45⟩, ⟨45, 46⟩, ⟨46, 60⟩] ∧
      Period.SplitFromPeriod ⟨0, 31⟩ ⟨60, 91⟩ = [] :=
  ⟨((splitFromPeriod_spec ⟨31, 60⟩ ⟨45, 46⟩ (by decide) (by decide)).2 (by decide)).1.trans
      (by decide),
    (splitFromPeriod_spec ⟨0, 31⟩ ⟨60, 91⟩ (by decide) (by decide)).1 (by decide)⟩

/-- C27: with a step function that strictly advances and enough iterations allowed, `Split`
ends and emits no chunk for an empty period; otherwise the first chunk starts at `p.Start`,
every chunk is `[c, f c)` and starts before `p.End`, each chunk starts where the one before it
ends, and the last chunk ends at or after `p.End`. The last chunk is not clipped: for the period
`[0,10)` and steps of three ticks it ends at 12. -/
theorem split_chunks :
    (∀ (p : Period) (f : Time → Time) (fuel : Nat),
      (∀ t, t.tick < (f t).tick) → (p.End.tick - p.Start.tick).toNat ≤ fuel →
        ∃ chunks, p.Split f fuel = some chunks ∧
          (p.End.tick ≤ p.Start.tick → chunks = []) ∧
          (p.Start.tick < p.End.tick →
            (∃ first, chunks.head? = some first ∧ first.Start = p.Start) ∧
              ∃ last, chunks.getLast? = some last ∧ p.End.tick ≤ last.End.tick) ∧
          (∀ c ∈ chunks, c.End = f c.Start ∧ c.Start.tick < p.End.tick) ∧
          chunks.Chain' (fun a b => a.End = b.Start)) ∧
      ∃ (p : Period) (f : Time → Time) (fuel : Nat) (chunks : List Period) (last : Period),
        (∀ t, t.tick < (f t).tick) ∧ p.Split f fuel = some chunks ∧
          chunks.getLast? = some last ∧ p.End.tick < last.End.tick := by
  constructor
  · intro p f fuel hf hfuel
    exact splitLoop_spec f hf p.End fuel p.Start hfuel
  · refine ⟨⟨0, 10⟩, stepThree, 10, [⟨0, 3⟩, ⟨3, 6⟩, ⟨6, 9⟩, ⟨9, 12⟩], ⟨9, 12⟩, ?_, by decide,
      by decide, by decide⟩
    intro t
    show t.tick < t.tick + 3
    omega

/-- The period `[0,10)` split by steps of three ticks, with ten iterations allowed. -/
theorem split_chunks_witness :
    ∃ chunks, Period.Split ⟨0, 10⟩ stepThree 10 = some chunks ∧
      ((10 : Int) ≤ 0 → chunks = []) ∧
      ((0 : Int) < 10 →
        (∃ first, chunks.head? = some first ∧ first.Start = 0) ∧
          ∃ last, chunks.getLast? = some last ∧ 10 ≤ last.End.tick) ∧
      (∀ c ∈ chunks, c.End = stepThree c.Start ∧ c.Start.tick < 10) ∧
      chunks.Chain' (fun a b => a.End = b.Start) :=
  split_chunks.1 ⟨0, 10⟩ stepThree 10 (by intro t; show t.tick < t.tick + 3; omega)
    (by decide)

/-- C28: for a fixed step `d > 0` and a period of length `n * d` with `n ≥ 1`, `Split` with the
step `t + d`, and so `SplitByDays` with days of `d` ticks, emits exactly the `n` periods
`[p.Start + k d, p.Start + (k + 1) d)` for `k = 0, ..., n - 1`, the last one being
`[p.End - d, p.End)`. -/
theorem split_fixed_step (p : Period) (d : Int) (n fuel : Nat) (hd : 0 < d) (hn : 1 ≤ n)
    (hlen : p.End.tick - p.Start.tick = n * d) (hfuel : n ≤ fuel) :
    p.Split (fun t => t.Add d) fuel =
        some ((List.range n).map
          (fun k => { Start := p.Start.Add (k * d), End := p.Start.Add ((k + 1) * d) })) ∧
      ∃ chunks, p.SplitByDays d fuel = some chunks ∧ chunks.length = n ∧
        ∃ last, chunks.getLast? = some last ∧ last.Start.tick = p.End.tick - d ∧
          last.End.tick = p.End.tick := by
  have h := splitLoop_fixed_step d hd p.End n fuel p.Start hlen hfuel
  refine ⟨h, _, h, by simp, ?_⟩
  obtain ⟨m, rfl⟩ : ∃ m, n = m + 1 := ⟨n - 1, by omega⟩
  rw [List.range_succ, List.map_append, List.map_singleton, List.getLast?_concat]
  have hlen2 : p.End.tick - p.Start.tick = m * d + d := by
    rw [hlen]; push_cast; ring
  refine ⟨_, rfl, ?_, ?_⟩
  · show p.Start.tick + m * d = p.End.tick - d
    linarith
  · show p.Start.tick + (m + 1) * d = p.End.tick
    linarith

/-- January 2024 split by days gives 31 periods, the last starting on 31 January; the year
2024 gives 366, the last starting on 31 December. -/
theorem split_fixed_step_witness :
    (∃ chunks, Period.SplitByDays ⟨0, 31⟩ 1 31 = some chunks ∧ chunks.length = 31 ∧
        ∃ last, chunks.getLast? = some last ∧ last.Start.tick = 31 - 1 ∧ last.End.tick = 31) ∧
      ∃ chunks, Period.SplitByDays ⟨0, 366⟩ 1 366 = some chunks ∧ chunks.length = 366 ∧
        ∃ last, chunks.getLast? = some last ∧ last.Start.tick = 366 - 1 ∧
          last.End.tick = 366 :=
  ⟨(split_fixed_step ⟨0, 31⟩ 1 31 31 (by decide) (by decide) (by decide) (by decide)).2,
    (split_fixed_step ⟨0, 366⟩ 1 366 366 (by decide) (by decide) (by decide) (by decide)).2⟩

/-- C29: for a sequence of `AddPeriod` and `AddPeriodValue` calls on a new builder, `Build`
returns an error exactly when some added period has its end not after its start; then the
builder holds the items added before the first such call and its error, and `Build` returns
that error and no item. Otherwise `Build` returns no error and a timeline sorted by period
start whose items are a permutation of the added pairs. -/
theorem build_spec (calls : List (BuilderCall T)) :
    (((runCalls calls).Build).2 ≠ none ↔
        ∃ c ∈ calls, ¬ c.item.Period.Start.tick < c.item.Period.End.tick) ∧
      (∀ pre c post, calls = pre ++ c :: post →
        (∀ x ∈ pre, x.item.Period.Start.tick < x.item.Period.End.tick) →
        ¬ c.item.Period.Start.tick < c.item.Period.End.tick →
          runCalls calls = { items := pre.map BuilderCall.item, err := some errInvalidPeriod } ∧
            (runCalls calls).Build = ({ Items := [] }, some errInvalidPeriod)) ∧
      ((∀ c ∈ calls, c.item.Period.Start.tick < c.item.Period.End.tick) →
        ((runCalls calls).Build).2 = none ∧
          SortedByStart ((runCalls calls).Build).1.Items ∧
          ((runCalls calls).Build).1.Items.Perm (calls.map BuilderCall.item)) := by
  have hbad : ∀ pre c post, calls = pre ++ c :: post →
      (∀ x ∈ pre, x.item.Period.Start.tick < x.item.Period.End.tick) →
      ¬ c.item.Period.Start.tick < c.item.Period.End.tick →
        runCalls calls = { items := pre.map BuilderCall.item, err := some errInvalidPeriod } ∧
          (runCalls calls).Build = ({ Items := [] }, some errInvalidPeriod) := by
    intro pre c post hcalls hpre hc
    have h := runCalls_of_invalid pre c post hpre hc
    rw [hcalls, h]
    exact ⟨rfl, rfl⟩
  have hgood : (∀ c ∈ calls, c.item.Period.Start.tick < c.item.Period.End.tick) →
      (runCalls calls).Build =
        (Timeline.SortTimelineByPeriodStart { Items := calls.map BuilderCall.item }, none) := by
    intro h
    unfold runCalls NewTimeLineBuilder
    rw [foldl_apply_of_valid calls [] h, List.nil_append]
    rfl
  refine ⟨?_, hbad, ?_⟩
  · constructor
    · intro herr
      by_contra hno
      have hall : ∀ c ∈ calls, c.item.Period.Start.tick < c.item.Period.End.tick := by
        intro c hc
        by_contra hc2
        exact hno ⟨c, hc, hc2⟩
      rw [hgood hall] at herr
      exact herr rfl
    · rintro ⟨c, hc, hinv⟩
      rcases first_invalid_call calls with h | ⟨pre, c2, post, h1, h2, h3⟩
      · exact absurd (h c hc) hinv
      · rw [(hbad pre c2 post h1 h2 h3).2]
        simp
  · intro h
    rw [hgood h]
    exact ⟨rfl, sortTimeline_sorted _, sortTimeline_perm _⟩

/-- Three calls of which the second has the zero-length period `[5,5)`: the builder keeps the
first item only and `Build` returns the error and no item. -/
theorem build_spec_witness :
    runCalls [BuilderCall.addPeriod 31 60 (2 : Int), .addPeriodValue ⟨⟨5, 5⟩, 9⟩,
        .addPeriod 0 31 1] =
        { items := [⟨⟨31, 60⟩, 2⟩], err := some errInvalidPeriod } ∧
      (runCalls [BuilderCall.addPeriod 31 60 (2 : Int), .addPeriodValue ⟨⟨5, 5⟩, 9⟩,
        .addPeriod 0 31 1]).Build = ({ Items := [] }, some errInvalidPeriod) :=
  (build_spec [BuilderCall.addPeriod 31 60 (2 : Int), .addPeriodValue ⟨⟨5, 5⟩, 9⟩,
      .addPeriod 0 31 1]).2.1
    [.addPeriod 31 60 2] (.addPeriodValue ⟨⟨5, 5⟩, 9⟩) [.addPeriod 0 31 1] rfl (by decide)
    (by decide)

end ClaimsOnItems

end Timelines
